import Mathlib

/-!
# buildx `util/imagetools/create.go`: a shallow embedding

The Go file composes an OCI image index (or a Docker manifest list) from a
list of sources.  The embedding below follows `create.go` function by
function.

* Go structs become Lean structures with the same field names.
* A Go `map[string]string` becomes an association list; a `nil` map is
  `none`.  Phases 3 and 5, which write into the annotation maps of the
  descriptors, are given twice: on the contents of the maps (`addDesc`,
  `overlayChild` and the functions around them) and on map objects
  (`addDescRef`, `overlayChildRef` and the functions around them), where a
  descriptor holds the address of its map, as in Go.  The two agree when no
  two descriptors of the sources hold the same map object
  (`mergeDescsRef_refines`, `composeIndexRef_refines`); the other phases
  neither write a map nor make one.
* A platform pointer is read as the platform it points to: the only write
  through such a pointer is that of `loadPlatform`, in the goroutine of the
  source that holds it.
* Everything the file calls in other packages (registry fetch, JSON
  decoding and encoding, the `platforms` helpers, the digest function) is a
  field of `Env`.
* Go leaves two things open: which goroutine of the `errgroup` fails
  first, and in which order a `range` loop visits a map.  `Sched` makes these
  choices explicit, so one `Sched` is one run.
* A `nil` pointer dereference is the outcome `Err.nilPlatformDeref`.
-/

namespace Imagetools

/-! ## Data model -/

/-- Raw bytes of a blob (`[]byte`). -/
abbrev Bytes := List Nat

/-- A non-nil `map[string]string`, as an association list. -/
abbrev GoMap := List (String × String)

/-- Lookup `m[k]` with the `ok` flag. -/
def mget (m : GoMap) (k : String) : Option String :=
  match m with
  | [] => none
  | (k1, v1) :: rest => if k1 = k then some v1 else mget rest k

/-- Assignment `m[k] = v`: overwrite the entry of `k`, or add one. -/
def mset (m : GoMap) (k v : String) : GoMap :=
  match m with
  | [] => [(k, v)]
  | (k1, v1) :: rest => if k1 = k then (k, v) :: rest else (k1, v1) :: mset rest k v

/-- The map itself, or a new empty map for a nil map: the effect of
`if a == nil { a = map[string]string{} }` and of a `range` over a nil map. -/
def orEmpty (a : Option GoMap) : GoMap :=
  match a with
  | none => []
  | some m => m

/-- The entries of the map `m`, one for each key: what a `range` loop over `m`
visits and what `len(m)` counts. -/
def entries : GoMap → GoMap
  | [] => []
  | (k, v) :: rest => (k, v) :: (entries rest).filter (fun e => e.1 ≠ k)

/-- Type `ocispec.Platform`. -/
structure Platform where
  Architecture : String
  OS : String
  OSVersion : String
  OSFeatures : List String
  Variant : String
  deriving DecidableEq, Repr

/-- The zero value `ocispec.Platform{}`. -/
def Platform.zero : Platform :=
  ⟨"", "", "", [], ""⟩

/-- Type `ocispec.Descriptor`; `Platform` is a pointer and `Annotations` a map,
both may be nil. -/
structure Descriptor where
  MediaType : String
  Digest : String
  Size : Int
  URLs : List String
  Annotations : Option GoMap
  Platform : Option Platform
  deriving DecidableEq, Repr

/-- The zero value `ocispec.Descriptor{}`. -/
def Descriptor.zero : Descriptor :=
  ⟨"", "", 0, [], none, none⟩

/-- Type `Source`; `Ref` stands for `Ref.String()`. -/
structure Source where
  Desc : Descriptor
  Ref : String
  deriving DecidableEq, Repr

/-- Type `ocispec.Index`, with `specs.Versioned` inlined. -/
structure Index where
  SchemaVersion : Int
  MediaType : String
  Manifests : List Descriptor
  Annotations : Option GoMap
  deriving DecidableEq, Repr

/-- Type `ocispec.Manifest`, with `specs.Versioned` inlined. -/
structure Manifest where
  SchemaVersion : Int
  MediaType : String
  Config : Descriptor
  Layers : List Descriptor
  Annotations : Option GoMap
  deriving DecidableEq, Repr

/-- The anonymous struct that `detectMediaType` decodes into; `Config` is a
`json.RawMessage`, nil when the field is absent. -/
structure LooseManifest where
  MediaType : String
  Config : Option Bytes
  FSLayers : List String
  deriving DecidableEq, Repr

/-- Type `exptypes.AnnotationKey`. -/
structure AnnotationKey where
  Typ : String
  Platform : Option Platform
  Key : String
  deriving DecidableEq, Repr

/-- A `map[exptypes.AnnotationKey]string`.  The key holds a platform pointer,
so every entry parsed from a different flag is a different key; the bucket is
the list of its entries. -/
abbrev Bucket := List (AnnotationKey × String)

/-- The outcomes of the file that are not a normal return value. -/
inductive Err where
  /-- an error of a collaborator, returned as it is -/
  | external (msg : String)
  /-- the result of `errors.WithStack(err)` around a JSON decoding error -/
  | withStack (msg : String)
  /-- the error "schema1 manifests are not allowed in manifest lists" -/
  | schema1NotAllowed
  /-- the error "invalid annotation format, expected type:key=value, got k" -/
  | invalidFormat (k : String)
  /-- the error "invalid platform": `errors.Wrapf` around the error of `platforms.Parse` -/
  | invalidPlatform (platform : String) (cause : String)
  /-- the error "annotations are not supported yet" -/
  | notSupportedYet (typ : String)
  /-- the error "annotations are invalid while creating an image" -/
  | invalidWhileCreating (typ : String)
  /-- the error "unknown annotation type" -/
  | unknownType (typ : String)
  /-- the error "failed to marshal index": `errors.Wrap` around the encoder error -/
  | marshalFailed (cause : String)
  /-- the run-time panic of `*newDescs[i].Platform` with a nil `Platform` -/
  | nilPlatformDeref
  deriving DecidableEq, Repr

deriving instance DecidableEq for Except

/-! ## Constants of the imported packages -/

/-- Constant `images.MediaTypeDockerSchema2Manifest`. -/
def MediaTypeDockerSchema2Manifest : String :=
  "application/vnd.docker.distribution.manifest.v2+json"

/-- Constant `images.MediaTypeDockerSchema2ManifestList`. -/
def MediaTypeDockerSchema2ManifestList : String :=
  "application/vnd.docker.distribution.manifest.list.v2+json"

/-- Constant `images.MediaTypeDockerSchema1Manifest`. -/
def MediaTypeDockerSchema1Manifest : String :=
  "application/vnd.docker.distribution.manifest.v1+prettyjws"

/-- Constant `ocispec.MediaTypeImageManifest`. -/
def MediaTypeImageManifest : String :=
  "application/vnd.oci.image.manifest.v1+json"

/-- Constant `ocispec.MediaTypeImageIndex`. -/
def MediaTypeImageIndex : String :=
  "application/vnd.oci.image.index.v1+json"

/-- Constant `exptypes.AnnotationIndex`. -/
def AnnotationIndex : String := "index"

/-- Constant `exptypes.AnnotationIndexDescriptor`. -/
def AnnotationIndexDescriptor : String := "index-descriptor"

/-- Constant `exptypes.AnnotationManifest`. -/
def AnnotationManifest : String := "manifest"

/-- Constant `exptypes.AnnotationManifestDescriptor`. -/
def AnnotationManifestDescriptor : String := "manifest-descriptor"

/-! ## The collaborators and the open choices -/

/-- What `create.go` calls outside itself.  A failing call gives the text of
its error. -/
structure Env where
  /-- the method `r.GetDescriptor(ctx, ref, desc)` -/
  GetDescriptor : String → Descriptor → Except String Bytes
  /-- the call of `json.Unmarshal` in `detectMediaType` -/
  unmarshalLoose : Bytes → Except String LooseManifest
  /-- the call of `json.Unmarshal` into an `ocispec.Index` -/
  unmarshalIndex : Bytes → Except String Index
  /-- the call of `json.Unmarshal` into an `ocispec.Manifest` -/
  unmarshalManifest : Bytes → Except String Manifest
  /-- the call of `json.Unmarshal` into an `ocispec.Platform` -/
  unmarshalPlatform : Bytes → Except String Platform
  /-- the function `platforms.Normalize` -/
  Normalize : Platform → Platform
  /-- the function `platforms.Format` -/
  Format : Platform → String
  /-- the function `platforms.Parse` -/
  Parse : String → Except String Platform
  /-- the call `json.MarshalIndent(idx, "", "  ")` -/
  MarshalIndent : Index → Except String Bytes
  /-- the function `digest.FromBytes`, the SHA-256 digest of the bytes -/
  FromBytes : Bytes → String

/-- The choices of one run that Go leaves open. -/
structure Sched where
  /-- the order in which the goroutines of Phase 1 finish -/
  done : List Nat
  /-- the visiting order of `range ann` in `parseAnnotations` -/
  parse : List Nat
  /-- the visiting order of `range annotations[exptypes.AnnotationIndex]` -/
  index : List Nat
  /-- the visiting order of `range annotations[exptypes.AnnotationManifestDescriptor]`
  for the child at position `i` -/
  desc : Nat → List Nat

/-- The order in which a `range` loop visits the entries `l` of a map: the
code picks, step by step, which of the entries not yet visited comes next.
Every code gives a permutation of `l`, and every permutation has a code. -/
def permute {α : Type} : List Nat → List α → List α
  | [], l => l
  | _ :: _, [] => []
  | c :: cs, x :: xs =>
    match (x :: xs).drop (c % (xs.length + 1)) with
    | [] => x :: xs
    | y :: t => y :: permute cs ((x :: xs).take (c % (xs.length + 1)) ++ t)

/-- Function `strings.HasPrefix`. -/
def HasPrefix (s p : String) : Bool :=
  p.data.isPrefixOf s.data

/-- Method `AnnotationKey.PlatformString` of `exptypes`: the empty string
without a platform, `platforms.Format` of the platform otherwise. -/
def AnnotationKey.PlatformString (env : Env) (k : AnnotationKey) : String :=
  match k.Platform with
  | none => ""
  | some p => env.Format p

/-! ## `detectMediaType` -/

/-- Function `detectMediaType`. -/
def detectMediaType (env : Env) (dt : Bytes) : Except Err String :=
  match env.unmarshalLoose dt with
  | .error e => .error (Err.withStack e)
  | .ok mfst =>
    if mfst.MediaType ≠ "" then .ok mfst.MediaType
    else if mfst.Config ≠ none then .ok MediaTypeDockerSchema2Manifest
    else if mfst.FSLayers.length > 0 then .ok MediaTypeDockerSchema1Manifest
    else .ok MediaTypeDockerSchema2ManifestList

/-! ## `loadPlatform` -/

/-- Method `loadPlatform`; the receiver `p2` is passed in and the updated
receiver is returned. -/
def loadPlatform (env : Env) (p2 : Platform) (ref : String) (dt : Bytes) :
    Except Err Platform :=
  match env.unmarshalManifest dt with
  | .error e => .error (Err.withStack e)
  | .ok manifest =>
    match env.GetDescriptor ref manifest.Config with
    | .error e => .error (Err.external e)
    | .ok dt2 =>
      match env.unmarshalPlatform dt2 with
      | .error e => .error (Err.withStack e)
      | .ok p0 =>
        let p := env.Normalize p0
        let p2a : Platform :=
          if p2.Architecture = "" then
            { p2 with
              Architecture := p.Architecture
              Variant := if p2.Variant = "" then p.Variant else p2.Variant }
          else p2
        let p2b : Platform := if p2a.OS = "" then { p2a with OS := p.OS } else p2a
        .ok p2b

/-! ## `parseAnnotations` -/

/-- Class `[a-z-]` of the pattern. -/
def isTypeChar (c : Char) : Bool :=
  (decide ('a' ≤ c) && decide (c ≤ 'z')) || c == '-'

/-- Class of group 2 of the pattern: ASCII letters, digits, underscore, slash
and hyphen. -/
def isPlatformChar (c : Char) : Bool :=
  (decide ('A' ≤ c) && decide (c ≤ 'Z')) || (decide ('a' ≤ c) && decide (c ≤ 'z'))
    || (decide ('0' ≤ c) && decide (c ≤ '9')) || c == '_' || c == '/' || c == '-'

/-- Class `\S` of the pattern: anything but tab, newline, form feed, carriage
return and space. -/
def isNonSpace (c : Char) : Bool :=
  !(c == '\t' || c == '\n' || c == Char.ofNat 12 || c == '\r' || c == ' ')

/-- The call `annotationRegexp.FindStringSubmatch(k)` for the pattern of
`parseAnnotations` (group 1: one or more of `[a-z-]`; then, optionally, group 2
in square brackets: one or more letters, digits, `_`, slash or `-`; then a
colon; then group 3: one or more `\S` up to the end of the text): the three
groups, or `none` when `k` does not match.  No character of group 1 is `[` or
`:` and none of group 2 is `]`, so each group is the longest run of its class,
and group 2 is the empty string when the brackets are absent. -/
def FindStringSubmatch (k : String) : Option (String × String × String) :=
  let typ := k.data.takeWhile isTypeChar
  if typ = [] then none
  else
    match k.data.dropWhile isTypeChar with
    | '[' :: r1 =>
      let platform := r1.takeWhile isPlatformChar
      if platform = [] then none
      else
        match r1.dropWhile isPlatformChar with
        | ']' :: ':' :: key =>
          if key ≠ [] ∧ key.all isNonSpace then
            some (String.mk typ, String.mk platform, String.mk key)
          else none
        | _ => none
    | ':' :: key =>
      if key ≠ [] ∧ key.all isNonSpace then some (String.mk typ, "", String.mk key)
      else none
    | _ => none

/-- The value `parseAnnotations` returns: a map from the type of an annotation
to the bucket of that type. -/
abbrev Buckets := List (String × Bucket)

/-- Lookup `annotations[typ]` in the returned map; a missing key gives the nil
map, which has no entries. -/
def Buckets.get (b : Buckets) (typ : String) : Bucket :=
  match b with
  | [] => []
  | (t, entries) :: rest => if t = typ then entries else Buckets.get rest typ

/-- One round of the loop of `parseAnnotations`; the state is the pair
`(indexAnnotations, manifestDescriptorAnnotations)`. -/
def parseStep (env : Env) (st : Bucket × Bucket) (kv : String × String) :
    Except Err (Bucket × Bucket) :=
  match FindStringSubmatch kv.1 with
  | none => .error (Err.invalidFormat kv.1)
  | some (typ, platform, key) =>
    let ociPlatform : Except Err (Option Platform) :=
      if platform ≠ "" then
        match env.Parse platform with
        | .error e => .error (Err.invalidPlatform platform e)
        | .ok p => .ok (some p)
      else .ok none
    match ociPlatform with
    | .error e => .error e
    | .ok op =>
      if typ = AnnotationIndex then
        .ok (st.1 ++ [(⟨typ, op, key⟩, kv.2)], st.2)
      else if typ = AnnotationManifestDescriptor then
        .ok (st.1, st.2 ++ [(⟨typ, op, key⟩, kv.2)])
      else if typ = AnnotationManifest then .error (Err.notSupportedYet typ)
      else if typ = AnnotationIndexDescriptor then .error (Err.invalidWhileCreating typ)
      else .error (Err.unknownType typ)

/-- The loop of `parseAnnotations` over the entries in visiting order. -/
def parseLoop (env : Env) (st : Bucket × Bucket) : List (String × String) →
    Except Err (Bucket × Bucket)
  | [] => .ok st
  | kv :: rest =>
    match parseStep env st kv with
    | .error e => .error e
    | .ok st1 => parseLoop env st1 rest

/-- Function `parseAnnotations`; `order` is the visiting order of `range ann`.
A nil `ann` is the empty list. -/
def parseAnnotations (env : Env) (order : List Nat) (ann : GoMap) : Except Err Buckets :=
  match parseLoop env ([], []) (permute order (entries ann)) with
  | .error e => .error e
  | .ok st => .ok [(AnnotationIndex, st.1), (AnnotationManifestDescriptor, st.2)]

/-! ## `Combine` -/

/-- The step `if srcs[i].Desc.MediaType == "" { ... }` of the goroutine: the
descriptor with the detected media type filled in when it has none. -/
def fillMediaType (env : Env) (desc : Descriptor) (dt : Bytes) : Except Err Descriptor :=
  if desc.MediaType = "" then
    match detectMediaType env dt with
    | .error e => .error e
    | .ok mt => .ok { desc with MediaType := mt }
  else .ok desc

/-- The pointer `p` of the goroutine: the platform of the descriptor, or a new
zero platform when the descriptor has none. -/
def platformOrZero (desc : Descriptor) : Platform :=
  match desc.Platform with
  | none => Platform.zero
  | some p0 => p0

/-- The step `switch mt { ... }` of the goroutine: the descriptor with its
platform filled in for a single-arch manifest, the schema1 error, or the
descriptor as it is. -/
def fillPlatform (env : Env) (ref : String) (dt : Bytes) (desc : Descriptor) :
    Except Err Descriptor :=
  if desc.MediaType = MediaTypeDockerSchema2Manifest
      ∨ desc.MediaType = MediaTypeImageManifest then
    if (platformOrZero desc).OS = "" ∨ (platformOrZero desc).Architecture = "" then
      match loadPlatform env (platformOrZero desc) ref dt with
      | .error e => .error e
      | .ok p1 => .ok { desc with Platform := some p1 }
    else .ok { desc with Platform := some (platformOrZero desc) }
  else if desc.MediaType = MediaTypeDockerSchema1Manifest then
    .error Err.schema1NotAllowed
  else .ok desc

/-- The body of the goroutine of Phase 1 that handles `src`: the fetched bytes
`dts[i]` and the source with its descriptor filled in, or the error the
goroutine returns. -/
def resolveSource (env : Env) (src : Source) : Except Err (Bytes × Source) :=
  match env.GetDescriptor src.Ref src.Desc with
  | .error e => .error (Err.external e)
  | .ok dt =>
    match fillMediaType env src.Desc dt with
    | .error e => .error e
    | .ok desc =>
      match fillPlatform env src.Ref dt desc with
      | .error e => .error e
      | .ok desc1 => .ok (dt, { src with Desc := desc1 })

/-- The error `eg.Wait()` returns: the error of the goroutine that fails first
in the finishing order `done` (positions that `done` does not list finish
after it, in source order); `none` when no goroutine fails. -/
def firstError {α : Type} (done : List Nat) (rs : List (Except Err α)) : Option Err :=
  (done ++ List.range rs.length).findSome? fun i =>
    match rs.get? i with
    | some (.error e) => some e
    | _ => none

/-- The values of the goroutines that returned no error. -/
def okValues {α : Type} : List (Except Err α) → List α
  | [] => []
  | .ok a :: rest => a :: okValues rest
  | .error _ :: rest => okValues rest

/-- Phase 1 of `Combine` up to `eg.Wait()`: for each source the pair of `dts[i]`
and the updated `srcs[i]`. -/
def phase1 (env : Env) (done : List Nat) (srcs : List Source) :
    Except Err (List (Bytes × Source)) :=
  match firstError done (srcs.map (resolveSource env)) with
  | some e => .error e
  | none => .ok (okValues (srcs.map (resolveSource env)))

/-- Phase 2: the pass-through `len(srcs) == 1 && len(ann) == 0` with a source
that is a manifest list or an index; `none` when it is not taken. -/
def passThrough (rs : List (Bytes × Source)) (ann : GoMap) : Option (Bytes × Descriptor) :=
  if rs.length = 1 ∧ (entries ann).length = 0 then
    match rs with
    | (dt, src) :: _ =>
      if src.Desc.MediaType = MediaTypeDockerSchema2ManifestList
          ∨ src.Desc.MediaType = MediaTypeImageIndex then
        some (dt, src.Desc)
      else none
    | [] => none
  else none

/-- The local state of Phase 3: the map `m` from digest to position and the
slice `newDescs`. -/
structure MergeState where
  m : List (String × Nat)
  newDescs : List Descriptor
  deriving DecidableEq, Repr

/-- Lookup `m[dgst]` with the `ok` flag. -/
def lookupIdx (m : List (String × Nat)) (dgst : String) : Option Nat :=
  match m with
  | [] => none
  | (g, i) :: rest => if g = dgst then some i else lookupIdx rest dgst

/-- The loop `for k, v := range src { dst[k] = v }`. -/
def copyInto (dst src : GoMap) : GoMap :=
  (entries src).foldl (fun acc kv => mset acc kv.1 kv.2) dst

/-- The branch `ok` of `addDesc`: the entry `old` after the overlay of `d`. -/
def overlayDesc (old d : Descriptor) : Descriptor :=
  let old1 : Descriptor :=
    if old.MediaType = "" then { old with MediaType := d.MediaType } else old
  let old2 : Descriptor :=
    match d.Platform with
    | some p => { old1 with Platform := some p }
    | none => old1
  { old2 with Annotations := some (copyInto (orEmpty old2.Annotations) (orEmpty d.Annotations)) }

/-- The closure `addDesc`.  The position `m` gives always lies inside
`newDescs`; for a position outside, the state is left as it is. -/
def addDesc (st : MergeState) (d : Descriptor) : MergeState :=
  match lookupIdx st.m d.Digest with
  | some idx =>
    match st.newDescs.get? idx with
    | some old => { st with newDescs := st.newDescs.set idx (overlayDesc old d) }
    | none => st
  | none => { m := st.m ++ [(d.Digest, st.newDescs.length)], newDescs := st.newDescs ++ [d] }

/-- The loop `for i, src := range srcs` of Phase 3. -/
def mergeSources (env : Env) : MergeState → List (Bytes × Source) → Except Err MergeState
  | st, [] => .ok st
  | st, (dt, src) :: rest =>
    if src.Desc.MediaType = MediaTypeDockerSchema2ManifestList
        ∨ src.Desc.MediaType = MediaTypeImageIndex then
      match env.unmarshalIndex dt with
      | .error e => .error (Err.withStack e)
      | .ok mfst => mergeSources env (mfst.Manifests.foldl addDesc st) rest
    else mergeSources env (addDesc st src.Desc) rest

/-- Phase 3 as a whole: `newDescs` after the loop. -/
def mergeDescs (env : Env) (rs : List (Bytes × Source)) : Except Err (List Descriptor) :=
  match mergeSources env ⟨[], []⟩ rs with
  | .error e => .error e
  | .ok st => .ok st.newDescs

/-- The counter `dockerMfsts` of Phase 4. -/
def dockerMfsts (newDescs : List Descriptor) : Nat :=
  newDescs.countP (fun desc => HasPrefix desc.MediaType "application/vnd.docker.")

/-- Phase 4: the media type `mt` of the container. -/
def selectMediaType (newDescs : List Descriptor) : String :=
  if dockerMfsts newDescs = newDescs.length then MediaTypeDockerSchema2ManifestList
  else MediaTypeImageIndex

/-- The loop over `annotations[exptypes.AnnotationIndex]`, in visiting order. -/
def indexLoop (visit : Bucket) : GoMap :=
  visit.foldl (fun acc kv => mset acc kv.1.Key kv.2) []

/-- One round of the innermost loop of Phase 5 for the child `d`, whose
annotation map is `m` at this point. -/
def descStep (env : Env) (d : Descriptor) (m : GoMap) (kv : AnnotationKey × String) :
    Except Err GoMap :=
  match kv.1.Platform with
  | none => .ok (mset m kv.1.Key kv.2)
  | some _ =>
    match d.Platform with
    | none => .error Err.nilPlatformDeref
    | some dp =>
      if kv.1.PlatformString env = env.Format dp then .ok (mset m kv.1.Key kv.2)
      else .ok m

/-- The innermost loop of Phase 5 for the child `d`, in visiting order. -/
def descLoop (env : Env) (d : Descriptor) : GoMap → Bucket → Except Err GoMap
  | m, [] => .ok m
  | m, kv :: rest =>
    match descStep env d m kv with
    | .error e => .error e
    | .ok m1 => descLoop env d m1 rest

/-- The body of the loop over `i` in Phase 5 for one child. -/
def overlayChild (env : Env) (visit : Bucket) (d : Descriptor) : Except Err Descriptor :=
  match descLoop env d (orEmpty d.Annotations) visit with
  | .error e => .error e
  | .ok m => .ok { d with Annotations := some m }

/-- The loop `for i := 0; i < len(newDescs); i++` of Phase 5, from position `i`
on. -/
def overlayDescs (env : Env) (order : Nat → List Nat) (bucket : Bucket) :
    Nat → List Descriptor → Except Err (List Descriptor)
  | _, [] => .ok []
  | i, d :: rest =>
    match overlayChild env (permute (order i) bucket) d with
    | .error e => .error e
    | .ok d1 =>
      match overlayDescs env order bucket (i + 1) rest with
      | .error e => .error e
      | .ok rest1 => .ok (d1 :: rest1)

/-- Phase 5: the map `indexAnnotation` and `newDescs` after the overlay. -/
def applyAnnotations (env : Env) (sched : Sched) (mt : String) (ann : GoMap)
    (newDescs : List Descriptor) : Except Err (GoMap × List Descriptor) :=
  if mt = MediaTypeImageIndex then
    match parseAnnotations env sched.parse ann with
    | .error e => .error e
    | .ok annotations =>
      let idxAnns : GoMap :=
        if (annotations.get AnnotationIndex).length > 0 then
          indexLoop (permute sched.index (annotations.get AnnotationIndex))
        else []
      if (annotations.get AnnotationManifestDescriptor).length > 0 then
        match overlayDescs env sched.desc (annotations.get AnnotationManifestDescriptor) 0
            newDescs with
        | .error e => .error e
        | .ok ds => .ok (idxAnns, ds)
      else .ok (idxAnns, newDescs)
  else .ok ([], newDescs)

/-- Phases 3 to 5: the `ocispec.Index` value that Phase 6 serialises. -/
def composeIndex (env : Env) (sched : Sched) (rs : List (Bytes × Source)) (ann : GoMap) :
    Except Err Index :=
  match mergeDescs env rs with
  | .error e => .error e
  | .ok newDescs =>
    match applyAnnotations env sched (selectMediaType newDescs) ann newDescs with
    | .error e => .error e
    | .ok (idxAnns, ds) =>
      .ok { SchemaVersion := 2
            MediaType := selectMediaType newDescs
            Manifests := ds
            Annotations := some idxAnns }

/-- Phase 6: serialise the index and describe the bytes. -/
def serialize (env : Env) (idx : Index) : Except Err (Bytes × Descriptor) :=
  match env.MarshalIndent idx with
  | .error e => .error (Err.marshalFailed e)
  | .ok idxBytes =>
    .ok (idxBytes,
      { MediaType := idx.MediaType
        Digest := env.FromBytes idxBytes
        Size := idxBytes.length
        URLs := []
        Annotations := none
        Platform := none })

/-- Method `Combine`.  A nil `ann` is the empty list. -/
def Combine (env : Env) (sched : Sched) (srcs : List Source) (ann : GoMap) :
    Except Err (Bytes × Descriptor) :=
  match phase1 env sched.done srcs with
  | .error e => .error e
  | .ok rs =>
    match passThrough rs ann with
    | some out => .ok out
    | none =>
      match composeIndex env sched rs ann with
      | .error e => .error e
      | .ok idx => serialize env idx

/-! ## `Push` -/

/-- What `Push` calls outside itself.  An error is given by its text, a pusher
and a content writer by a number. -/
structure PushEnv where
  /-- the reference `reference.TagNameOnly(ref)` as a string -/
  TagNameOnly : String → String
  /-- the call `r.resolver().Pusher(ctx, ref.String())` -/
  Pusher : String → Except String Nat
  /-- the call `p.Push(ctx, desc)`, which opens the content writer -/
  Push : Nat → Descriptor → Except String Nat
  /-- the call `content.Copy(ctx, cw, bytes.NewReader(dt), desc.Size, desc.Digest)`;
  `none` is the nil error -/
  Copy : Nat → Bytes → Int → String → Option String
  /-- the function `errdefs.IsAlreadyExists` on an error that is not nil -/
  IsAlreadyExists : String → Bool

/-- The calls that `Push` makes, in order. -/
inductive PushCall where
  /-- a pusher was asked for -/
  | pusher (ref : String)
  /-- a writer was opened -/
  | push (p : Nat) (desc : Descriptor)
  /-- bytes were copied to a writer -/
  | copy (cw : Nat) (dt : Bytes) (size : Int) (digest : String)
  deriving DecidableEq, Repr

/-- Method `Push`: the calls it makes and the error it returns, `none` for nil.
The media-type key prefix that it registers in the context has no part in the
result. -/
def Push (penv : PushEnv) (ref : String) (desc : Descriptor) (dt : Bytes) :
    List PushCall × Option String :=
  match penv.Pusher (penv.TagNameOnly ref) with
  | .error err => ([.pusher (penv.TagNameOnly ref)], some err)
  | .ok p =>
    match penv.Push p desc with
    | .error err =>
      if penv.IsAlreadyExists err = true then
        ([.pusher (penv.TagNameOnly ref), .push p desc], none)
      else ([.pusher (penv.TagNameOnly ref), .push p desc], some err)
    | .ok cw =>
      match penv.Copy cw dt desc.Size desc.Digest with
      | none =>
        ([.pusher (penv.TagNameOnly ref), .push p desc,
          .copy cw dt desc.Size desc.Digest], none)
      | some err =>
        if penv.IsAlreadyExists err = true then
          ([.pusher (penv.TagNameOnly ref), .push p desc,
            .copy cw dt desc.Size desc.Digest], none)
        else
          ([.pusher (penv.TagNameOnly ref), .push p desc,
            .copy cw dt desc.Size desc.Digest], some err)

/-! ## Vocabulary of the statements -/

/-- The descriptor without its annotations: Phase 5 changes nothing else. -/
def Descriptor.strip (d : Descriptor) : Descriptor :=
  { d with Annotations := none }

/-- Lookup in a map that may be nil. -/
def annGet (a : Option GoMap) (k : String) : Option String :=
  match a with
  | none => none
  | some m => mget m k

/-- Whether the media type is one of the Docker types, as Phase 4 tests it. -/
def isDockerType (mt : String) : Bool :=
  HasPrefix mt "application/vnd.docker."

/-! ## Sample data -/

/-- Platform `linux/amd64`. -/
def linuxAmd64 : Platform :=
  ⟨"amd64", "linux", "", [], ""⟩

/-- Platform `linux/arm64`. -/
def linuxArm64 : Platform :=
  ⟨"arm64", "linux", "", [], ""⟩

/-- An OCI manifest for `linux/amd64`. -/
def manifestA : Descriptor :=
  ⟨MediaTypeImageManifest, "sha256:a", 10, [], none, some linuxAmd64⟩

/-- An OCI manifest for `linux/arm64`. -/
def manifestB : Descriptor :=
  ⟨MediaTypeImageManifest, "sha256:b", 11, [], none, some linuxArm64⟩

/-- A Docker schema2 manifest for `linux/amd64`. -/
def manifestD : Descriptor :=
  ⟨MediaTypeDockerSchema2Manifest, "sha256:d", 12, [], none, some linuxAmd64⟩

/-- A descriptor of an OCI index; its blob is `[1]` in `sampleEnv`. -/
def indexI : Descriptor :=
  ⟨MediaTypeImageIndex, "sha256:i", 1, [], none, none⟩

/-- A registry with one index, `indexI`, whose children are `manifestA` and
`manifestB`; every other blob is `[0]`.  Platforms are written `os/arch`, an
index is encoded as the list of the sizes of its children, and the digest of a
blob is taken to be its length. -/
def sampleEnv : Env where
  GetDescriptor := fun _ d => if d.Digest = "sha256:i" then .ok [1] else .ok [0]
  unmarshalLoose := fun _ => .error "not used"
  unmarshalIndex := fun b =>
    if b = [1] then .ok ⟨2, MediaTypeImageIndex, [manifestA, manifestB], none⟩
    else .error "not an index"
  unmarshalManifest := fun _ => .error "not used"
  unmarshalPlatform := fun _ => .error "not used"
  Normalize := fun p => p
  Format := fun p => p.OS ++ "/" ++ p.Architecture
  Parse := fun s =>
    if s = "linux/amd64" then .ok linuxAmd64
    else if s = "linux/arm64" then .ok linuxArm64
    else .error "unknown platform"
  MarshalIndent := fun idx => .ok (idx.Manifests.map (fun d => d.Size.toNat))
  FromBytes := fun b => String.mk (List.replicate b.length 'x')

/-- The run in which every goroutine finishes in source order and every
`range` loop visits the entries in the order they are listed. -/
def sampleSched : Sched :=
  ⟨[], [], [], fun _ => []⟩

/-! ## Vocabulary of Phase 3 -/

/-- The flattened input sequence of Phase 3: a source that is a manifest list or
an index stands for the children decoded from its bytes, in their order, every
other source for its own descriptor; source order is kept. -/
def flatten (env : Env) : List (Bytes × Source) → Except Err (List Descriptor)
  | [] => .ok []
  | (dt, src) :: rest =>
    if src.Desc.MediaType = MediaTypeDockerSchema2ManifestList
        ∨ src.Desc.MediaType = MediaTypeImageIndex then
      match env.unmarshalIndex dt with
      | .error e => .error (Err.withStack e)
      | .ok mfst =>
        match flatten env rest with
        | .error e => .error e
        | .ok F => .ok (mfst.Manifests ++ F)
    else
      match flatten env rest with
      | .error e => .error e
      | .ok F => .ok (src.Desc :: F)

/-- The list `l` without the elements that are in `seen` or occur earlier in
`l`: of every value the first occurrence stays, at its place. -/
def firstOccurrences (seen : List String) : List String → List String
  | [] => []
  | x :: xs =>
    if x ∈ seen then firstOccurrences seen xs
    else x :: firstOccurrences (seen ++ [x]) xs

/-- The digests of a list of descriptors. -/
def digests (l : List Descriptor) : List String :=
  l.map (fun d => d.Digest)

/-- The occurrences of the digest `g` in a list of descriptors, in order. -/
def occurrences (g : String) (l : List Descriptor) : List Descriptor :=
  l.filter (fun d => d.Digest = g)

/-- The position of the first `g` in a list of digests. -/
def posOf (g : String) : List String → Option Nat
  | [] => none
  | x :: xs => if x = g then some 0 else (posOf g xs).map (fun i => i + 1)

/-- The entry of `newDescs` that the map `m` gives for the digest `g`. -/
def MergeState.entry (st : MergeState) (g : String) : Option Descriptor :=
  match lookupIdx st.m g with
  | some i => st.newDescs.get? i
  | none => none

/-- The invariant of Phase 3: the map `m` sends a digest to the position of the
descriptor with that digest in `newDescs`, and knows no other digest. -/
def MergeInv (st : MergeState) : Prop :=
  ∀ g, lookupIdx st.m g = posOf g (digests st.newDescs)

/-- A registry in which the blob `[7, 7, 7]` cannot be decoded as an index and
nothing can be encoded; a body without `mediaType`, `config` and `fsLayers`. -/
def opaqueEnv : Env where
  GetDescriptor := fun _ _ => .ok [7, 7, 7]
  unmarshalLoose := fun _ => .ok ⟨"", none, []⟩
  unmarshalIndex := fun _ => .error "not decoded"
  unmarshalManifest := fun _ => .error "not decoded"
  unmarshalPlatform := fun _ => .error "not decoded"
  Normalize := fun p => p
  Format := fun p => p.OS ++ "/" ++ p.Architecture
  Parse := fun _ => .error "unknown platform"
  MarshalIndent := fun _ => .error "not encoded"
  FromBytes := fun b => String.mk (List.replicate b.length 'x')

/-- The value of the last entry of `l` whose key is `k`: what a loop that
writes the entries of `l` in order leaves for `k`. -/
def lastValue (l : List (String × String)) (k : String) : Option String :=
  mget l.reverse k

/-- A second descriptor for the blob of `manifestA`: no media type, another
size and platform, one annotation. -/
def manifestA2 : Descriptor :=
  ⟨"", "sha256:a", 99, [], some [("k", "v")], some linuxArm64⟩

/-- The child that the merge makes of `manifestA` followed by `manifestA2`. -/
def mergedA : Descriptor :=
  ⟨MediaTypeImageManifest, "sha256:a", 10, [], some [("k", "v")], some linuxArm64⟩

/-- A registry in which every manifest blob is `[0]` and names the config blob
`sha256:cfg`, which is `[2]` and reports `linux/arm64`. -/
def loaderEnv : Env where
  GetDescriptor := fun _ d => if d.Digest = "sha256:cfg" then .ok [2] else .ok [0]
  unmarshalLoose := fun _ => .error "not used"
  unmarshalIndex := fun _ => .error "not an index"
  unmarshalManifest := fun b =>
    if b = [0] then
      .ok ⟨2, MediaTypeImageManifest,
        ⟨"application/vnd.oci.image.config.v1+json", "sha256:cfg", 1, [], none, none⟩, [], none⟩
    else .error "not a manifest"
  unmarshalPlatform := fun b => if b = [2] then .ok linuxArm64 else .error "not a config"
  Normalize := fun p => p
  Format := fun p => p.OS ++ "/" ++ p.Architecture
  Parse := fun _ => .error "unknown platform"
  MarshalIndent := fun idx => .ok (idx.Manifests.map (fun d => d.Size.toNat))
  FromBytes := fun b => String.mk (List.replicate b.length 'x')

/-- The source `reg/x@sha256:b`: a manifest given by its digest, without a
platform. -/
def sourceB : Source :=
  ⟨⟨MediaTypeImageManifest, "sha256:b", 11, [], none, none⟩, "reg/x"⟩

/-! ## Vocabulary of Phase 5 -/

/-- The entry that `parseAnnotations` puts into the bucket of the type `typ` for
the flag `kv`: the flag has to match the grammar with `typ` as its type, and
its platform, when it has one, has to parse. -/
def bucketEntry (env : Env) (typ : String) (kv : String × String) :
    Option (AnnotationKey × String) :=
  match FindStringSubmatch kv.1 with
  | none => none
  | some (t, platform, key) =>
    if t = typ then
      if platform ≠ "" then
        match env.Parse platform with
        | .error _ => none
        | .ok p => some (⟨t, some p, key⟩, kv.2)
      else some (⟨t, none, key⟩, kv.2)
    else none

/-- Whether a `manifest-descriptor` annotation applies to the child `c`: it has
no platform, or `c` has a platform and the two platforms have the same
canonical string. -/
def applies (env : Env) (c : Descriptor) (kv : AnnotationKey × String) : Bool :=
  match kv.1.Platform with
  | none => true
  | some p =>
    match c.Platform with
    | none => false
    | some cp => decide (env.Format p = env.Format cp)

/-- The pairs of key and value of the annotations in `visit` that apply to the
child `c`, in visiting order. -/
def writes (env : Env) (c : Descriptor) (visit : Bucket) : List (String × String) :=
  (visit.filter (applies env c)).map (fun kv => (kv.1.Key, kv.2))

/-- The pairs of key and value of the annotations in a bucket. -/
def pairs (visit : Bucket) : List (String × String) :=
  visit.map (fun kv => (kv.1.Key, kv.2))

/-- The child `c` after the annotations of `visit` that apply to it have been
written into its annotation map, in visiting order. -/
def overlaid (env : Env) (c : Descriptor) (visit : Bucket) : Descriptor :=
  { c with Annotations := some ((writes env c visit).foldl
      (fun acc kv => mset acc kv.1 kv.2) (orEmpty c.Annotations)) }

/-- The supplied annotations of type `index`, as `parseAnnotations` returns them
when it visits the map in the order `order`. -/
def indexBucket (env : Env) (order : List Nat) (ann : GoMap) : Bucket :=
  (permute order (entries ann)).filterMap (bucketEntry env AnnotationIndex)

/-- The supplied annotations of type `manifest-descriptor`, as `parseAnnotations`
returns them when it visits the map in the order `order`. -/
def descBucket (env : Env) (order : List Nat) (ann : GoMap) : Bucket :=
  (permute order (entries ann)).filterMap (bucketEntry env AnnotationManifestDescriptor)

/-- The four annotations of the test `testImagetoolsAnnotation`. -/
def testAnnotations : GoMap :=
  [("index:foo", "bar"), ("index:bar", "baz"), ("manifest-descriptor:foo", "bar"),
    ("manifest-descriptor[linux/amd64]:bar", "baz")]

/-- The index that the test `testImagetoolsAnnotation` expects for the index with
the children `manifestA` and `manifestB`. -/
def annotatedIndex : Index :=
  ⟨2, MediaTypeImageIndex,
    [{ manifestA with Annotations := some [("foo", "bar"), ("bar", "baz")] },
      { manifestB with Annotations := some [("foo", "bar")] }],
    some [("foo", "bar"), ("bar", "baz")]⟩

/-- Two annotations of type `index` that name the key `foo`, one of them with a
platform. -/
def clashingIndexAnnotations : GoMap :=
  [("index:foo", "1"), ("index[linux/amd64]:foo", "2")]

/-- An OCI manifest whose descriptor carries no platform. -/
def manifestP : Descriptor :=
  ⟨MediaTypeImageManifest, "sha256:p", 13, [], none, none⟩

/-- A registry like `sampleEnv` in which the index `indexI` has the children
`manifestA` and `manifestP`; the second child has no `platform` field. -/
def bareEnv : Env where
  GetDescriptor := fun _ d => if d.Digest = "sha256:i" then .ok [1] else .ok [0]
  unmarshalLoose := fun _ => .error "not used"
  unmarshalIndex := fun b =>
    if b = [1] then .ok ⟨2, MediaTypeImageIndex, [manifestA, manifestP], none⟩
    else .error "not an index"
  unmarshalManifest := fun _ => .error "not used"
  unmarshalPlatform := fun _ => .error "not used"
  Normalize := fun p => p
  Format := fun p => p.OS ++ "/" ++ p.Architecture
  Parse := fun s =>
    if s = "linux/amd64" then .ok linuxAmd64
    else if s = "linux/arm64" then .ok linuxArm64
    else .error "unknown platform"
  MarshalIndent := fun idx => .ok (idx.Manifests.map (fun d => d.Size.toNat))
  FromBytes := fun b => String.mk (List.replicate b.length 'x')

/-- A registry in which the blob `sha256:gone` cannot be fetched and every body
that can is a schema1 manifest: no `mediaType`, no `config`, one `fsLayers`
entry. -/
def lossyEnv : Env where
  GetDescriptor := fun _ d =>
    if d.Digest = "sha256:gone" then .error "not found" else .ok [0]
  unmarshalLoose := fun _ => .ok ⟨"", none, ["layer"]⟩
  unmarshalIndex := fun _ => .error "not an index"
  unmarshalManifest := fun _ => .error "not a manifest"
  unmarshalPlatform := fun _ => .error "not a config"
  Normalize := fun p => p
  Format := fun p => p.OS ++ "/" ++ p.Architecture
  Parse := fun _ => .error "unknown platform"
  MarshalIndent := fun idx => .ok (idx.Manifests.map (fun d => d.Size.toNat))
  FromBytes := fun b => String.mk (List.replicate b.length 'x')

/-- A source whose blob is missing from `lossyEnv`. -/
def goneSource : Source :=
  ⟨⟨MediaTypeImageIndex, "sha256:gone", 1, [], none, none⟩, "reg/x"⟩

/-- A source given by its digest alone; in `lossyEnv` its body is detected as a
schema1 manifest. -/
def schema1Source : Source :=
  ⟨⟨"", "sha256:s1", 0, [], none, none⟩, "reg/x"⟩

/-- A registry in which every manifest names the config blob `sha256:cfg` and
that blob is `{}`: it decodes to a platform without `os` and `architecture`.
`Normalize` does what `platforms.Normalize` does with such a platform: it
puts the operating system of the host, here `linux`, for the missing `os` and
leaves the architecture empty. -/
def emptyConfigEnv : Env where
  GetDescriptor := fun _ d => if d.Digest = "sha256:cfg" then .ok [2] else .ok [0]
  unmarshalLoose := fun _ => .error "not used"
  unmarshalIndex := fun _ => .error "not an index"
  unmarshalManifest := fun b =>
    if b = [0] then
      .ok ⟨2, MediaTypeImageManifest,
        ⟨"application/vnd.oci.image.config.v1+json", "sha256:cfg", 1, [], none, none⟩, [], none⟩
    else .error "not a manifest"
  unmarshalPlatform := fun b => if b = [2] then .ok Platform.zero else .error "not a config"
  Normalize := fun p => { p with OS := if p.OS = "" then "linux" else p.OS }
  Format := fun p => p.OS ++ "/" ++ p.Architecture
  Parse := fun _ => .error "unknown platform"
  MarshalIndent := fun idx => .ok (idx.Manifests.map (fun d => d.Size.toNat))
  FromBytes := fun b => String.mk (List.replicate b.length 'x')

/-- A receiver that names its architecture and nothing else. -/
def armOnly : Platform :=
  ⟨"arm", "", "", [], ""⟩

/-- The registry `sampleEnv` after the blob `[10, 11]` has been pushed to it: the
digest of that blob is `xx`. -/
def pushedEnv : Env :=
  { sampleEnv with
    GetDescriptor := fun ref d =>
      if d.Digest = "xx" then .ok [10, 11] else sampleEnv.GetDescriptor ref d }

/-- Whether `parseAnnotations` accepts the key `k` of a flag: it matches the
grammar, its platform, when it has one, parses, and its type is `index` or
`manifest-descriptor`. -/
def accepted (env : Env) (k : String) : Prop :=
  ∃ typ platform key, FindStringSubmatch k = some (typ, platform, key) ∧
    (platform ≠ "" → ∃ p, env.Parse platform = .ok p) ∧
    (typ = AnnotationIndex ∨ typ = AnnotationManifestDescriptor)

/-- The buckets that `parseAnnotations` returns for `testAnnotations`. -/
def testBuckets : Buckets :=
  [(AnnotationIndex,
      [(⟨"index", none, "foo"⟩, "bar"), (⟨"index", none, "bar"⟩, "baz")]),
    (AnnotationManifestDescriptor,
      [(⟨"manifest-descriptor", none, "foo"⟩, "bar"),
        (⟨"manifest-descriptor", some linuxAmd64, "bar"⟩, "baz")])]

/-- A source whose media type is not that of a single-arch manifest, of a
manifest list or of an index, and whose descriptor has no platform. -/
def artifactSource : Source :=
  ⟨⟨"application/vnd.example.artifact.v1+json", "sha256:t", 5, [], none, none⟩, "reg/x"⟩

/-- Two annotations of type `manifest-descriptor` that name the key `foo`, one
for every child and one for the children of `linux/amd64`. -/
def clashingDescAnnotations : GoMap :=
  [("manifest-descriptor:foo", "1"), ("manifest-descriptor[linux/amd64]:foo", "2")]

/-- The run that differs from `sampleSched` in one choice: the `range` loop over
the `index` annotations starts with its second entry. -/
def otherIndexSched : Sched :=
  ⟨[], [], [1], fun _ => []⟩

/-- The run that differs from `sampleSched` in one choice: the `range` loops over
the `manifest-descriptor` annotations start with their second entry. -/
def otherDescSched : Sched :=
  ⟨[], [], [], fun _ => [1]⟩

/-- The registry `sampleEnv` with an encoder that shows the annotations: the
bytes are the characters of the annotation values of the index, followed by
those of its children. -/
def verboseEnv : Env :=
  { sampleEnv with
    MarshalIndent := fun idx =>
      .ok ((orEmpty idx.Annotations).flatMap (fun kv => kv.2.data.map Char.toNat)
        ++ idx.Manifests.flatMap (fun d =>
          (orEmpty d.Annotations).flatMap (fun kv => kv.2.data.map Char.toNat))) }

/-- A registry like `sampleEnv` in which the index `indexI` lists the manifest
`manifestA` twice. -/
def repeatEnv : Env :=
  { sampleEnv with
    unmarshalIndex := fun b =>
      if b = [1] then .ok ⟨2, MediaTypeImageIndex, [manifestA, manifestA], none⟩
      else .error "not an index" }

/-! ## Map objects

In Go a map is a reference.  `old := newDescs[idx]` copies the struct and
shares its map, and `old.Annotations[k] = v` writes into the map object, which
every descriptor that holds the same object sees.  The definitions below
follow Phases 3 and 5 with the map objects kept in a heap and the descriptors
holding addresses; the definitions above read a map as its contents, which is
what the two phases do when no two descriptors hold the same object. -/

/-- The map objects of a run: the object with the address `a` has the contents
at position `a`. -/
abbrev Heap := List GoMap

/-- The contents of the map object at the address `a`. -/
def Heap.read (h : Heap) (a : Nat) : GoMap :=
  h.getD a []

/-- The heap after the map object at the address `a` has got the contents `m`. -/
def Heap.write (h : Heap) (a : Nat) (m : GoMap) : Heap :=
  h.set a m

/-- Type `ocispec.Descriptor` as Go holds it: `Annotations` is nil or the
address of a map object. -/
structure DescriptorRef where
  MediaType : String
  Digest : String
  Size : Int
  URLs : List String
  Annotations : Option Nat
  Platform : Option Platform
  deriving DecidableEq, Repr

/-- The descriptor with the contents that its map object has in the heap `h`. -/
def DescriptorRef.value (h : Heap) (d : DescriptorRef) : Descriptor :=
  ⟨d.MediaType, d.Digest, d.Size, d.URLs, d.Annotations.map (Heap.read h), d.Platform⟩

/-- Type `Source` with the descriptor as Go holds it. -/
structure SourceRef where
  Desc : DescriptorRef
  Ref : String
  deriving DecidableEq, Repr

/-- The source with the contents that the map object of its descriptor has in
the heap `h`. -/
def SourceRef.value (h : Heap) (s : SourceRef) : Source :=
  ⟨s.Desc.value h, s.Ref⟩

/-- The local state of Phase 3 together with the map objects. -/
structure MergeStateRef where
  heap : Heap
  m : List (String × Nat)
  newDescs : List DescriptorRef
  deriving DecidableEq, Repr

/-- The statement `if old.Annotations == nil { old.Annotations = map[string]string{} }`:
the heap and the address of the map of `old` afterwards; a new map object gets
the next free address. -/
def ensureMap (h : Heap) (a : Option Nat) : Heap × Nat :=
  match a with
  | some x => (h, x)
  | none => (h ++ [[]], h.length)

/-- The loop `for k, v := range d.Annotations { old.Annotations[k] = v }` on the
map object at `dst`; `src` is the map of `d`, nil or an address. -/
def copyIntoRef (h : Heap) (dst : Nat) (src : Option Nat) : Heap :=
  match src with
  | none => h
  | some b => Heap.write h dst (copyInto (Heap.read h dst) (Heap.read h b))

/-- The two assignments of the branch `ok` of `addDesc` to the fields
`MediaType` and `Platform` of the struct `old`. -/
def overlayFields (old d : DescriptorRef) : DescriptorRef :=
  let old1 : DescriptorRef :=
    if old.MediaType = "" then { old with MediaType := d.MediaType } else old
  match d.Platform with
  | some p => { old1 with Platform := some p }
  | none => old1

/-- The closure `addDesc` on map objects.  In the branch `ok` the struct at
`newDescs[idx]` is copied to `old` and written back, and the annotations of `d`
are written into the map object that `old` holds. -/
def addDescRef (st : MergeStateRef) (d : DescriptorRef) : MergeStateRef :=
  match lookupIdx st.m d.Digest with
  | some idx =>
    match st.newDescs.get? idx with
    | some old =>
      let old2 : DescriptorRef := overlayFields old d
      let hm := ensureMap st.heap old2.Annotations
      { heap := copyIntoRef hm.1 hm.2 d.Annotations
        m := st.m
        newDescs := st.newDescs.set idx { old2 with Annotations := some hm.2 } }
    | none => st
  | none =>
    { heap := st.heap
      m := st.m ++ [(d.Digest, st.newDescs.length)]
      newDescs := st.newDescs ++ [d] }

/-- The descriptors that `json.Unmarshal` makes of the decoded children of an
index: the map of every child that has annotations is a new map object. -/
def allocDescs (h : Heap) : List Descriptor → Heap × List DescriptorRef
  | [] => (h, [])
  | d :: rest =>
    match d.Annotations with
    | none =>
      ((allocDescs h rest).1,
        ⟨d.MediaType, d.Digest, d.Size, d.URLs, none, d.Platform⟩ :: (allocDescs h rest).2)
    | some m =>
      ((allocDescs (h ++ [m]) rest).1,
        ⟨d.MediaType, d.Digest, d.Size, d.URLs, some h.length, d.Platform⟩
          :: (allocDescs (h ++ [m]) rest).2)

/-- The loop `for i, src := range srcs` of Phase 3 on map objects. -/
def mergeSourcesRef (env : Env) :
    MergeStateRef → List (Bytes × SourceRef) → Except Err MergeStateRef
  | st, [] => .ok st
  | st, (dt, src) :: rest =>
    if src.Desc.MediaType = MediaTypeDockerSchema2ManifestList
        ∨ src.Desc.MediaType = MediaTypeImageIndex then
      match env.unmarshalIndex dt with
      | .error e => .error (Err.withStack e)
      | .ok mfst =>
        mergeSourcesRef env
          ((allocDescs st.heap mfst.Manifests).2.foldl addDescRef
            { st with heap := (allocDescs st.heap mfst.Manifests).1 })
          rest
    else mergeSourcesRef env (addDescRef st src.Desc) rest

/-- Phase 3 as a whole on map objects: the heap and `newDescs` after the loop.
The heap `h` holds the map objects of the descriptors of the sources. -/
def mergeDescsRef (env : Env) (h : Heap) (rs : List (Bytes × SourceRef)) :
    Except Err (Heap × List DescriptorRef) :=
  match mergeSourcesRef env ⟨h, [], []⟩ rs with
  | .error e => .error e
  | .ok st => .ok (st.heap, st.newDescs)

/-- The addresses of the map objects that the descriptors of `ds` hold. -/
def mapRefs (ds : List DescriptorRef) : List Nat :=
  ds.filterMap (fun d => d.Annotations)

/-- The addresses of the map objects of the sources that Phase 3 adds as they
are: the sources that are not a manifest list or an index. -/
def sourceRefs : List (Bytes × SourceRef) → List Nat
  | [] => []
  | (_, src) :: rest =>
    if src.Desc.MediaType = MediaTypeDockerSchema2ManifestList
        ∨ src.Desc.MediaType = MediaTypeImageIndex then sourceRefs rest
    else
      match src.Desc.Annotations with
      | some a => a :: sourceRefs rest
      | none => sourceRefs rest

/-- The resolved sources with the contents that their map objects have in the
heap `h`. -/
def valuesAt (h : Heap) (rs : List (Bytes × SourceRef)) : List (Bytes × Source) :=
  rs.map (fun r => (r.1, r.2.value h))

/-- Three map objects: two empty ones and one with the entry `k = v`. -/
def sharedHeap : Heap :=
  [[], [], [("k", "v")]]

/-- An OCI manifest for `linux/amd64` whose annotations are the map object 0. -/
def sharedA : DescriptorRef :=
  ⟨MediaTypeImageManifest, "sha256:a", 10, [], some 0, some linuxAmd64⟩

/-- An OCI manifest for `linux/arm64` whose annotations are the map object 0 as
well. -/
def sharedB : DescriptorRef :=
  ⟨MediaTypeImageManifest, "sha256:b", 11, [], some 0, some linuxArm64⟩

/-- A second descriptor of the blob `sha256:a`, with the empty map object 1. -/
def secondA : DescriptorRef :=
  ⟨MediaTypeImageManifest, "sha256:a", 10, [], some 1, some linuxAmd64⟩

/-- A second descriptor of the blob `sha256:b`, with the map object 2, which
has the entry `k = v`. -/
def secondB : DescriptorRef :=
  ⟨MediaTypeImageManifest, "sha256:b", 11, [], some 2, some linuxArm64⟩

/-- The manifest of `sharedB` with a map object of its own, the empty map
object 3. -/
def ownB : DescriptorRef :=
  ⟨MediaTypeImageManifest, "sha256:b", 11, [], some 3, some linuxArm64⟩

/-- The map objects of Phase 3 are kept apart: no two entries of `newDescs`
hold the same map object, every map object of `newDescs` is in the heap and is
none of the objects `later`, which the descriptors still to come hold, and the
objects `later` are different objects of the heap. -/
def Separate (st : MergeStateRef) (later : List Nat) : Prop :=
  (∀ i j di dj a, st.newDescs.get? i = some di → st.newDescs.get? j = some dj →
      di.Annotations = some a → dj.Annotations = some a → i = j) ∧
    (∀ d ∈ st.newDescs, ∀ a, d.Annotations = some a → a < st.heap.length ∧ a ∉ later) ∧
    later.Nodup ∧ ∀ a ∈ later, a < st.heap.length

/-- The descriptor `indexI` as Go holds it. -/
def indexIRef : DescriptorRef :=
  ⟨MediaTypeImageIndex, "sha256:i", 1, [], none, none⟩

/-- Two map objects of a caller: the first with the entries `x = 1` and
`k = old`, the second with the entry `k = v`. -/
def twoMaps : Heap :=
  [[("x", "1"), ("k", "old")], [("k", "v")]]

/-- A descriptor of the blob of `manifestA` whose annotations are the map
object 0. -/
def annotatedA1 : DescriptorRef :=
  ⟨MediaTypeImageManifest, "sha256:a", 10, [], some 0, some linuxAmd64⟩

/-- The descriptor `manifestA2` as Go holds it; its annotations are the map
object 1. -/
def manifestA2Ref : DescriptorRef :=
  ⟨"", "sha256:a", 99, [], some 1, some linuxArm64⟩

/-- The child that the merge on map objects makes of `manifestA`, decoded from
the index without annotations, followed by `annotatedA1` and `manifestA2Ref`:
its annotations are the new map object 2. -/
def mergedARef : DescriptorRef :=
  ⟨MediaTypeImageManifest, "sha256:a", 10, [], some 2, some linuxArm64⟩

/-- The map objects after that merge: the two of the caller as they were, and
the new one with the entries of both, the later value for `k`. -/
def threeMaps : Heap :=
  [[("x", "1"), ("k", "old")], [("k", "v")], [("x", "1"), ("k", "v")]]

/-! ## Phase 5 on map objects -/

/-- The body of the loop over `i` in Phase 5 on map objects: a child without a
map gets a new map object, and the inner loop writes into the map object of
the child. -/
def overlayChildRef (env : Env) (visit : Bucket) (h : Heap) (d : DescriptorRef) :
    Except Err (Heap × DescriptorRef) :=
  match descLoop env (d.value h) (Heap.read (ensureMap h d.Annotations).1
      (ensureMap h d.Annotations).2) visit with
  | .error e => .error e
  | .ok m =>
    .ok (Heap.write (ensureMap h d.Annotations).1 (ensureMap h d.Annotations).2 m,
      { d with Annotations := some (ensureMap h d.Annotations).2 })

/-- The loop `for i := 0; i < len(newDescs); i++` of Phase 5 on map objects,
from position `i` on. -/
def overlayDescsRef (env : Env) (order : Nat → List Nat) (bucket : Bucket) :
    Nat → Heap → List DescriptorRef → Except Err (Heap × List DescriptorRef)
  | _, h, [] => .ok (h, [])
  | i, h, d :: rest =>
    match overlayChildRef env (permute (order i) bucket) h d with
    | .error e => .error e
    | .ok r1 =>
      match overlayDescsRef env order bucket (i + 1) r1.1 rest with
      | .error e => .error e
      | .ok r2 => .ok (r2.1, r1.2 :: r2.2)

/-- Phase 5 on map objects: the map `indexAnnotation`, and the heap and
`newDescs` after the overlay. -/
def applyAnnotationsRef (env : Env) (sched : Sched) (mt : String) (ann : GoMap) (h : Heap)
    (newDescs : List DescriptorRef) : Except Err (GoMap × Heap × List DescriptorRef) :=
  if mt = MediaTypeImageIndex then
    match parseAnnotations env sched.parse ann with
    | .error e => .error e
    | .ok annotations =>
      let idxAnns : GoMap :=
        if (annotations.get AnnotationIndex).length > 0 then
          indexLoop (permute sched.index (annotations.get AnnotationIndex))
        else []
      if (annotations.get AnnotationManifestDescriptor).length > 0 then
        match overlayDescsRef env sched.desc (annotations.get AnnotationManifestDescriptor) 0
            h newDescs with
        | .error e => .error e
        | .ok r => .ok (idxAnns, r.1, r.2)
      else .ok (idxAnns, h, newDescs)
  else .ok ([], h, newDescs)

/-- Phases 3 to 5 on map objects: the `ocispec.Index` value that Phase 6
serialises, with the contents that the map objects have at that point. -/
def composeIndexRef (env : Env) (sched : Sched) (h : Heap) (rs : List (Bytes × SourceRef))
    (ann : GoMap) : Except Err Index :=
  match mergeDescsRef env h rs with
  | .error e => .error e
  | .ok r =>
    match applyAnnotationsRef env sched
        (selectMediaType (r.2.map (DescriptorRef.value r.1))) ann r.1 r.2 with
    | .error e => .error e
    | .ok (idxAnns, h2, ds) =>
      .ok { SchemaVersion := 2
            MediaType := selectMediaType (r.2.map (DescriptorRef.value r.1))
            Manifests := ds.map (DescriptorRef.value h2)
            Annotations := some idxAnns }

/-! # Lemmas and theorems -/

/-! ## Maps -/

theorem mget_mset (m : GoMap) (k v k2 : String) :
    mget (mset m k v) k2 = if k = k2 then some v else mget m k2 := by
  induction m with
  | nil => simp [mset, mget]
  | cons e rest ih =>
    obtain ⟨k1, v1⟩ := e
    simp only [mset]
    by_cases h1 : k1 = k
    · rw [if_pos h1]
      simp only [mget]
      subst h1
      by_cases h2 : k1 = k2 <;> simp [h2]
    · rw [if_neg h1]
      simp only [mget, ih]
      by_cases h3 : k1 = k2
      · have h4 : ¬ k = k2 := fun h => h1 (h3.trans h.symm)
        simp only [if_pos h3, if_neg h4]
      · simp only [if_neg h3]

theorem permute_perm {α : Type} (code : List Nat) (l : List α) : (permute code l).Perm l := by
  induction code generalizing l with
  | nil => simp [permute]
  | cons c cs ih =>
    cases l with
    | nil => simp [permute]
    | cons x xs =>
      simp only [permute]
      split
      · exact List.Perm.refl _
      · rename_i y t hd
        have h1 := ih ((x :: xs).take (c % (xs.length + 1)) ++ t)
        have h2 : (x :: xs) = (x :: xs).take (c % (xs.length + 1)) ++ (y :: t) := by
          rw [← hd, List.take_append_drop]
        calc y :: permute cs ((x :: xs).take (c % (xs.length + 1)) ++ t)
            |>.Perm (y :: ((x :: xs).take (c % (xs.length + 1)) ++ t)) := List.Perm.cons y h1
          _ |>.Perm ((x :: xs).take (c % (xs.length + 1)) ++ y :: t) := List.perm_middle.symm
          _ = x :: xs := h2.symm

theorem permute_complete {α : Type} (l2 : List α) :
    ∀ l : List α, l2.Perm l → ∃ code, permute code l = l2 := by
  induction l2 with
  | nil =>
    intro l h
    rw [List.Perm.nil_eq h]
    exact ⟨[], rfl⟩
  | cons y t ih =>
    intro l h
    have hy : y ∈ l := h.subset (List.mem_cons_self _ _)
    obtain ⟨i, hi, hget⟩ := List.getElem_of_mem hy
    have hdrop : l.drop i = y :: l.drop (i + 1) := by
      rw [← hget]
      exact List.drop_eq_getElem_cons hi
    have hsplit : l = l.take i ++ y :: l.drop (i + 1) := by
      rw [← hdrop, List.take_append_drop]
    have hperm : t.Perm (l.take i ++ l.drop (i + 1)) := by
      have h2 : l.Perm (y :: (l.take i ++ l.drop (i + 1))) := by
        conv_lhs => rw [hsplit]
        exact List.perm_middle
      exact (h.trans h2).cons_inv
    obtain ⟨cs, hcs⟩ := ih _ hperm
    cases l with
    | nil => cases hy
    | cons x xs =>
      refine ⟨i :: cs, ?_⟩
      have hmod : i % (xs.length + 1) = i := Nat.mod_eq_of_lt (by simpa using hi)
      simp only [permute, hmod, hdrop, hcs]

/-! ## Phase 5 leaves everything but the annotations alone -/

theorem overlayChild_ok {env : Env} {visit : Bucket} {d d1 : Descriptor}
    (h : overlayChild env visit d = .ok d1) :
    ∃ m, descLoop env d (orEmpty d.Annotations) visit = .ok m ∧
      d1 = { d with Annotations := some m } := by
  unfold overlayChild at h
  cases hl : descLoop env d (orEmpty d.Annotations) visit with
  | error e =>
    simp only [hl] at h
    cases h
  | ok m =>
    simp only [hl] at h
    cases h
    exact ⟨m, rfl, rfl⟩

theorem overlayChild_strip {env : Env} {visit : Bucket} {d d1 : Descriptor}
    (h : overlayChild env visit d = .ok d1) : d1.strip = d.strip := by
  obtain ⟨m, _, hd⟩ := overlayChild_ok h
  rw [hd]
  rfl

theorem overlayDescs_cons {env : Env} {order : Nat → List Nat} {bucket : Bucket}
    {d : Descriptor} {rest out : List Descriptor} {i : Nat}
    (h : overlayDescs env order bucket i (d :: rest) = .ok out) :
    ∃ d1 rest1, overlayChild env (permute (order i) bucket) d = .ok d1 ∧
      overlayDescs env order bucket (i + 1) rest = .ok rest1 ∧ out = d1 :: rest1 := by
  simp only [overlayDescs] at h
  cases hd : overlayChild env (permute (order i) bucket) d with
  | error e =>
    simp only [hd] at h
    cases h
  | ok d1 =>
    simp only [hd] at h
    cases hr : overlayDescs env order bucket (i + 1) rest with
    | error e =>
      simp only [hr] at h
      cases h
    | ok rest1 =>
      simp only [hr] at h
      cases h
      exact ⟨d1, rest1, rfl, rfl, rfl⟩

theorem overlayDescs_strip {env : Env} {order : Nat → List Nat} {bucket : Bucket} :
    ∀ (ds : List Descriptor) (i : Nat) (out : List Descriptor),
      overlayDescs env order bucket i ds = .ok out →
      out.map Descriptor.strip = ds.map Descriptor.strip := by
  intro ds
  induction ds with
  | nil =>
    intro i out h
    simp only [overlayDescs] at h
    cases h
    rfl
  | cons d rest ih =>
    intro i out h
    obtain ⟨d1, rest1, hd, hr, ho⟩ := overlayDescs_cons h
    rw [ho]
    simp only [List.map_cons, overlayChild_strip hd, ih (i + 1) rest1 hr]

theorem permute_nil {α : Type} (code : List Nat) : permute code ([] : List α) = [] := by
  cases code <;> rfl

theorem applyAnnotations_ok {env : Env} {sched : Sched} {mt : String} {ann : GoMap}
    {ds out : List Descriptor} {ia : GoMap}
    (h : applyAnnotations env sched mt ann ds = .ok (ia, out)) :
    (mt ≠ MediaTypeImageIndex ∧ ia = [] ∧ out = ds) ∨
    (mt = MediaTypeImageIndex ∧ ∃ annotations, parseAnnotations env sched.parse ann = .ok annotations ∧
      ia = indexLoop (permute sched.index (annotations.get AnnotationIndex)) ∧
      ((annotations.get AnnotationManifestDescriptor = [] ∧ out = ds) ∨
       (annotations.get AnnotationManifestDescriptor ≠ [] ∧
         overlayDescs env sched.desc (annotations.get AnnotationManifestDescriptor) 0 ds
           = .ok out))) := by
  unfold applyAnnotations at h
  by_cases hmt : mt = MediaTypeImageIndex
  · rw [if_pos hmt] at h
    right
    refine ⟨hmt, ?_⟩
    cases hp : parseAnnotations env sched.parse ann with
    | error e =>
      rw [hp] at h
      cases h
    | ok annotations =>
      rw [hp] at h
      refine ⟨annotations, rfl, ?_⟩
      have hia : (if (annotations.get AnnotationIndex).length > 0 then
          indexLoop (permute sched.index (annotations.get AnnotationIndex)) else [])
          = indexLoop (permute sched.index (annotations.get AnnotationIndex)) := by
        by_cases hl : (annotations.get AnnotationIndex).length > 0
        · rw [if_pos hl]
        · rw [if_neg hl]
          have : annotations.get AnnotationIndex = [] := by
            cases hb : annotations.get AnnotationIndex with
            | nil => rfl
            | cons x xs => rw [hb] at hl; simp at hl
          rw [this, permute_nil]
          rfl
      simp only [hia] at h
      by_cases hmd : (annotations.get AnnotationManifestDescriptor).length > 0
      · rw [if_pos hmd] at h
        cases hov : overlayDescs env sched.desc (annotations.get AnnotationManifestDescriptor) 0 ds with
        | error e =>
          rw [hov] at h
          cases h
        | ok ds1 =>
          rw [hov] at h
          cases h
          refine ⟨rfl, Or.inr ⟨?_, rfl⟩⟩
          intro hnil
          rw [hnil] at hmd
          simp at hmd
      · rw [if_neg hmd] at h
        cases h
        refine ⟨rfl, Or.inl ⟨?_, rfl⟩⟩
        cases hb : annotations.get AnnotationManifestDescriptor with
        | nil => rfl
        | cons x xs => rw [hb] at hmd; simp at hmd
  · rw [if_neg hmt] at h
    cases h
    exact Or.inl ⟨hmt, rfl, rfl⟩

theorem applyAnnotations_strip {env : Env} {sched : Sched} {mt : String} {ann : GoMap}
    {ds out : List Descriptor} {ia : GoMap}
    (h : applyAnnotations env sched mt ann ds = .ok (ia, out)) :
    out.map Descriptor.strip = ds.map Descriptor.strip := by
  rcases applyAnnotations_ok h with ⟨_, _, ho⟩ | ⟨_, annotations, _, _, ho | ho⟩
  · rw [ho]
  · rw [ho.2]
  · exact overlayDescs_strip _ _ _ ho.2

theorem composeIndex_ok {env : Env} {sched : Sched} {rs : List (Bytes × Source)} {ann : GoMap}
    {idx : Index} (h : composeIndex env sched rs ann = .ok idx) :
    ∃ newDescs ia ds, mergeDescs env rs = .ok newDescs ∧
      applyAnnotations env sched (selectMediaType newDescs) ann newDescs = .ok (ia, ds) ∧
      idx = ⟨2, selectMediaType newDescs, ds, some ia⟩ := by
  unfold composeIndex at h
  cases hm : mergeDescs env rs with
  | error e =>
    simp only [hm] at h
    cases h
  | ok newDescs =>
    simp only [hm] at h
    cases ha : applyAnnotations env sched (selectMediaType newDescs) ann newDescs with
    | error e =>
      simp only [ha] at h
      cases h
    | ok p =>
      obtain ⟨ia, ds⟩ := p
      simp only [ha] at h
      cases h
      exact ⟨newDescs, ia, ds, rfl, ha, rfl⟩

theorem strip_mediaType (l1 l2 : List Descriptor)
    (h : l1.map Descriptor.strip = l2.map Descriptor.strip) :
    l1.map (fun d => d.MediaType) = l2.map (fun d => d.MediaType) := by
  have := congrArg (List.map (fun d : Descriptor => d.MediaType)) h
  simpa [List.map_map, Function.comp_def, Descriptor.strip] using this

theorem selectMediaType_docker (ds : List Descriptor) :
    selectMediaType ds = MediaTypeDockerSchema2ManifestList ↔
      ∀ d ∈ ds, isDockerType d.MediaType = true := by
  unfold selectMediaType dockerMfsts isDockerType
  rw [← List.countP_eq_length]
  constructor
  · intro h
    by_contra hne
    rw [if_neg hne] at h
    exact absurd h (by decide)
  · intro h
    rw [if_pos h]

/-! ## Phase 1 -/

theorem firstError_none {α : Type} (done : List Nat) (rs : List (Except Err α)) :
    firstError done rs = none ↔ ∀ r ∈ rs, ∃ a, r = .ok a := by
  unfold firstError
  rw [List.findSome?_eq_none_iff]
  constructor
  · intro h r hr
    obtain ⟨i, hi, hri⟩ := List.getElem_of_mem hr
    have hmem : i ∈ done ++ List.range rs.length :=
      List.mem_append_right _ (List.mem_range.mpr hi)
    have := h i hmem
    rw [List.get?_eq_getElem?, List.getElem?_eq_getElem hi, hri] at this
    cases r with
    | ok a => exact ⟨a, rfl⟩
    | error e => simp at this
  · intro h i _
    cases hg : rs.get? i with
    | none => rfl
    | some r =>
      have hr : r ∈ rs := List.get?_mem hg
      obtain ⟨a, ha⟩ := h r hr
      rw [ha]

theorem okValues_map_ok {α : Type} (l : List α) :
    okValues (l.map (fun a => (Except.ok a : Except Err α))) = l := by
  induction l with
  | nil => rfl
  | cons a rest ih => simp only [List.map_cons, okValues, ih]

theorem all_ok_eq_map {α : Type} (rs : List (Except Err α)) (h : ∀ r ∈ rs, ∃ a, r = .ok a) :
    rs = (okValues rs).map (fun a => (Except.ok a : Except Err α)) := by
  induction rs with
  | nil => rfl
  | cons r rest ih =>
    obtain ⟨a, ha⟩ := h r (List.mem_cons_self _ _)
    subst ha
    have := ih (fun r hr => h r (List.mem_cons_of_mem _ hr))
    simp only [okValues, List.map_cons]
    rw [← this]

theorem phase1_ok_iff (env : Env) (done : List Nat) (srcs : List Source)
    (rs : List (Bytes × Source)) :
    phase1 env done srcs = .ok rs ↔
      srcs.map (resolveSource env) = rs.map (fun a => (Except.ok a : Except Err _)) := by
  unfold phase1
  constructor
  · intro h
    cases hf : firstError done (srcs.map (resolveSource env)) with
    | some e =>
      simp only [hf] at h
      cases h
    | none =>
      simp only [hf] at h
      cases h
      exact all_ok_eq_map _ ((firstError_none done _).mp hf)
  · intro h
    have hf : firstError done (srcs.map (resolveSource env)) = none := by
      rw [firstError_none, h]
      intro r hr
      obtain ⟨a, _, ha⟩ := List.mem_map.mp hr
      exact ⟨a, ha.symm⟩
    simp only [hf]
    rw [h, okValues_map_ok]

theorem phase1_length {env : Env} {done : List Nat} {srcs : List Source}
    {rs : List (Bytes × Source)} (h : phase1 env done srcs = .ok rs) :
    rs.length = srcs.length := by
  have := congrArg List.length ((phase1_ok_iff env done srcs rs).mp h)
  simpa using this.symm

/-! ## The shape of a successful `Combine` -/

theorem serialize_ok {env : Env} {idx : Index} {b : Bytes} {D : Descriptor}
    (h : serialize env idx = .ok (b, D)) :
    env.MarshalIndent idx = .ok b ∧
      D = ⟨idx.MediaType, env.FromBytes b, b.length, [], none, none⟩ := by
  unfold serialize at h
  cases hm : env.MarshalIndent idx with
  | error e =>
    simp only [hm] at h
    cases h
  | ok b1 =>
    simp only [hm] at h
    cases h
    exact ⟨rfl, rfl⟩

theorem Combine_ok {env : Env} {sched : Sched} {srcs : List Source} {ann : GoMap}
    {b : Bytes} {D : Descriptor} (h : Combine env sched srcs ann = .ok (b, D)) :
    ∃ rs, phase1 env sched.done srcs = .ok rs ∧
      (passThrough rs ann = some (b, D) ∨
        (passThrough rs ann = none ∧
          ∃ idx, composeIndex env sched rs ann = .ok idx ∧ serialize env idx = .ok (b, D))) := by
  unfold Combine at h
  cases hp : phase1 env sched.done srcs with
  | error e =>
    simp only [hp] at h
    cases h
  | ok rs =>
    simp only [hp] at h
    refine ⟨rs, rfl, ?_⟩
    cases hpt : passThrough rs ann with
    | some out =>
      simp only [hpt] at h
      cases h
      exact Or.inl rfl
    | none =>
      simp only [hpt] at h
      cases hc : composeIndex env sched rs ann with
      | error e =>
        simp only [hc] at h
        cases h
      | ok idx =>
        simp only [hc] at h
        exact Or.inr ⟨rfl, idx, rfl, h⟩

/-! ## C1: the media type of the container -/

/-- C1: when `Combine` builds a new index (the pass-through is not taken) and
succeeds, the index it serialises and the descriptor it returns carry the same
media type, the children keep the media types they have after the merge, and
that media type is the Docker manifest-list type exactly when every merged
child has a media type starting with `application/vnd.docker.` (so also for
zero children); in every other case it is the OCI image index type. -/
theorem C1_container_media_type (env : Env) (sched : Sched) (srcs : List Source)
    (ann : GoMap) (rs : List (Bytes × Source)) (b : Bytes) (D : Descriptor)
    (h1 : phase1 env sched.done srcs = .ok rs) (h2 : passThrough rs ann = none)
    (h : Combine env sched srcs ann = .ok (b, D)) :
    ∃ newDescs idx, mergeDescs env rs = .ok newDescs ∧
      composeIndex env sched rs ann = .ok idx ∧ env.MarshalIndent idx = .ok b ∧
      idx.Manifests.map (fun d => d.MediaType) = newDescs.map (fun d => d.MediaType) ∧
      D.MediaType = idx.MediaType ∧
      (idx.MediaType = MediaTypeDockerSchema2ManifestList ↔
        ∀ d ∈ newDescs, HasPrefix d.MediaType "application/vnd.docker." = true) ∧
      (¬ (∀ d ∈ newDescs, HasPrefix d.MediaType "application/vnd.docker." = true) →
        idx.MediaType = MediaTypeImageIndex) := by
  obtain ⟨rs1, hp, hcase⟩ := Combine_ok h
  rw [h1] at hp
  cases hp
  rcases hcase with hpt | ⟨_, idx, hc, hs⟩
  · rw [h2] at hpt
    cases hpt
  · obtain ⟨newDescs, ia, ds, hm, ha, hidx⟩ := composeIndex_ok hc
    obtain ⟨hmar, hD⟩ := serialize_ok hs
    refine ⟨newDescs, idx, hm, hc, hmar, ?_, ?_, ?_, ?_⟩
    · rw [hidx]
      exact strip_mediaType _ _ (applyAnnotations_strip ha)
    · rw [hD]
    · rw [hidx]
      exact selectMediaType_docker newDescs
    · intro hn
      rw [hidx]
      show selectMediaType newDescs = MediaTypeImageIndex
      unfold selectMediaType
      rw [if_neg]
      intro hcount
      apply hn
      have := (selectMediaType_docker newDescs).mp (by unfold selectMediaType; rw [if_pos hcount])
      exact this

/-- C1 at two OCI manifests: the container is an OCI image index. -/
theorem C1_container_media_type_witness :
    ∃ newDescs idx,
      mergeDescs sampleEnv [([0], ⟨manifestA, "reg/x"⟩), ([0], ⟨manifestB, "reg/x"⟩)]
        = .ok newDescs ∧
      composeIndex sampleEnv sampleSched
        [([0], ⟨manifestA, "reg/x"⟩), ([0], ⟨manifestB, "reg/x"⟩)] [] = .ok idx ∧
      sampleEnv.MarshalIndent idx = .ok [10, 11] ∧
      idx.Manifests.map (fun d => d.MediaType) = newDescs.map (fun d => d.MediaType) ∧
      (⟨MediaTypeImageIndex, "xx", 2, [], none, none⟩ : Descriptor).MediaType = idx.MediaType ∧
      (idx.MediaType = MediaTypeDockerSchema2ManifestList ↔
        ∀ d ∈ newDescs, HasPrefix d.MediaType "application/vnd.docker." = true) ∧
      (¬ (∀ d ∈ newDescs, HasPrefix d.MediaType "application/vnd.docker." = true) →
        idx.MediaType = MediaTypeImageIndex) :=
  C1_container_media_type sampleEnv sampleSched [⟨manifestA, "reg/x"⟩, ⟨manifestB, "reg/x"⟩] []
    [([0], ⟨manifestA, "reg/x"⟩), ([0], ⟨manifestB, "reg/x"⟩)] [10, 11]
    ⟨MediaTypeImageIndex, "xx", 2, [], none, none⟩ (by decide) (by decide) (by decide)

/-! ## Phase 3: the merge -/

theorem mergeSources_eq (env : Env) (rs : List (Bytes × Source)) :
    ∀ st, mergeSources env st rs =
      match flatten env rs with
      | .error e => .error e
      | .ok F => .ok (F.foldl addDesc st) := by
  induction rs with
  | nil =>
    intro st
    rfl
  | cons r rest ih =>
    intro st
    obtain ⟨dt, src⟩ := r
    simp only [mergeSources, flatten]
    by_cases hmt : src.Desc.MediaType = MediaTypeDockerSchema2ManifestList
        ∨ src.Desc.MediaType = MediaTypeImageIndex
    · simp only [if_pos hmt]
      cases hu : env.unmarshalIndex dt with
      | error e => rfl
      | ok mfst =>
        simp only [ih]
        cases hf : flatten env rest with
        | error e => rfl
        | ok F => simp only [List.foldl_append]
    · simp only [if_neg hmt, ih]
      cases hf : flatten env rest with
      | error e => rfl
      | ok F => simp only [List.foldl_cons]

theorem mergeDescs_eq (env : Env) (rs : List (Bytes × Source)) :
    mergeDescs env rs =
      match flatten env rs with
      | .error e => .error e
      | .ok F => .ok (F.foldl addDesc ⟨[], []⟩).newDescs := by
  unfold mergeDescs
  rw [mergeSources_eq]
  cases flatten env rs <;> rfl

theorem posOf_some {g : String} {l : List String} {i : Nat} (h : posOf g l = some i) :
    l.get? i = some g := by
  induction l generalizing i with
  | nil => simp [posOf] at h
  | cons x xs ih =>
    simp only [posOf] at h
    by_cases hx : x = g
    · rw [if_pos hx] at h
      cases h
      simp [hx]
    · rw [if_neg hx] at h
      cases hp : posOf g xs with
      | none => simp [hp] at h
      | some j =>
        simp only [hp, Option.map_some'] at h
        cases h
        simpa using ih hp

theorem posOf_none {g : String} {l : List String} : posOf g l = none ↔ g ∉ l := by
  induction l with
  | nil => simp [posOf]
  | cons x xs ih =>
    simp only [posOf]
    by_cases hx : x = g
    · simp [hx]
    · rw [if_neg hx]
      simp only [Option.map_eq_none', ih, List.mem_cons, not_or]
      constructor
      · intro h
        exact ⟨fun hg => hx hg.symm, h⟩
      · intro h
        exact h.2

theorem posOf_append (g x : String) (l : List String) :
    posOf g (l ++ [x]) =
      match posOf g l with
      | some i => some i
      | none => if x = g then some l.length else none := by
  induction l with
  | nil =>
    simp only [List.nil_append, posOf, List.length_nil]
    by_cases hx : x = g <;> simp [hx]
  | cons y ys ih =>
    rw [List.cons_append]
    simp only [posOf, List.length_cons]
    by_cases hy : y = g
    · simp [hy]
    · rw [if_neg hy, if_neg hy, ih]
      cases hp : posOf g ys with
      | some i => rfl
      | none =>
        by_cases hx : x = g
        · simp only [if_pos hx, Option.map_some', Option.map_none']
        · simp only [if_neg hx, Option.map_none']

theorem lookupIdx_append (g x : String) (n : Nat) (m : List (String × Nat)) :
    lookupIdx (m ++ [(x, n)]) g =
      match lookupIdx m g with
      | some i => some i
      | none => if x = g then some n else none := by
  induction m with
  | nil =>
    simp only [List.nil_append, lookupIdx]
  | cons e rest ih =>
    obtain ⟨y, j⟩ := e
    rw [List.cons_append]
    simp only [lookupIdx]
    by_cases hy : y = g
    · simp [hy]
    · rw [if_neg hy, if_neg hy, ih]

theorem overlayDesc_digest (old d : Descriptor) : (overlayDesc old d).Digest = old.Digest := by
  unfold overlayDesc
  cases d.Platform <;> by_cases h : old.MediaType = "" <;> simp [h]

theorem digests_set {l : List Descriptor} {i : Nat} {old x : Descriptor}
    (hg : l.get? i = some old) (hx : x.Digest = old.Digest) :
    digests (l.set i x) = digests l := by
  induction l generalizing i with
  | nil => simp at hg
  | cons y ys ih =>
    cases i with
    | zero =>
      simp only [List.get?_cons_zero, Option.some.injEq] at hg
      subst hg
      simp [digests, hx]
    | succ j =>
      simp only [List.get?_cons_succ] at hg
      have := ih hg
      simp only [digests, List.set_cons_succ, List.map_cons] at this ⊢
      rw [this]

theorem addDesc_cases (st : MergeState) (d : Descriptor) (hinv : MergeInv st) :
    (∃ idx old, lookupIdx st.m d.Digest = some idx ∧ st.newDescs.get? idx = some old ∧
        old.Digest = d.Digest ∧
        addDesc st d = { st with newDescs := st.newDescs.set idx (overlayDesc old d) }) ∨
    (lookupIdx st.m d.Digest = none ∧ d.Digest ∉ digests st.newDescs ∧
        addDesc st d =
          ⟨st.m ++ [(d.Digest, st.newDescs.length)], st.newDescs ++ [d]⟩) := by
  cases hl : lookupIdx st.m d.Digest with
  | some idx =>
    left
    have hp : posOf d.Digest (digests st.newDescs) = some idx := by
      rw [← hinv, hl]
    have hg := posOf_some hp
    simp only [digests, List.get?_eq_getElem?, List.getElem?_map, Option.map_eq_some'] at hg
    obtain ⟨old, ho, hd⟩ := hg
    have ho2 : st.newDescs.get? idx = some old := by
      rw [List.get?_eq_getElem?]
      exact ho
    refine ⟨idx, old, rfl, ho2, hd, ?_⟩
    unfold addDesc
    simp only [hl, ho2]
  | none =>
    right
    have hp : posOf d.Digest (digests st.newDescs) = none := by
      rw [← hinv, hl]
    refine ⟨rfl, posOf_none.mp hp, ?_⟩
    unfold addDesc
    simp only [hl]

theorem addDesc_digests (st : MergeState) (d : Descriptor) (hinv : MergeInv st) :
    digests (addDesc st d).newDescs =
      if d.Digest ∈ digests st.newDescs then digests st.newDescs
      else digests st.newDescs ++ [d.Digest] := by
  rcases addDesc_cases st d hinv with ⟨idx, old, hl, hg, hd, ha⟩ | ⟨hl, hn, ha⟩
  · have hmem : d.Digest ∈ digests st.newDescs := by
      rw [← hd]
      exact List.mem_map_of_mem _ (List.get?_mem hg)
    rw [ha, if_pos hmem]
    exact digests_set hg (overlayDesc_digest old d)
  · rw [ha, if_neg hn]
    simp [digests]

theorem addDesc_inv (st : MergeState) (d : Descriptor) (hinv : MergeInv st) :
    MergeInv (addDesc st d) := by
  intro g
  rcases addDesc_cases st d hinv with ⟨idx, old, hl, hg, hd, ha⟩ | ⟨hl, hn, ha⟩
  · rw [ha]
    show lookupIdx st.m g = posOf g (digests (st.newDescs.set idx (overlayDesc old d)))
    rw [digests_set hg (overlayDesc_digest old d)]
    exact hinv g
  · rw [ha]
    show lookupIdx (st.m ++ [(d.Digest, st.newDescs.length)]) g
      = posOf g (digests (st.newDescs ++ [d]))
    have hd : digests (st.newDescs ++ [d]) = digests st.newDescs ++ [d.Digest] := by
      simp [digests]
    rw [hd, lookupIdx_append, posOf_append, hinv g]
    simp [digests]

theorem addDesc_entry (st : MergeState) (d : Descriptor) (hinv : MergeInv st) (g : String) :
    (addDesc st d).entry g =
      if d.Digest = g then
        match st.entry g with
        | some old => some (overlayDesc old d)
        | none => some d
      else st.entry g := by
  rcases addDesc_cases st d hinv with ⟨idx, old, hl, hg, hd, ha⟩ | ⟨hl, hn, ha⟩
  · rw [ha]
    by_cases hdg : d.Digest = g
    · subst hdg
      simp only [MergeState.entry, hl, hg, if_true]
      have hlt : idx < st.newDescs.length := by
        rcases Nat.lt_or_ge idx st.newDescs.length with h | h
        · exact h
        · rw [List.get?_eq_none.mpr h] at hg
          cases hg
      simp [List.getElem?_set_self hlt]
    · rw [if_neg hdg]
      simp only [MergeState.entry]
      cases hlg : lookupIdx st.m g with
      | none => rfl
      | some i =>
        have hne : idx ≠ i := by
          intro hii
          subst hii
          have h1 := posOf_some ((hinv g).symm.trans hlg |>.symm ▸ rfl : posOf g (digests st.newDescs) = some idx)
          have h2 := posOf_some ((hinv d.Digest).symm.trans hl |>.symm ▸ rfl : posOf d.Digest (digests st.newDescs) = some idx)
          rw [h1] at h2
          exact hdg (Option.some.inj h2).symm
        simp [List.getElem?_set_ne hne]
  · rw [ha]
    simp only [MergeState.entry, lookupIdx_append]
    cases hlg : lookupIdx st.m g with
    | some i =>
      have hne : ¬ d.Digest = g := by
        intro hdg
        rw [hdg, hlg] at hl
        cases hl
      have hp : posOf g (digests st.newDescs) = some i := by rw [← hinv, hlg]
      have hi := posOf_some hp
      have hlt : i < st.newDescs.length := by
        rcases Nat.lt_or_ge i st.newDescs.length with h | h
        · exact h
        · have : (digests st.newDescs).length ≤ i := by simpa [digests] using h
          rw [List.get?_eq_none.mpr this] at hi
          cases hi
      simp [hne, List.getElem?_append_left hlt]
    | none =>
      by_cases hdg : d.Digest = g
      · simp [hdg]
      · simp [hdg]

theorem mergeInv_empty : MergeInv ⟨[], []⟩ := by
  intro g
  rfl

theorem foldl_addDesc_inv (F : List Descriptor) :
    ∀ st, MergeInv st → MergeInv (F.foldl addDesc st) := by
  induction F with
  | nil =>
    intro st h
    exact h
  | cons d rest ih =>
    intro st h
    exact ih _ (addDesc_inv st d h)

theorem foldl_addDesc_digests (F : List Descriptor) :
    ∀ st, MergeInv st →
      digests (F.foldl addDesc st).newDescs =
        digests st.newDescs ++ firstOccurrences (digests st.newDescs) (digests F) := by
  induction F with
  | nil =>
    intro st _
    simp [digests, firstOccurrences]
  | cons d rest ih =>
    intro st h
    rw [List.foldl_cons, ih _ (addDesc_inv st d h), addDesc_digests st d h]
    show _ = digests st.newDescs
      ++ firstOccurrences (digests st.newDescs) (d.Digest :: digests rest)
    simp only [firstOccurrences]
    by_cases hm : d.Digest ∈ digests st.newDescs
    · rw [if_pos hm, if_pos hm]
    · rw [if_neg hm, if_neg hm, List.append_assoc]
      rfl

theorem foldl_addDesc_entry (F : List Descriptor) (g : String) :
    ∀ st, MergeInv st →
      (F.foldl addDesc st).entry g =
        match st.entry g with
        | some old => some ((occurrences g F).foldl overlayDesc old)
        | none =>
          match occurrences g F with
          | [] => none
          | o :: os => some (os.foldl overlayDesc o) := by
  induction F with
  | nil =>
    intro st _
    simp only [List.foldl_nil, occurrences, List.filter_nil]
    cases st.entry g <;> rfl
  | cons d rest ih =>
    intro st h
    rw [List.foldl_cons, ih _ (addDesc_inv st d h), addDesc_entry st d h g]
    by_cases hd : d.Digest = g
    · have ho : occurrences g (d :: rest) = d :: occurrences g rest := by
        simp [occurrences, hd]
      rw [if_pos hd, ho]
      cases st.entry g <;> rfl
    · have ho : occurrences g (d :: rest) = occurrences g rest := by
        simp [occurrences, hd]
      rw [if_neg hd, ho]

theorem mem_firstOccurrences (l : List String) :
    ∀ seen x, x ∈ seen ++ firstOccurrences seen l ↔ x ∈ seen ∨ x ∈ l := by
  induction l with
  | nil =>
    intro seen x
    simp [firstOccurrences]
  | cons y ys ih =>
    intro seen x
    simp only [firstOccurrences]
    by_cases hy : y ∈ seen
    · rw [if_pos hy, ih seen x]
      constructor
      · rintro (h | h)
        · exact Or.inl h
        · exact Or.inr (List.mem_cons_of_mem _ h)
      · rintro (h | h)
        · exact Or.inl h
        · rcases List.mem_cons.mp h with h | h
          · exact Or.inl (h ▸ hy)
          · exact Or.inr h
    · rw [if_neg hy]
      have := ih (seen ++ [y]) x
      rw [List.append_assoc] at this
      simp only [List.singleton_append] at this
      rw [this]
      simp only [List.mem_append, List.mem_singleton, List.mem_cons]
      tauto

theorem firstOccurrences_nodup (l : List String) :
    ∀ seen, seen.Nodup → (seen ++ firstOccurrences seen l).Nodup := by
  induction l with
  | nil =>
    intro seen h
    simpa [firstOccurrences] using h
  | cons y ys ih =>
    intro seen h
    simp only [firstOccurrences]
    by_cases hy : y ∈ seen
    · rw [if_pos hy]
      exact ih seen h
    · rw [if_neg hy]
      have hn : (seen ++ [y]).Nodup := by
        rw [List.nodup_append]
        refine ⟨h, List.nodup_singleton y, ?_⟩
        intro a ha hb
        rw [List.mem_singleton] at hb
        exact hy (hb ▸ ha)
      have := ih (seen ++ [y]) hn
      rw [List.append_assoc] at this
      simpa using this

theorem mergeDescs_ok {env : Env} {rs : List (Bytes × Source)} {newDescs : List Descriptor}
    (h : mergeDescs env rs = .ok newDescs) :
    ∃ F, flatten env rs = .ok F ∧ newDescs = (F.foldl addDesc ⟨[], []⟩).newDescs := by
  rw [mergeDescs_eq] at h
  cases hf : flatten env rs with
  | error e =>
    simp only [hf] at h
    cases h
  | ok F =>
    simp only [hf] at h
    cases h
    exact ⟨F, rfl, rfl⟩

theorem mergeDescs_digests {env : Env} {rs : List (Bytes × Source)} {F newDescs : List Descriptor}
    (hf : flatten env rs = .ok F) (h : mergeDescs env rs = .ok newDescs) :
    digests newDescs = firstOccurrences [] (digests F) := by
  obtain ⟨F1, hf1, hn⟩ := mergeDescs_ok h
  rw [hf] at hf1
  cases hf1
  rw [hn, foldl_addDesc_digests F _ mergeInv_empty]
  rfl

theorem strip_digests (l1 l2 : List Descriptor)
    (h : l1.map Descriptor.strip = l2.map Descriptor.strip) : digests l1 = digests l2 := by
  have := congrArg (List.map (fun d : Descriptor => d.Digest)) h
  simpa [digests, List.map_map, Function.comp_def, Descriptor.strip] using this

/-! ## No digest twice in a composed index -/

theorem composeIndex_digests_nodup {env : Env} {sched : Sched} {rs : List (Bytes × Source)}
    {ann : GoMap} {idx : Index} (h : composeIndex env sched rs ann = .ok idx) :
    (idx.Manifests.map (fun d => d.Digest)).Nodup := by
  obtain ⟨newDescs, ia, ds, hm, ha, hidx⟩ := composeIndex_ok h
  obtain ⟨F, hf, _⟩ := mergeDescs_ok hm
  have h1 : digests ds = digests newDescs := strip_digests _ _ (applyAnnotations_strip ha)
  have h2 := mergeDescs_digests hf hm
  have h3 := firstOccurrences_nodup (digests F) [] List.nodup_nil
  rw [hidx]
  show (digests ds).Nodup
  rw [h1, h2]
  simpa using h3

/-! ## C3: the pass-through -/

theorem resolveSource_list (env : Env) (src : Source) (dt : Bytes) (mt : String)
    (hfetch : env.GetDescriptor src.Ref src.Desc = .ok dt)
    (hmt : src.Desc.MediaType = mt ∨ (src.Desc.MediaType = "" ∧ detectMediaType env dt = .ok mt))
    (hli : mt = MediaTypeDockerSchema2ManifestList ∨ mt = MediaTypeImageIndex) :
    resolveSource env src = .ok (dt, ⟨{ src.Desc with MediaType := mt }, src.Ref⟩) := by
  have hne : mt ≠ "" := by
    rcases hli with h | h <;> rw [h] <;> decide
  have h1 : ¬ (mt = MediaTypeDockerSchema2Manifest ∨ mt = MediaTypeImageManifest) := by
    rcases hli with h | h <;> rw [h] <;> decide
  have h2 : ¬ mt = MediaTypeDockerSchema1Manifest := by
    rcases hli with h | h <;> rw [h] <;> decide
  have hfill : fillMediaType env src.Desc dt = .ok { src.Desc with MediaType := mt } := by
    unfold fillMediaType
    rcases hmt with hg | ⟨he, hd⟩
    · have hg2 : ¬ src.Desc.MediaType = "" := by rw [hg]; exact hne
      rw [if_neg hg2, ← hg]
    · rw [if_pos he]
      simp only [hd]
  have hplat : fillPlatform env src.Ref dt { src.Desc with MediaType := mt }
      = .ok { src.Desc with MediaType := mt } := by
    unfold fillPlatform
    simp only [if_neg h1, if_neg h2]
  unfold resolveSource
  simp only [hfetch, hfill, hplat]

/-- C3: with exactly one source, no annotations (a nil or an empty map), a
fetch that succeeds and a media type, given or detected, that is the Docker
manifest-list type or the OCI image index type, `Combine` returns the fetched
bytes as they are together with the descriptor of the source: the descriptor
as given when it names its media type, and with the detected media type filled
in, nothing else changed, when it does not.  Nothing is asked of the index
decoder or of the encoder, so the bytes are neither decoded nor serialised
again. -/
theorem C3_single_source_pass_through (env : Env) (sched : Sched) (src : Source) (dt : Bytes)
    (mt : String) (hfetch : env.GetDescriptor src.Ref src.Desc = .ok dt)
    (hmt : src.Desc.MediaType = mt ∨ (src.Desc.MediaType = "" ∧ detectMediaType env dt = .ok mt))
    (hli : mt = MediaTypeDockerSchema2ManifestList ∨ mt = MediaTypeImageIndex) :
    Combine env sched [src] [] = .ok (dt, { src.Desc with MediaType := mt }) ∧
      (src.Desc.MediaType = mt → Combine env sched [src] [] = .ok (dt, src.Desc)) := by
  have hr := resolveSource_list env src dt mt hfetch hmt hli
  have hp : phase1 env sched.done [src]
      = .ok [(dt, ⟨{ src.Desc with MediaType := mt }, src.Ref⟩)] := by
    rw [phase1_ok_iff]
    simp only [List.map_cons, List.map_nil, hr]
  have hc : Combine env sched [src] [] = .ok (dt, { src.Desc with MediaType := mt }) := by
    unfold Combine
    simp only [hp, passThrough, entries, List.length_cons, List.length_nil, and_self,
      if_true, if_pos hli]
  refine ⟨hc, ?_⟩
  intro hg
  rw [hc, ← hg]

/-- C3 at a source without a media type whose body is detected as a Docker
manifest list, in a registry where decoding an index and encoding fail. -/
theorem C3_single_source_pass_through_witness :
    Combine opaqueEnv sampleSched [⟨⟨"", "xxx", 3, [], none, none⟩, "reg/x"⟩] []
        = .ok ([7, 7, 7], ⟨MediaTypeDockerSchema2ManifestList, "xxx", 3, [], none, none⟩) ∧
      ("" = MediaTypeDockerSchema2ManifestList →
        Combine opaqueEnv sampleSched [⟨⟨"", "xxx", 3, [], none, none⟩, "reg/x"⟩] []
          = .ok ([7, 7, 7], ⟨"", "xxx", 3, [], none, none⟩)) :=
  C3_single_source_pass_through opaqueEnv sampleSched ⟨⟨"", "xxx", 3, [], none, none⟩, "reg/x"⟩
    [7, 7, 7] MediaTypeDockerSchema2ManifestList (by decide) (by decide) (by decide)

/-! ## What Phase 1 does to a descriptor -/

theorem resolveSource_ok {env : Env} {src src1 : Source} {dt : Bytes}
    (h : resolveSource env src = .ok (dt, src1)) :
    ∃ desc, env.GetDescriptor src.Ref src.Desc = .ok dt ∧
      fillMediaType env src.Desc dt = .ok desc ∧
      fillPlatform env src.Ref dt desc = .ok src1.Desc ∧ src1.Ref = src.Ref := by
  unfold resolveSource at h
  cases hg : env.GetDescriptor src.Ref src.Desc with
  | error e =>
    simp only [hg] at h
    cases h
  | ok dt1 =>
    simp only [hg] at h
    cases hm : fillMediaType env src.Desc dt1 with
    | error e =>
      simp only [hm] at h
      cases h
    | ok desc =>
      simp only [hm] at h
      cases hp : fillPlatform env src.Ref dt1 desc with
      | error e =>
        simp only [hp] at h
        cases h
      | ok desc1 =>
        simp only [hp] at h
        cases h
        exact ⟨desc, rfl, hm, hp, rfl⟩

theorem fillMediaType_ok {env : Env} {d d1 : Descriptor} {dt : Bytes}
    (h : fillMediaType env d dt = .ok d1) :
    (d.MediaType ≠ "" ∧ d1 = d) ∨
      (d.MediaType = "" ∧ ∃ mt, detectMediaType env dt = .ok mt ∧
        d1 = { d with MediaType := mt }) := by
  unfold fillMediaType at h
  by_cases he : d.MediaType = ""
  · rw [if_pos he] at h
    right
    refine ⟨he, ?_⟩
    cases hd : detectMediaType env dt with
    | error e =>
      simp only [hd] at h
      cases h
    | ok mt =>
      simp only [hd] at h
      cases h
      exact ⟨mt, rfl, rfl⟩
  · rw [if_neg he] at h
    cases h
    exact Or.inl ⟨he, rfl⟩

theorem fillMediaType_fields {env : Env} {d d1 : Descriptor} {dt : Bytes}
    (h : fillMediaType env d dt = .ok d1) :
    d1.Digest = d.Digest ∧ d1.Size = d.Size ∧ d1.URLs = d.URLs ∧
      d1.Annotations = d.Annotations ∧ d1.Platform = d.Platform := by
  rcases fillMediaType_ok h with ⟨_, h1⟩ | ⟨_, mt, _, h1⟩ <;> rw [h1] <;> simp

theorem fillPlatform_ok {env : Env} {ref : String} {d d1 : Descriptor} {dt : Bytes}
    (h : fillPlatform env ref dt d = .ok d1) :
    ((d.MediaType = MediaTypeDockerSchema2Manifest ∨ d.MediaType = MediaTypeImageManifest) ∧
      ∃ p, d1 = { d with Platform := some p } ∧
        (((platformOrZero d).OS ≠ "" ∧ (platformOrZero d).Architecture ≠ ""
            ∧ p = platformOrZero d) ∨
          (((platformOrZero d).OS = "" ∨ (platformOrZero d).Architecture = "")
            ∧ loadPlatform env (platformOrZero d) ref dt = .ok p))) ∨
    (¬ (d.MediaType = MediaTypeDockerSchema2Manifest ∨ d.MediaType = MediaTypeImageManifest) ∧
      d.MediaType ≠ MediaTypeDockerSchema1Manifest ∧ d1 = d) := by
  unfold fillPlatform at h
  by_cases hm : d.MediaType = MediaTypeDockerSchema2Manifest
      ∨ d.MediaType = MediaTypeImageManifest
  · rw [if_pos hm] at h
    left
    refine ⟨hm, ?_⟩
    by_cases hp : (platformOrZero d).OS = "" ∨ (platformOrZero d).Architecture = ""
    · rw [if_pos hp] at h
      cases hl : loadPlatform env (platformOrZero d) ref dt with
      | error e =>
        simp only [hl] at h
        cases h
      | ok p1 =>
        simp only [hl] at h
        cases h
        exact ⟨p1, rfl, Or.inr ⟨hp, rfl⟩⟩
    · rw [if_neg hp] at h
      cases h
      rw [not_or] at hp
      exact ⟨platformOrZero d, rfl, Or.inl ⟨hp.1, hp.2, rfl⟩⟩
  · rw [if_neg hm] at h
    right
    by_cases h1 : d.MediaType = MediaTypeDockerSchema1Manifest
    · rw [if_pos h1] at h
      cases h
    · rw [if_neg h1] at h
      cases h
      exact ⟨hm, h1, rfl⟩

theorem fillPlatform_fields {env : Env} {ref : String} {d d1 : Descriptor} {dt : Bytes}
    (h : fillPlatform env ref dt d = .ok d1) :
    d1.MediaType = d.MediaType ∧ d1.Digest = d.Digest ∧ d1.Size = d.Size ∧ d1.URLs = d.URLs ∧
      d1.Annotations = d.Annotations := by
  rcases fillPlatform_ok h with ⟨_, p, h1, _⟩ | ⟨_, _, h1⟩ <;> rw [h1] <;> simp

theorem passThrough_some {rs : List (Bytes × Source)} {ann : GoMap} {b : Bytes} {D : Descriptor}
    (h : passThrough rs ann = some (b, D)) :
    ∃ src, rs = [(b, src)] ∧ D = src.Desc ∧ entries ann = [] ∧
      (src.Desc.MediaType = MediaTypeDockerSchema2ManifestList
        ∨ src.Desc.MediaType = MediaTypeImageIndex) := by
  unfold passThrough at h
  by_cases hc : rs.length = 1 ∧ (entries ann).length = 0
  · rw [if_pos hc] at h
    cases rs with
    | nil => simp at hc
    | cons r rest =>
      obtain ⟨dt, src⟩ := r
      simp only at h
      by_cases hm : src.Desc.MediaType = MediaTypeDockerSchema2ManifestList
          ∨ src.Desc.MediaType = MediaTypeImageIndex
      · rw [if_pos hm] at h
        cases h
        have hrest : rest = [] := by
          have := hc.1
          simp only [List.length_cons, Nat.add_left_eq_self] at this
          exact List.length_eq_zero.mp this
        exact ⟨src, by rw [hrest], rfl, List.length_eq_zero.mp hc.2, hm⟩
      · rw [if_neg hm] at h
        cases h
  · rw [if_neg hc] at h
    cases h

/-! ## C4: the descriptor that is returned -/

/-- C4, as the code has it: whenever `Combine` succeeds, either it has
serialised a new index, and then the digest of the returned descriptor is the
SHA-256 digest of the returned bytes and its size is their length; or it has
taken the pass-through for its only source, and then the returned bytes are the
bytes fetched for that source and the returned digest and size are the digest
and the size of the descriptor of that source as the caller gave them, not
computed from the bytes. -/
theorem C4_descriptor_of_result (env : Env) (sched : Sched) (srcs : List Source) (ann : GoMap)
    (b : Bytes) (D : Descriptor) (h : Combine env sched srcs ann = .ok (b, D)) :
    ∃ rs, phase1 env sched.done srcs = .ok rs ∧
      (passThrough rs ann = none → D.Digest = env.FromBytes b ∧ D.Size = b.length) ∧
      (passThrough rs ann ≠ none →
        ∃ src, srcs = [src] ∧ env.GetDescriptor src.Ref src.Desc = .ok b ∧
          D.Digest = src.Desc.Digest ∧ D.Size = src.Desc.Size) := by
  obtain ⟨rs, hp, hcase⟩ := Combine_ok h
  refine ⟨rs, hp, ?_, ?_⟩
  · intro hnone
    rcases hcase with hpt | ⟨_, idx, _, hs⟩
    · rw [hnone] at hpt
      cases hpt
    · obtain ⟨_, hD⟩ := serialize_ok hs
      rw [hD]
      exact ⟨rfl, rfl⟩
  · intro hsome
    rcases hcase with hpt | ⟨hnone, _⟩
    · obtain ⟨src1, hrs, hD, _, _⟩ := passThrough_some hpt
      have hmap := (phase1_ok_iff env sched.done srcs rs).mp hp
      rw [hrs] at hmap
      cases srcs with
      | nil => simp at hmap
      | cons src rest =>
        cases rest with
        | cons s2 r2 => simp at hmap
        | nil =>
          simp only [List.map_cons, List.map_nil, List.cons.injEq, and_true] at hmap
          obtain ⟨desc, hg, hm, hpl, _⟩ := resolveSource_ok hmap
          have h1 := fillMediaType_fields hm
          have h2 := fillPlatform_fields hpl
          refine ⟨src, rfl, hg, ?_, ?_⟩
          · rw [hD, h2.2.1, h1.1]
          · rw [hD, h2.2.2.1, h1.2.1]
    · exact absurd hnone hsome

/-- C4 at a pass-through and at a new index: for the only source, a descriptor
that names the digest of its blob and no size, `Combine` returns the blob of
three bytes with a descriptor of size 0. -/
theorem C4_descriptor_of_result_witness :
    ∃ rs, phase1 opaqueEnv sampleSched.done [⟨⟨"", "xxx", 0, [], none, none⟩, "reg/x"⟩] = .ok rs ∧
      (passThrough rs [] = none →
        (⟨MediaTypeDockerSchema2ManifestList, "xxx", 0, [], none, none⟩ : Descriptor).Digest
            = opaqueEnv.FromBytes [7, 7, 7] ∧
          (⟨MediaTypeDockerSchema2ManifestList, "xxx", 0, [], none, none⟩ : Descriptor).Size
            = ([7, 7, 7] : Bytes).length) ∧
      (passThrough rs [] ≠ none →
        ∃ src, [(⟨⟨"", "xxx", 0, [], none, none⟩, "reg/x"⟩ : Source)] = [src] ∧
          opaqueEnv.GetDescriptor src.Ref src.Desc = .ok [7, 7, 7] ∧
          (⟨MediaTypeDockerSchema2ManifestList, "xxx", 0, [], none, none⟩ : Descriptor).Digest
            = src.Desc.Digest ∧
          (⟨MediaTypeDockerSchema2ManifestList, "xxx", 0, [], none, none⟩ : Descriptor).Size
            = src.Desc.Size) :=
  C4_descriptor_of_result opaqueEnv sampleSched [⟨⟨"", "xxx", 0, [], none, none⟩, "reg/x"⟩] []
    [7, 7, 7] ⟨MediaTypeDockerSchema2ManifestList, "xxx", 0, [], none, none⟩ (by decide)

/-- C4 fails as stated: the only source is a descriptor with the digest of its
blob, no media type and no size; the body is detected as a manifest list, the
pass-through returns the three fetched bytes and the descriptor of the source,
whose digest is the digest of the bytes and whose size is 0, not 3. -/
theorem C4_counterexample :
    ∃ b D, Combine opaqueEnv sampleSched [⟨⟨"", "xxx", 0, [], none, none⟩, "reg/x"⟩] []
        = .ok (b, D) ∧
      D.Digest = opaqueEnv.FromBytes b ∧ ¬ (D.Size = b.length) :=
  ⟨[7, 7, 7], ⟨MediaTypeDockerSchema2ManifestList, "xxx", 0, [], none, none⟩,
    by decide, by decide, by decide⟩

/-! ## C7: a Docker manifest list takes no annotations -/

/-- C7: when the merged children make the container a Docker manifest list,
the annotation map has no effect, whatever its keys are: the composed index
has the empty annotation map and the merged children as they are, no error
comes from the annotations (they are not parsed), and `Combine` serialises
exactly this index.  So an index that `Combine` composes with a non-empty
annotation map has the OCI image index media type. -/
theorem C7_docker_list_ignores_annotations (env : Env) (sched : Sched)
    (rs : List (Bytes × Source)) (ann : GoMap) (newDescs : List Descriptor)
    (hm : mergeDescs env rs = .ok newDescs) :
    (selectMediaType newDescs = MediaTypeDockerSchema2ManifestList →
      composeIndex env sched rs ann
          = .ok ⟨2, MediaTypeDockerSchema2ManifestList, newDescs, some []⟩ ∧
        ∀ srcs, phase1 env sched.done srcs = .ok rs → passThrough rs ann = none →
          Combine env sched srcs ann
            = serialize env ⟨2, MediaTypeDockerSchema2ManifestList, newDescs, some []⟩) ∧
    (∀ idx, composeIndex env sched rs ann = .ok idx → idx.Annotations ≠ some [] →
      idx.MediaType = MediaTypeImageIndex) := by
  constructor
  · intro hd
    have hne : ¬ MediaTypeDockerSchema2ManifestList = MediaTypeImageIndex := by decide
    have hc : composeIndex env sched rs ann
        = .ok ⟨2, MediaTypeDockerSchema2ManifestList, newDescs, some []⟩ := by
      unfold composeIndex
      simp only [hm, hd, applyAnnotations, if_neg hne]
    refine ⟨hc, ?_⟩
    intro srcs hp hpt
    unfold Combine
    simp only [hp, hpt, hc]
  · intro idx hc hann
    obtain ⟨newDescs1, ia, ds, hm1, ha, hidx⟩ := composeIndex_ok hc
    rcases applyAnnotations_ok ha with ⟨_, hia, _⟩ | ⟨hmt, _⟩
    · rw [hidx, hia] at hann
      exact absurd rfl hann
    · rw [hidx]
      exact hmt

/-- C7 at one Docker manifest and an annotation map whose only key does not
even match the grammar. -/
theorem C7_docker_list_ignores_annotations_witness :
    (selectMediaType [manifestD] = MediaTypeDockerSchema2ManifestList →
      composeIndex sampleEnv sampleSched [([0], ⟨manifestD, "reg/x"⟩)] [("no type", "v")]
          = .ok ⟨2, MediaTypeDockerSchema2ManifestList, [manifestD], some []⟩ ∧
        ∀ srcs, phase1 sampleEnv sampleSched.done srcs = .ok [([0], ⟨manifestD, "reg/x"⟩)] →
          passThrough [([0], ⟨manifestD, "reg/x"⟩)] [("no type", "v")] = none →
          Combine sampleEnv sampleSched srcs [("no type", "v")]
            = serialize sampleEnv ⟨2, MediaTypeDockerSchema2ManifestList, [manifestD], some []⟩) ∧
    (∀ idx, composeIndex sampleEnv sampleSched [([0], ⟨manifestD, "reg/x"⟩)] [("no type", "v")]
        = .ok idx → idx.Annotations ≠ some [] → idx.MediaType = MediaTypeImageIndex) :=
  C7_docker_list_ignores_annotations sampleEnv sampleSched [([0], ⟨manifestD, "reg/x"⟩)]
    [("no type", "v")] [manifestD] (by decide)

/-! ## C8: first occurrence fixes the position -/

theorem eraseDups_loop_eq (l : List String) :
    ∀ bs, List.eraseDups.loop l bs = bs.reverse ++ firstOccurrences bs.reverse l := by
  induction l with
  | nil =>
    intro bs
    simp [List.eraseDups.loop, firstOccurrences]
  | cons a rest ih =>
    intro bs
    simp only [List.eraseDups.loop, firstOccurrences]
    by_cases ha : a ∈ bs
    · have he : bs.elem a = true := by simpa using ha
      have hr : a ∈ bs.reverse := List.mem_reverse.mpr ha
      simp only [he, if_pos hr]
      exact ih bs
    · have he : bs.elem a = false := by simpa using ha
      have hr : ¬ a ∈ bs.reverse := fun h => ha (List.mem_reverse.mp h)
      simp only [he, if_neg hr]
      rw [ih (a :: bs)]
      simp

theorem firstOccurrences_eq_eraseDups (l : List String) :
    firstOccurrences [] l = l.eraseDups := by
  unfold List.eraseDups
  rw [eraseDups_loop_eq]
  rfl

theorem firstOccurrences_length (l : List String) :
    (firstOccurrences [] l).length = l.toFinset.card := by
  have hn : (firstOccurrences [] l).Nodup := by
    simpa using firstOccurrences_nodup l [] List.nodup_nil
  rw [← List.toFinset_card_of_nodup hn]
  congr 1
  ext x
  have := mem_firstOccurrences l [] x
  simpa using this

theorem composeIndex_first_occurrences {env : Env} {sched : Sched}
    {rs : List (Bytes × Source)} {ann : GoMap} {idx : Index}
    (h : composeIndex env sched rs ann = .ok idx) :
    ∃ F, flatten env rs = .ok F ∧
      idx.Manifests.map (fun d => d.Digest) = firstOccurrences [] (F.map (fun d => d.Digest)) ∧
      idx.Manifests.map (fun d => d.Digest) = (F.map (fun d => d.Digest)).eraseDups ∧
      idx.Manifests.length = (F.map (fun d => d.Digest)).toFinset.card := by
  obtain ⟨newDescs, ia, ds, hm, ha, hidx⟩ := composeIndex_ok h
  obtain ⟨F, hf, _⟩ := mergeDescs_ok hm
  have h1 : digests ds = digests newDescs := strip_digests _ _ (applyAnnotations_strip ha)
  have h2 := mergeDescs_digests hf hm
  have h3 : idx.Manifests.map (fun d => d.Digest)
      = firstOccurrences [] (F.map (fun d => d.Digest)) := by
    rw [hidx]
    show digests ds = firstOccurrences [] (digests F)
    rw [h1, h2]
  refine ⟨F, hf, h3, ?_, ?_⟩
  · rw [h3, firstOccurrences_eq_eraseDups]
  · have := congrArg List.length h3
    rw [List.length_map, firstOccurrences_length] at this
    exact this

/-! ## Writing a sequence of entries into a map -/

theorem mget_append (l : GoMap) (kv : String × String) (k : String) :
    mget (l ++ [kv]) k =
      match mget l k with
      | some v => some v
      | none => if kv.1 = k then some kv.2 else none := by
  induction l with
  | nil =>
    obtain ⟨k1, v1⟩ := kv
    simp only [List.nil_append, mget]
  | cons e rest ih =>
    obtain ⟨k1, v1⟩ := e
    rw [List.cons_append]
    simp only [mget]
    by_cases h1 : k1 = k
    · simp only [if_pos h1]
    · simp only [if_neg h1, ih]

theorem lastValue_cons (kv : String × String) (l : List (String × String)) (k : String) :
    lastValue (kv :: l) k =
      match lastValue l k with
      | some v => some v
      | none => if kv.1 = k then some kv.2 else none := by
  unfold lastValue
  rw [List.reverse_cons, mget_append]

theorem lastValue_nil (k : String) : lastValue [] k = none := rfl

theorem mget_foldl_mset (l : List (String × String)) :
    ∀ (a : GoMap) (k : String),
      mget (l.foldl (fun acc kv => mset acc kv.1 kv.2) a) k =
        match lastValue l k with
        | some v => some v
        | none => mget a k := by
  induction l with
  | nil =>
    intro a k
    rfl
  | cons kv rest ih =>
    intro a k
    rw [List.foldl_cons, ih, lastValue_cons, mget_mset]
    cases lastValue rest k with
    | some v => rfl
    | none =>
      by_cases h : kv.1 = k
      · simp only [if_pos h]
      · simp only [if_neg h]

/-! ## The entries of a map -/

theorem mget_filter_ne (l : GoMap) (k1 k : String) (h : k1 ≠ k) :
    mget (l.filter (fun e => e.1 ≠ k1)) k = mget l k := by
  induction l with
  | nil => rfl
  | cons e rest ih =>
    obtain ⟨k2, v2⟩ := e
    by_cases h2 : k2 = k1
    · have hk : ¬ k2 = k := fun hh => h (h2.symm.trans hh)
      simp only [List.filter_cons, h2, ne_eq, not_true_eq_false, decide_False, mget]
      simp only [Bool.false_eq_true, if_false]
      rw [← h2, if_neg hk]
      rw [h2]
      exact ih
    · simp only [List.filter_cons, ne_eq, h2, not_false_eq_true, decide_True, if_true, mget, ih]

theorem mget_entries (m : GoMap) (k : String) : mget (entries m) k = mget m k := by
  induction m with
  | nil => rfl
  | cons e rest ih =>
    obtain ⟨k1, v1⟩ := e
    simp only [entries, mget]
    by_cases h1 : k1 = k
    · simp only [if_pos h1]
    · simp only [if_neg h1]
      rw [mget_filter_ne _ _ _ h1, ih]

theorem keys_filter (l : GoMap) (k1 : String) :
    (l.filter (fun e => e.1 ≠ k1)).map Prod.fst = (l.map Prod.fst).filter (fun x => x ≠ k1) := by
  rw [List.filter_map]
  rfl

theorem entries_nodup (m : GoMap) : ((entries m).map Prod.fst).Nodup := by
  induction m with
  | nil => exact List.nodup_nil
  | cons e rest ih =>
    obtain ⟨k1, v1⟩ := e
    simp only [entries, List.map_cons, List.nodup_cons]
    rw [keys_filter]
    constructor
    · intro hmem
      have := (List.mem_filter.mp hmem).2
      simp at this
    · exact ih.filter _

theorem mget_eq_some_iff (l : GoMap) (hn : (l.map Prod.fst).Nodup) (k v : String) :
    mget l k = some v ↔ (k, v) ∈ l := by
  induction l with
  | nil => simp [mget]
  | cons e rest ih =>
    obtain ⟨k1, v1⟩ := e
    simp only [List.map_cons, List.nodup_cons] at hn
    simp only [mget, List.mem_cons, Prod.mk.injEq]
    by_cases h1 : k1 = k
    · subst h1
      simp only [if_true, Option.some.injEq, true_and]
      constructor
      · intro h
        exact Or.inl h.symm
      · rintro (h | h)
        · exact h.symm
        · exact absurd (List.mem_map_of_mem Prod.fst h) hn.1
    · simp only [if_neg h1, ih hn.2]
      constructor
      · intro h
        exact Or.inr h
      · rintro (h | h)
        · exact absurd h.1.symm h1
        · exact h

theorem lastValue_eq_mget (l : GoMap) (hn : (l.map Prod.fst).Nodup) (k : String) :
    lastValue l k = mget l k := by
  unfold lastValue
  have hr : (l.reverse.map Prod.fst).Nodup := by
    rw [List.map_reverse]
    exact List.nodup_reverse.mpr hn
  apply Option.ext
  intro v
  show mget l.reverse k = some v ↔ mget l k = some v
  rw [mget_eq_some_iff _ hr, mget_eq_some_iff _ hn, List.mem_reverse]

theorem mget_copyInto (dst src : GoMap) (k : String) :
    mget (copyInto dst src) k =
      match mget src k with
      | some v => some v
      | none => mget dst k := by
  unfold copyInto
  rw [mget_foldl_mset, lastValue_eq_mget _ (entries_nodup src), mget_entries]

/-! ## What the overlay keeps of each occurrence -/

theorem overlayDesc_mediaType (old d : Descriptor) :
    (overlayDesc old d).MediaType = if old.MediaType = "" then d.MediaType else old.MediaType := by
  unfold overlayDesc
  cases d.Platform <;> by_cases h : old.MediaType = "" <;> simp [h]

theorem overlayDesc_size (old d : Descriptor) : (overlayDesc old d).Size = old.Size := by
  unfold overlayDesc
  cases d.Platform <;> by_cases h : old.MediaType = "" <;> simp [h]

theorem overlayDesc_platform (old d : Descriptor) :
    (overlayDesc old d).Platform =
      match d.Platform with
      | some p => some p
      | none => old.Platform := by
  unfold overlayDesc
  cases d.Platform <;> by_cases h : old.MediaType = "" <;> simp [h]

theorem overlayDesc_annotations (old d : Descriptor) :
    (overlayDesc old d).Annotations
      = some (copyInto (orEmpty old.Annotations) (orEmpty d.Annotations)) := by
  unfold overlayDesc
  cases d.Platform <;> by_cases h : old.MediaType = "" <;> simp [h]

theorem mget_orEmpty (a : Option GoMap) (k : String) : mget (orEmpty a) k = annGet a k := by
  cases a <;> rfl

theorem overlayDesc_annGet (old d : Descriptor) (k : String) :
    annGet (overlayDesc old d).Annotations k =
      match annGet d.Annotations k with
      | some v => some v
      | none => annGet old.Annotations k := by
  rw [overlayDesc_annotations]
  show mget (copyInto (orEmpty old.Annotations) (orEmpty d.Annotations)) k = _
  rw [mget_copyInto, mget_orEmpty, mget_orEmpty]

theorem getLast?_cons_match {β : Type} (p : β) (l : List β) :
    (p :: l).getLast? =
      match l.getLast? with
      | some q => some q
      | none => some p := by
  cases l with
  | nil => rfl
  | cons x xs =>
    rw [List.getLast?_cons_cons]
    cases h : (x :: xs).getLast? with
    | some q => rfl
    | none => simp at h

theorem foldl_overlayDesc_last {β : Type} (proj g : Descriptor → Option β)
    (hstep : ∀ old d, proj (overlayDesc old d) =
      match g d with
      | some v => some v
      | none => proj old)
    (os : List Descriptor) :
    ∀ o, proj (os.foldl overlayDesc o) =
      match (os.filterMap g).getLast? with
      | some v => some v
      | none => proj o := by
  induction os with
  | nil =>
    intro o
    rfl
  | cons d rest ih =>
    intro o
    rw [List.foldl_cons, ih, hstep]
    cases hg : g d with
    | none =>
      rw [List.filterMap_cons_none hg]
    | some v =>
      rw [List.filterMap_cons_some hg, getLast?_cons_match]
      cases (rest.filterMap g).getLast? <;> rfl

theorem foldl_overlayDesc_size (os : List Descriptor) :
    ∀ o, (os.foldl overlayDesc o).Size = o.Size := by
  induction os with
  | nil =>
    intro o
    rfl
  | cons d rest ih =>
    intro o
    rw [List.foldl_cons, ih, overlayDesc_size]

theorem foldl_overlayDesc_mediaType (os : List Descriptor) :
    ∀ o, (o.MediaType ≠ "" → (os.foldl overlayDesc o).MediaType = o.MediaType) ∧
      (o.MediaType = "" → (os.foldl overlayDesc o).MediaType
        = ((os.map (fun d => d.MediaType)).find? (fun s => s ≠ "")).getD "") := by
  induction os with
  | nil =>
    intro o
    constructor
    · intro _
      rfl
    · intro h
      simpa using h
  | cons d rest ih =>
    intro o
    rw [List.foldl_cons]
    constructor
    · intro h
      have hm : (overlayDesc o d).MediaType = o.MediaType := by
        rw [overlayDesc_mediaType, if_neg h]
      rw [(ih (overlayDesc o d)).1 (by rw [hm]; exact h), hm]
    · intro h
      have hm : (overlayDesc o d).MediaType = d.MediaType := by
        rw [overlayDesc_mediaType, if_pos h]
      by_cases hd : d.MediaType = ""
      · rw [(ih (overlayDesc o d)).2 (by rw [hm]; exact hd)]
        simp [List.find?_cons, hd]
      · rw [(ih (overlayDesc o d)).1 (by rw [hm]; exact hd), hm]
        simp [List.find?_cons, hd]

theorem foldl_overlayDesc_annotations_some (os : List Descriptor) :
    ∀ o, o.Annotations ≠ none → (os.foldl overlayDesc o).Annotations ≠ none := by
  induction os with
  | nil =>
    intro o h
    exact h
  | cons d rest ih =>
    intro o _
    rw [List.foldl_cons]
    apply ih
    rw [overlayDesc_annotations]
    simp

theorem posOf_get_of_nodup (l : List Descriptor) (c : Descriptor)
    (hn : (digests l).Nodup) (hc : c ∈ l) :
    ∃ i, posOf c.Digest (digests l) = some i ∧ l.get? i = some c := by
  induction l with
  | nil => cases hc
  | cons x xs ih =>
    simp only [digests, List.map_cons, List.nodup_cons] at hn
    by_cases hx : x.Digest = c.Digest
    · refine ⟨0, ?_, ?_⟩
      · simp only [digests, List.map_cons, posOf, if_pos hx]
      · rcases List.mem_cons.mp hc with h | h
        · rw [h]
          rfl
        · exact absurd (hx ▸ List.mem_map_of_mem (fun d => d.Digest) h) hn.1
    · rcases List.mem_cons.mp hc with h | h
      · exact absurd (h ▸ rfl) hx
      · obtain ⟨i, hp, hg⟩ := ih hn.2 h
        refine ⟨i + 1, ?_, ?_⟩
        · simp only [digests, List.map_cons, posOf, if_neg hx]
          simp only [digests] at hp
          rw [hp]
          rfl
        · simpa using hg

theorem entry_of_mem (st : MergeState) (c : Descriptor) (hinv : MergeInv st)
    (hn : (digests st.newDescs).Nodup) (hc : c ∈ st.newDescs) :
    st.entry c.Digest = some c := by
  obtain ⟨i, hp, hg⟩ := posOf_get_of_nodup st.newDescs c hn hc
  unfold MergeState.entry
  rw [hinv, hp]
  exact hg

/-- The merged child on the contents of the maps: let `F` be the flattened
input sequence and `c` a child after the merge, before the annotation overlay.
The digest of `c` occurs in `F`; with `o` its first occurrence and `os` the
later ones, `c` has the size of `o`; the media type of `o` if that is not
empty, else the first non-empty media type among `os`; the platform of the
last of the occurrences `os` that has one, else the platform of `o`; and for
every key the value that the last occurrence with that key gives it. -/
theorem mergeDescs_merged_child (env : Env) (rs : List (Bytes × Source))
    (newDescs : List Descriptor) (c : Descriptor) (hm : mergeDescs env rs = .ok newDescs)
    (hc : c ∈ newDescs) :
    ∃ F o os, flatten env rs = .ok F ∧ occurrences c.Digest F = o :: os ∧
      c.Size = o.Size ∧
      (o.MediaType ≠ "" → c.MediaType = o.MediaType) ∧
      (o.MediaType = "" →
        c.MediaType = ((os.map (fun d => d.MediaType)).find? (fun s => s ≠ "")).getD "") ∧
      (c.Platform =
        match (os.filterMap (fun d => d.Platform)).getLast? with
        | some p => some p
        | none => o.Platform) ∧
      (∀ k, annGet c.Annotations k =
        ((o :: os).filterMap (fun d => annGet d.Annotations k)).getLast?) ∧
      (os ≠ [] → c.Annotations ≠ none) ∧
      (os = [] → c = o) := by
  obtain ⟨F, hf, hn⟩ := mergeDescs_ok hm
  have hinv : MergeInv (F.foldl addDesc ⟨[], []⟩) := foldl_addDesc_inv F _ mergeInv_empty
  have hnd : (digests (F.foldl addDesc ⟨[], []⟩).newDescs).Nodup := by
    rw [foldl_addDesc_digests F _ mergeInv_empty]
    exact firstOccurrences_nodup (digests F) [] List.nodup_nil
  have he := entry_of_mem _ c hinv hnd (hn ▸ hc)
  rw [foldl_addDesc_entry F c.Digest _ mergeInv_empty] at he
  have h0 : (⟨[], []⟩ : MergeState).entry c.Digest = none := rfl
  rw [h0] at he
  simp only at he
  cases hocc : occurrences c.Digest F with
  | nil =>
    rw [hocc] at he
    cases he
  | cons o os =>
    rw [hocc] at he
    simp only [Option.some.injEq] at he
    refine ⟨F, o, os, hf, hocc, ?_, ?_, ?_, ?_, ?_, ?_, ?_⟩
    · rw [← he, foldl_overlayDesc_size]
    · intro h
      rw [← he]
      exact (foldl_overlayDesc_mediaType os o).1 h
    · intro h
      rw [← he]
      exact (foldl_overlayDesc_mediaType os o).2 h
    · rw [← he, foldl_overlayDesc_last (fun d => d.Platform) (fun d => d.Platform)
        (by
          intro old d
          beta_reduce
          rw [overlayDesc_platform]
          cases d.Platform <;> rfl) os o]
      cases (os.filterMap (fun d => d.Platform)).getLast? <;> rfl
    · intro k
      rw [← he, foldl_overlayDesc_last (fun d => annGet d.Annotations k)
        (fun d => annGet d.Annotations k)
        (by
          intro old d
          beta_reduce
          rw [overlayDesc_annGet]
          cases annGet d.Annotations k <;> rfl) os o]
      cases ho : annGet o.Annotations k with
      | none =>
        simp only [List.filterMap_cons, ho]
        cases (os.filterMap (fun d => annGet d.Annotations k)).getLast? <;> rfl
      | some v =>
        simp only [List.filterMap_cons, ho]
        rw [getLast?_cons_match]
    · intro hos
      rw [← he]
      cases os with
      | nil => exact absurd rfl hos
      | cons d rest =>
        rw [List.foldl_cons]
        apply foldl_overlayDesc_annotations_some
        rw [overlayDesc_annotations]
        simp
    · intro hos
      rw [← he, hos]
      rfl

/-! ## C10: sources that are single manifests -/

theorem flatten_plain (env : Env) (rs : List (Bytes × Source))
    (hnl : ∀ r ∈ rs, ¬ (r.2.Desc.MediaType = MediaTypeDockerSchema2ManifestList
      ∨ r.2.Desc.MediaType = MediaTypeImageIndex)) :
    flatten env rs = .ok (rs.map (fun r => r.2.Desc)) := by
  induction rs with
  | nil => rfl
  | cons r rest ih =>
    obtain ⟨dt, src⟩ := r
    have h1 := hnl (dt, src) (List.mem_cons_self _ _)
    have h2 := ih (fun r hr => hnl r (List.mem_cons_of_mem _ hr))
    simp only [flatten, if_neg h1, h2, List.map_cons]

theorem foldl_addDesc_fresh (F : List Descriptor) :
    ∀ st, MergeInv st → (digests st.newDescs ++ digests F).Nodup →
      (F.foldl addDesc st).newDescs = st.newDescs ++ F := by
  induction F with
  | nil =>
    intro st _ _
    simp
  | cons d rest ih =>
    intro st hinv hn
    have hd : d.Digest ∉ digests st.newDescs := by
      intro hmem
      have := (List.nodup_append.mp hn).2.2
      exact this hmem (by simp [digests])
    rcases addDesc_cases st d hinv with ⟨idx, old, hl, hg, hdg, _⟩ | ⟨_, _, ha⟩
    · have : d.Digest ∈ digests st.newDescs := by
        rw [← hdg]
        exact List.mem_map_of_mem _ (List.get?_mem hg)
      exact absurd this hd
    · rw [List.foldl_cons, ih _ (addDesc_inv st d hinv), ha]
      · simp
      · rw [ha]
        have : digests (st.newDescs ++ [d]) ++ digests rest
            = digests st.newDescs ++ digests (d :: rest) := by
          simp [digests]
        rw [this]
        exact hn

theorem resolved_digests (env : Env) (srcs : List Source) :
    ∀ rs : List (Bytes × Source),
      srcs.map (resolveSource env) = rs.map (fun a => (Except.ok a : Except Err _)) →
      rs.map (fun r => r.2.Desc.Digest) = srcs.map (fun s => s.Desc.Digest) := by
  induction srcs with
  | nil =>
    intro rs h
    cases rs with
    | nil => rfl
    | cons r rr => simp at h
  | cons s ss ih =>
    intro rs h
    cases rs with
    | nil => simp at h
    | cons r rr =>
      simp only [List.map_cons, List.cons.injEq] at h
      obtain ⟨dt, src1⟩ := r
      obtain ⟨desc, _, hm, hpl, _⟩ := resolveSource_ok h.1
      have h1 := fillMediaType_fields hm
      have h2 := fillPlatform_fields hpl
      simp only [List.map_cons, ih rr h.2, h2.2.1, h1.1]

theorem resolved_get (env : Env) (srcs : List Source) :
    ∀ (rs : List (Bytes × Source)),
      srcs.map (resolveSource env) = rs.map (fun a => (Except.ok a : Except Err _)) →
      ∀ i src, srcs.get? i = some src →
        ∃ r, rs.get? i = some r ∧ resolveSource env src = .ok r := by
  induction srcs with
  | nil =>
    intro rs _ i src hs
    simp at hs
  | cons s ss ih =>
    intro rs h i src hs
    cases rs with
    | nil => simp at h
    | cons r rr =>
      simp only [List.map_cons, List.cons.injEq] at h
      cases i with
      | zero =>
        simp only [List.get?_cons_zero, Option.some.injEq] at hs
        subst hs
        exact ⟨r, rfl, h.1⟩
      | succ j =>
        simp only [List.get?_cons_succ] at hs ⊢
        exact ih rr h.2 j src hs

theorem parseAnnotations_nil (env : Env) (order : List Nat) :
    parseAnnotations env order []
      = .ok [(AnnotationIndex, []), (AnnotationManifestDescriptor, [])] := by
  unfold parseAnnotations
  rw [show entries [] = [] from rfl, permute_nil]
  rfl

theorem applyAnnotations_nil (env : Env) (sched : Sched) (mt : String) (ds : List Descriptor) :
    applyAnnotations env sched mt [] ds = .ok ([], ds) := by
  unfold applyAnnotations
  by_cases hmt : mt = MediaTypeImageIndex
  · rw [if_pos hmt, parseAnnotations_nil]
    rfl
  · rw [if_neg hmt]

theorem passThrough_plain (rs : List (Bytes × Source)) (ann : GoMap)
    (hnl : ∀ r ∈ rs, ¬ (r.2.Desc.MediaType = MediaTypeDockerSchema2ManifestList
      ∨ r.2.Desc.MediaType = MediaTypeImageIndex)) :
    passThrough rs ann = none := by
  cases h : passThrough rs ann with
  | none => rfl
  | some out =>
    obtain ⟨b, D⟩ := out
    obtain ⟨src, hrs, _, _, hm⟩ := passThrough_some h
    exact absurd hm (hnl (b, src) (by rw [hrs]; exact List.mem_singleton.mpr rfl))

theorem platformOrZero_complete (d : Descriptor)
    (h : ¬ ((platformOrZero d).OS = "" ∨ (platformOrZero d).Architecture = "")) :
    some (platformOrZero d) = d.Platform := by
  unfold platformOrZero at h ⊢
  cases hp : d.Platform with
  | none =>
    rw [hp] at h
    exact absurd (Or.inl rfl) h
  | some p => rfl

/-- C10: let no source be a manifest list or an index after Phase 1, let the
digests of the sources be pairwise distinct, and let there be no annotations.
Then the composed index has exactly the descriptors of the sources as they
stand after Phase 1 as its children, one for each source and in input order,
with no annotations of its own, and `Combine` serialises this index.  The
child at position `i` is the descriptor of source `i` after Phase 1: it has the
digest of that source, and its platform is the platform as given or the one
that `loadPlatform` filled in. -/
theorem C10_one_child_per_source (env : Env) (sched : Sched) (srcs : List Source)
    (rs : List (Bytes × Source)) (hp : phase1 env sched.done srcs = .ok rs)
    (hnl : ∀ r ∈ rs, ¬ (r.2.Desc.MediaType = MediaTypeDockerSchema2ManifestList
      ∨ r.2.Desc.MediaType = MediaTypeImageIndex))
    (hnd : (srcs.map (fun s => s.Desc.Digest)).Nodup) :
    composeIndex env sched rs []
        = .ok ⟨2, selectMediaType (rs.map (fun r => r.2.Desc)), rs.map (fun r => r.2.Desc),
            some []⟩ ∧
      Combine env sched srcs []
        = serialize env ⟨2, selectMediaType (rs.map (fun r => r.2.Desc)),
            rs.map (fun r => r.2.Desc), some []⟩ ∧
      rs.length = srcs.length ∧
      ∀ i src, srcs.get? i = some src →
        ∃ dt src1, rs.get? i = some (dt, src1) ∧ resolveSource env src = .ok (dt, src1) ∧
          (rs.map (fun r => r.2.Desc)).get? i = some src1.Desc ∧
          src1.Desc.Digest = src.Desc.Digest ∧
          (src1.Desc.Platform = src.Desc.Platform ∨
            ∃ p, loadPlatform env (platformOrZero src.Desc) src.Ref dt = .ok p ∧
              src1.Desc.Platform = some p) := by
  have hmap := (phase1_ok_iff env sched.done srcs rs).mp hp
  have hdig : digests (rs.map (fun r => r.2.Desc)) = srcs.map (fun s => s.Desc.Digest) := by
    rw [← resolved_digests env srcs rs hmap]
    simp [digests, List.map_map, Function.comp_def]
  have hmerge : mergeDescs env rs = .ok (rs.map (fun r => r.2.Desc)) := by
    rw [mergeDescs_eq, flatten_plain env rs hnl]
    simp only
    rw [foldl_addDesc_fresh _ _ mergeInv_empty]
    · rfl
    · show ([] ++ digests (rs.map (fun r : Bytes × Source => r.2.Desc))).Nodup
      rw [List.nil_append, hdig]
      exact hnd
  have hc : composeIndex env sched rs []
      = .ok ⟨2, selectMediaType (rs.map (fun r => r.2.Desc)), rs.map (fun r => r.2.Desc),
          some []⟩ := by
    unfold composeIndex
    simp only [hmerge, applyAnnotations_nil]
  refine ⟨hc, ?_, phase1_length hp, ?_⟩
  · unfold Combine
    simp only [hp, passThrough_plain rs [] hnl, hc]
  · intro i src hs
    obtain ⟨r, hr, hres⟩ := resolved_get env srcs rs hmap i src hs
    obtain ⟨dt, src1⟩ := r
    obtain ⟨desc, _, hm, hpl, _⟩ := resolveSource_ok hres
    have h1 := fillMediaType_fields hm
    have h2 := fillPlatform_fields hpl
    refine ⟨dt, src1, hr, hres, ?_, ?_, ?_⟩
    · rw [List.get?_eq_getElem?, List.getElem?_map, ← List.get?_eq_getElem?, hr]
      rfl
    · rw [h2.2.1, h1.1]
    · have hz : platformOrZero desc = platformOrZero src.Desc := by
        unfold platformOrZero
        rw [h1.2.2.2.2]
      rcases fillPlatform_ok hpl with ⟨_, p, hd1, hcase⟩ | ⟨_, _, hd1⟩
      · rcases hcase with ⟨hos, harch, hpe⟩ | ⟨_, hload⟩
        · left
          rw [hd1, hpe]
          show some (platformOrZero desc) = src.Desc.Platform
          rw [platformOrZero_complete desc (by
            rw [not_or]
            exact ⟨hos, harch⟩), h1.2.2.2.2]
        · right
          refine ⟨p, ?_, ?_⟩
          · rw [← hz]
            exact hload
          · rw [hd1]
      · left
        rw [hd1, h1.2.2.2.2]

/-- C10 at a single manifest given by its digest: the index has one child with
that digest and the platform `linux/arm64` that `loadPlatform` read from the
config blob. -/
theorem C10_one_child_per_source_witness :
    composeIndex loaderEnv sampleSched [([0], ⟨manifestB, "reg/x"⟩)] []
        = .ok ⟨2, selectMediaType ([([0], (⟨manifestB, "reg/x"⟩ : Source))].map
            (fun r => r.2.Desc)),
            [([0], (⟨manifestB, "reg/x"⟩ : Source))].map (fun r => r.2.Desc), some []⟩ ∧
      Combine loaderEnv sampleSched [sourceB] []
        = serialize loaderEnv ⟨2, selectMediaType ([([0], (⟨manifestB, "reg/x"⟩ : Source))].map
            (fun r => r.2.Desc)),
            [([0], (⟨manifestB, "reg/x"⟩ : Source))].map (fun r => r.2.Desc), some []⟩ ∧
      [(([0] : Bytes), (⟨manifestB, "reg/x"⟩ : Source))].length = [sourceB].length ∧
      ∀ i src, [sourceB].get? i = some src →
        ∃ dt src1, [(([0] : Bytes), (⟨manifestB, "reg/x"⟩ : Source))].get? i = some (dt, src1) ∧
          resolveSource loaderEnv src = .ok (dt, src1) ∧
          ([(([0] : Bytes), (⟨manifestB, "reg/x"⟩ : Source))].map (fun r => r.2.Desc)).get? i
            = some src1.Desc ∧
          src1.Desc.Digest = src.Desc.Digest ∧
          (src1.Desc.Platform = src.Desc.Platform ∨
            ∃ p, loadPlatform loaderEnv (platformOrZero src.Desc) src.Ref dt = .ok p ∧
              src1.Desc.Platform = some p) :=
  C10_one_child_per_source loaderEnv sampleSched [sourceB] [([0], ⟨manifestB, "reg/x"⟩)]
    (by decide) (by decide) (by decide)

/-! ## What `parseAnnotations` returns -/

theorem parseStep_ok {env : Env} {st st1 : Bucket × Bucket} {kv : String × String}
    (h : parseStep env st kv = .ok st1) :
    st1 = (st.1 ++ (bucketEntry env AnnotationIndex kv).toList,
      st.2 ++ (bucketEntry env AnnotationManifestDescriptor kv).toList) := by
  unfold parseStep at h
  unfold bucketEntry
  cases hf : FindStringSubmatch kv.1 with
  | none =>
    simp only [hf] at h
    cases h
  | some g =>
    obtain ⟨typ, platform, key⟩ := g
    simp only [hf] at h ⊢
    have hne : ¬ AnnotationIndex = AnnotationManifestDescriptor := by decide
    by_cases hp : platform ≠ ""
    · simp only [if_pos hp] at h ⊢
      cases hparse : env.Parse platform with
      | error e =>
        simp only [hparse] at h
        cases h
      | ok p =>
        simp only [hparse] at h ⊢
        by_cases h1 : typ = AnnotationIndex
        · have h2 : ¬ typ = AnnotationManifestDescriptor := by rw [h1]; exact hne
          simp only [if_pos h1, if_neg h2] at h ⊢
          cases h
          simp
        · by_cases h2 : typ = AnnotationManifestDescriptor
          · simp only [if_neg h1, if_pos h2] at h ⊢
            cases h
            simp
          · simp only [if_neg h1, if_neg h2] at h
            by_cases h3 : typ = AnnotationManifest
            · simp only [if_pos h3] at h
              cases h
            · by_cases h4 : typ = AnnotationIndexDescriptor
              · simp only [if_neg h3, if_pos h4] at h
                cases h
              · simp only [if_neg h3, if_neg h4] at h
                cases h
    · simp only [if_neg hp] at h ⊢
      by_cases h1 : typ = AnnotationIndex
      · have h2 : ¬ typ = AnnotationManifestDescriptor := by rw [h1]; exact hne
        simp only [if_pos h1, if_neg h2] at h ⊢
        cases h
        simp
      · by_cases h2 : typ = AnnotationManifestDescriptor
        · simp only [if_neg h1, if_pos h2] at h ⊢
          cases h
          simp
        · simp only [if_neg h1, if_neg h2] at h
          by_cases h3 : typ = AnnotationManifest
          · simp only [if_pos h3] at h
            cases h
          · by_cases h4 : typ = AnnotationIndexDescriptor
            · simp only [if_neg h3, if_pos h4] at h
              cases h
            · simp only [if_neg h3, if_neg h4] at h
              cases h

theorem parseLoop_ok {env : Env} (l : List (String × String)) :
    ∀ (st st1 : Bucket × Bucket), parseLoop env st l = .ok st1 →
      st1 = (st.1 ++ l.filterMap (bucketEntry env AnnotationIndex),
        st.2 ++ l.filterMap (bucketEntry env AnnotationManifestDescriptor)) := by
  induction l with
  | nil =>
    intro st st1 h
    simp only [parseLoop] at h
    cases h
    simp
  | cons kv rest ih =>
    intro st st1 h
    simp only [parseLoop] at h
    cases hs : parseStep env st kv with
    | error e =>
      simp only [hs] at h
      cases h
    | ok st2 =>
      simp only [hs] at h
      rw [ih st2 st1 h, parseStep_ok hs]
      simp only [List.append_assoc, Prod.mk.injEq]
      constructor
      · cases hb : bucketEntry env AnnotationIndex kv with
        | none => simp [List.filterMap_cons, hb]
        | some e => simp [List.filterMap_cons, hb]
      · cases hb : bucketEntry env AnnotationManifestDescriptor kv with
        | none => simp [List.filterMap_cons, hb]
        | some e => simp [List.filterMap_cons, hb]

theorem parseAnnotations_ok {env : Env} {order : List Nat} {ann : GoMap} {annotations : Buckets}
    (h : parseAnnotations env order ann = .ok annotations) :
    annotations =
        [(AnnotationIndex,
            (permute order (entries ann)).filterMap (bucketEntry env AnnotationIndex)),
          (AnnotationManifestDescriptor,
            (permute order (entries ann)).filterMap
              (bucketEntry env AnnotationManifestDescriptor))] ∧
      annotations.get AnnotationIndex
        = (permute order (entries ann)).filterMap (bucketEntry env AnnotationIndex) ∧
      annotations.get AnnotationManifestDescriptor
        = (permute order (entries ann)).filterMap
            (bucketEntry env AnnotationManifestDescriptor) := by
  unfold parseAnnotations at h
  cases hl : parseLoop env ([], []) (permute order (entries ann)) with
  | error e =>
    simp only [hl] at h
    cases h
  | ok st =>
    simp only [hl] at h
    cases h
    rw [parseLoop_ok _ _ _ hl]
    have hne : ¬ AnnotationIndex = AnnotationManifestDescriptor := by decide
    simp [Buckets.get, hne]

/-! ## More on maps -/

theorem mget_some_mem {l : GoMap} {k v : String} (h : mget l k = some v) : (k, v) ∈ l := by
  induction l with
  | nil => simp [mget] at h
  | cons e rest ih =>
    obtain ⟨k1, v1⟩ := e
    simp only [mget] at h
    by_cases h1 : k1 = k
    · rw [if_pos h1] at h
      cases h
      rw [h1]
      exact List.mem_cons_self _ _
    · rw [if_neg h1] at h
      exact List.mem_cons_of_mem _ (ih h)

theorem mget_eq_none {l : GoMap} {k : String} : mget l k = none ↔ ∀ kv ∈ l, kv.1 ≠ k := by
  induction l with
  | nil => simp [mget]
  | cons e rest ih =>
    obtain ⟨k1, v1⟩ := e
    simp only [mget, List.mem_cons, forall_eq_or_imp]
    by_cases h1 : k1 = k
    · simp [h1]
    · simp [h1, ih]

theorem lastValue_some_mem {l : List (String × String)} {k v : String}
    (h : lastValue l k = some v) : (k, v) ∈ l :=
  List.mem_reverse.mp (mget_some_mem h)

theorem lastValue_eq_none {l : List (String × String)} {k : String} :
    lastValue l k = none ↔ ∀ kv ∈ l, kv.1 ≠ k := by
  unfold lastValue
  rw [mget_eq_none]
  constructor
  · intro h kv hkv
    exact h kv (List.mem_reverse.mpr hkv)
  · intro h kv hkv
    exact h kv (List.mem_reverse.mp hkv)

theorem lastValue_of_unique {l : List (String × String)} {k v : String}
    (hmem : (k, v) ∈ l) (hu : ∀ kv ∈ l, kv.1 = k → kv.2 = v) : lastValue l k = some v := by
  cases h : lastValue l k with
  | none => exact absurd rfl (lastValue_eq_none.mp h (k, v) hmem)
  | some v1 =>
    have := hu (k, v1) (lastValue_some_mem h) rfl
    simp only at this
    rw [this]

theorem mset_fresh (m : GoMap) (k v : String) (h : k ∉ m.map Prod.fst) :
    mset m k v = m ++ [(k, v)] := by
  induction m with
  | nil => rfl
  | cons e rest ih =>
    obtain ⟨k1, v1⟩ := e
    simp only [List.map_cons, List.mem_cons, not_or] at h
    have h1 : ¬ k1 = k := fun hh => h.1 hh.symm
    simp only [mset, if_neg h1, ih h.2, List.cons_append]

theorem keys_mset (m : GoMap) (k v : String) :
    (mset m k v).map Prod.fst
      = if k ∈ m.map Prod.fst then m.map Prod.fst else m.map Prod.fst ++ [k] := by
  induction m with
  | nil => simp [mset]
  | cons e rest ih =>
    obtain ⟨k1, v1⟩ := e
    simp only [mset]
    by_cases h1 : k1 = k
    · simp [h1]
    · have h2 : ¬ k = k1 := fun hh => h1 hh.symm
      simp only [if_neg h1, List.map_cons, ih, List.mem_cons, h2, false_or]
      by_cases hm : k ∈ rest.map Prod.fst
      · simp only [if_pos hm]
      · simp only [if_neg hm, List.cons_append]

theorem nodup_mset (m : GoMap) (k v : String) (h : (m.map Prod.fst).Nodup) :
    ((mset m k v).map Prod.fst).Nodup := by
  rw [keys_mset]
  by_cases hm : k ∈ m.map Prod.fst
  · rw [if_pos hm]
    exact h
  · rw [if_neg hm, List.nodup_append]
    refine ⟨h, List.nodup_singleton k, ?_⟩
    intro a ha hb
    rw [List.mem_singleton] at hb
    exact hm (hb ▸ ha)

theorem nodup_foldl_mset (l : List (String × String)) :
    ∀ a : GoMap, (a.map Prod.fst).Nodup →
      ((l.foldl (fun acc kv => mset acc kv.1 kv.2) a).map Prod.fst).Nodup := by
  induction l with
  | nil =>
    intro a h
    exact h
  | cons kv rest ih =>
    intro a h
    exact ih _ (nodup_mset a kv.1 kv.2 h)

theorem foldl_mset_fresh (l : List (String × String)) :
    ∀ a : GoMap, (a.map Prod.fst ++ l.map Prod.fst).Nodup →
      l.foldl (fun acc kv => mset acc kv.1 kv.2) a = a ++ l := by
  induction l with
  | nil =>
    intro a _
    simp
  | cons kv rest ih =>
    intro a h
    have hk : kv.1 ∉ a.map Prod.fst := by
      intro hmem
      exact (List.nodup_append.mp h).2.2 hmem (by simp)
    rw [List.foldl_cons, mset_fresh a kv.1 kv.2 hk, ih]
    · simp
    · have : (a ++ [(kv.1, kv.2)]).map Prod.fst ++ rest.map Prod.fst
          = a.map Prod.fst ++ (kv :: rest).map Prod.fst := by
        simp
      rw [this]
      exact h

theorem indexLoop_eq (visit : Bucket) :
    indexLoop visit = (pairs visit).foldl (fun acc kv => mset acc kv.1 kv.2) [] := by
  unfold indexLoop pairs
  rw [List.foldl_map]

theorem mget_indexLoop (visit : Bucket) (k : String) :
    mget (indexLoop visit) k = lastValue (pairs visit) k := by
  rw [indexLoop_eq, mget_foldl_mset]
  cases lastValue (pairs visit) k <;> rfl

/-! ## The overlay on children that cannot make it panic -/

theorem descStep_safe (env : Env) (c : Descriptor) (m : GoMap) (kv : AnnotationKey × String)
    (hs : c.Platform = none → kv.1.Platform = none) :
    descStep env c m kv = .ok (if applies env c kv = true then mset m kv.1.Key kv.2 else m) := by
  unfold descStep applies
  cases hk : kv.1.Platform with
  | none => simp
  | some p =>
    cases hc : c.Platform with
    | none =>
      rw [hs hc] at hk
      cases hk
    | some cp =>
      simp only [AnnotationKey.PlatformString, hk, decide_eq_true_eq]
      by_cases hf : env.Format p = env.Format cp
      · simp only [if_pos hf]
      · simp only [if_neg hf]

theorem descLoop_safe (env : Env) (c : Descriptor) (visit : Bucket) :
    ∀ m : GoMap, (c.Platform = none → ∀ kv ∈ visit, kv.1.Platform = none) →
      descLoop env c m visit
        = .ok ((writes env c visit).foldl (fun acc kv => mset acc kv.1 kv.2) m) := by
  induction visit with
  | nil =>
    intro m _
    rfl
  | cons kv rest ih =>
    intro m hs
    have h1 : c.Platform = none → kv.1.Platform = none :=
      fun h => hs h kv (List.mem_cons_self _ _)
    have h2 : c.Platform = none → ∀ kv ∈ rest, kv.1.Platform = none :=
      fun h kv2 hkv => hs h kv2 (List.mem_cons_of_mem _ hkv)
    simp only [descLoop, descStep_safe env c m kv h1, ih _ h2]
    by_cases ha : applies env c kv = true
    · simp [writes, List.filter_cons, ha]
    · simp [writes, List.filter_cons, ha]

theorem overlayChild_safe (env : Env) (c : Descriptor) (visit : Bucket)
    (hs : c.Platform = none → ∀ kv ∈ visit, kv.1.Platform = none) :
    overlayChild env visit c = .ok (overlaid env c visit) := by
  unfold overlayChild
  rw [descLoop_safe env c visit _ hs]
  rfl

theorem overlayDescs_safe (env : Env) (order : Nat → List Nat) (bucket : Bucket)
    (ds : List Descriptor) :
    ∀ i, (∀ c ∈ ds, c.Platform = none → ∀ kv ∈ bucket, kv.1.Platform = none) →
      ∃ out, overlayDescs env order bucket i ds = .ok out ∧ out.length = ds.length ∧
        ∀ j c, ds.get? j = some c →
          out.get? j = some (overlaid env c (permute (order (i + j)) bucket)) := by
  induction ds with
  | nil =>
    intro i _
    exact ⟨[], rfl, rfl, fun j c h => by simp at h⟩
  | cons d rest ih =>
    intro i hs
    have hd : d.Platform = none → ∀ kv ∈ permute (order i) bucket, kv.1.Platform = none := by
      intro h kv hkv
      exact hs d (List.mem_cons_self _ _) h kv ((permute_perm _ _).mem_iff.mp hkv)
    obtain ⟨out, ho, hlen, hget⟩ := ih (i + 1)
      (fun c hc => hs c (List.mem_cons_of_mem _ hc))
    refine ⟨overlaid env d (permute (order i) bucket) :: out, ?_, ?_, ?_⟩
    · simp only [overlayDescs, overlayChild_safe env d _ hd, ho]
    · simp [hlen]
    · intro j c hj
      cases j with
      | zero =>
        simp only [List.get?_cons_zero, Option.some.injEq] at hj
        subst hj
        simp
      | succ j1 =>
        simp only [List.get?_cons_succ] at hj ⊢
        have := hget j1 c hj
        rw [this]
        have : i + 1 + j1 = i + (j1 + 1) := by omega
        rw [this]

/-! ## C6: the annotations of the index -/

/-- C6, as the code has it: when the container is an OCI image index, the
annotation map of the composed index is a map whose keys are exactly the keys
named by the supplied `index` annotations.  Every entry of it is the key and
the value of such an annotation, so `manifest-descriptor` annotations add
nothing.  A key holds the value of the `index` annotation naming it that the
loop visits last; two `index` annotations can name the same key when they
differ in their platform, and then one value is kept.  When the `index`
annotations name pairwise different keys, the map consists exactly of their
entries and has as many entries as there are `index` annotations. -/
theorem C6_index_annotations (env : Env) (sched : Sched) (rs : List (Bytes × Source))
    (ann : GoMap) (idx : Index) (hc : composeIndex env sched rs ann = .ok idx)
    (hoci : idx.MediaType = MediaTypeImageIndex) :
    ∃ m, idx.Annotations = some m ∧ (m.map Prod.fst).Nodup ∧
      (∀ K, mget m K
        = lastValue (pairs (permute sched.index (indexBucket env sched.parse ann))) K) ∧
      (∀ K V, mget m K = some V →
        ∃ kv ∈ indexBucket env sched.parse ann, kv.1.Key = K ∧ kv.2 = V) ∧
      (∀ kv ∈ indexBucket env sched.parse ann, ∃ V, mget m kv.1.Key = some V) ∧
      (((indexBucket env sched.parse ann).map (fun kv => kv.1.Key)).Nodup →
        m.Perm (pairs (indexBucket env sched.parse ann)) ∧
          m.length = (indexBucket env sched.parse ann).length ∧
          ∀ kv ∈ indexBucket env sched.parse ann, mget m kv.1.Key = some kv.2) := by
  obtain ⟨newDescs, ia, ds, hm, ha, hidx⟩ := composeIndex_ok hc
  rcases applyAnnotations_ok ha with ⟨hne, _, _⟩ | ⟨_, annotations, hparse, hia, _⟩
  · rw [hidx] at hoci
    exact absurd hoci hne
  · obtain ⟨_, hib, _⟩ := parseAnnotations_ok hparse
    have hb : annotations.get AnnotationIndex = indexBucket env sched.parse ann := hib
    rw [hb] at hia
    have hperm := permute_perm sched.index (indexBucket env sched.parse ann)
    have hget : ∀ K, mget ia K
        = lastValue (pairs (permute sched.index (indexBucket env sched.parse ann))) K := by
      intro K
      rw [hia, mget_indexLoop]
    refine ⟨ia, by rw [hidx], ?_, hget, ?_, ?_, ?_⟩
    · rw [hia, indexLoop_eq]
      exact nodup_foldl_mset _ [] List.nodup_nil
    · intro K V hkv
      rw [hget] at hkv
      have hmem := lastValue_some_mem hkv
      obtain ⟨kv, hkvm, he⟩ := List.mem_map.mp hmem
      refine ⟨kv, hperm.mem_iff.mp hkvm, ?_, ?_⟩
      · exact congrArg Prod.fst he
      · exact congrArg Prod.snd he
    · intro kv hkv
      cases hl : mget ia kv.1.Key with
      | some V => exact ⟨V, rfl⟩
      | none =>
        rw [hget, lastValue_eq_none] at hl
        have : (kv.1.Key, kv.2) ∈ pairs (permute sched.index (indexBucket env sched.parse ann)) :=
          List.mem_map.mpr ⟨kv, hperm.mem_iff.mpr hkv, rfl⟩
        exact absurd rfl (hl _ this)
    · intro hnd
      have hkeys : ((pairs (permute sched.index (indexBucket env sched.parse ann))).map
          Prod.fst).Nodup := by
        have : (pairs (permute sched.index (indexBucket env sched.parse ann))).map Prod.fst
            = (permute sched.index (indexBucket env sched.parse ann)).map
                (fun kv => kv.1.Key) := by
          simp [pairs, List.map_map, Function.comp_def]
        rw [this]
        exact (hperm.map _).nodup_iff.mpr hnd
      have hexact : ia = pairs (permute sched.index (indexBucket env sched.parse ann)) := by
        rw [hia, indexLoop_eq, foldl_mset_fresh _ [] (by simpa using hkeys)]
        rfl
      refine ⟨?_, ?_, ?_⟩
      · rw [hexact]
        exact hperm.map _
      · rw [hexact]
        simp [pairs, hperm.length_eq]
      · intro kv hkv
        rw [hget]
        apply lastValue_of_unique
        · exact List.mem_map.mpr ⟨kv, hperm.mem_iff.mpr hkv, rfl⟩
        · intro e he hk
          obtain ⟨kv2, hkv2, he2⟩ := List.mem_map.mp he
          have hkv2b := hperm.mem_iff.mp hkv2
          have hkeq : kv2.1.Key = kv.1.Key := by
            rw [← he2] at hk
            exact hk
          have : kv2 = kv := by
            have hinj := List.inj_on_of_nodup_map hnd hkv2b hkv hkeq
            exact hinj
          rw [← he2, this]

/-- C6 at the index with the children A and B and the four annotations of the
test: the index has the two annotations `foo=bar` and `bar=baz`. -/
theorem C6_index_annotations_witness :
    ∃ m, annotatedIndex.Annotations = some m ∧ (m.map Prod.fst).Nodup ∧
      (∀ K, mget m K = lastValue (pairs (permute sampleSched.index
        (indexBucket sampleEnv sampleSched.parse testAnnotations))) K) ∧
      (∀ K V, mget m K = some V →
        ∃ kv ∈ indexBucket sampleEnv sampleSched.parse testAnnotations,
          kv.1.Key = K ∧ kv.2 = V) ∧
      (∀ kv ∈ indexBucket sampleEnv sampleSched.parse testAnnotations,
        ∃ V, mget m kv.1.Key = some V) ∧
      (((indexBucket sampleEnv sampleSched.parse testAnnotations).map
          (fun kv => kv.1.Key)).Nodup →
        m.Perm (pairs (indexBucket sampleEnv sampleSched.parse testAnnotations)) ∧
          m.length = (indexBucket sampleEnv sampleSched.parse testAnnotations).length ∧
          ∀ kv ∈ indexBucket sampleEnv sampleSched.parse testAnnotations,
            mget m kv.1.Key = some kv.2) :=
  C6_index_annotations sampleEnv sampleSched [([1], ⟨indexI, "reg/x"⟩)] testAnnotations
    annotatedIndex (by decide) (by decide)

/-- C6 fails as stated: for the two annotations `index:foo=1` and
`index[linux/amd64]:foo=2` the container is an OCI image index, both are
supplied `index` annotations, and the annotation map of the index is `foo=2`
alone: the entry `foo=1` of the first annotation is not in it, and it has one
entry for two `index` annotations. -/
theorem C6_counterexample :
    ∃ idx m, composeIndex sampleEnv sampleSched [([0], ⟨manifestA, "reg/x"⟩)]
        clashingIndexAnnotations = .ok idx ∧
      idx.MediaType = MediaTypeImageIndex ∧
      indexBucket sampleEnv sampleSched.parse clashingIndexAnnotations
        = [(⟨"index", none, "foo"⟩, "1"), (⟨"index", some linuxAmd64, "foo"⟩, "2")] ∧
      idx.Annotations = some m ∧ m = [("foo", "2")] ∧ ¬ (mget m "foo" = some "1") :=
  ⟨⟨2, MediaTypeImageIndex, [manifestA], some [("foo", "2")]⟩, [("foo", "2")],
    by decide, by decide, by decide, rfl, rfl, by decide⟩

/-! ## C5: the annotations of the children -/

theorem mget_overlaid (env : Env) (c : Descriptor) (visit : Bucket) (K : String) :
    annGet (overlaid env c visit).Annotations K =
      match lastValue (writes env c visit) K with
      | some V => some V
      | none => annGet c.Annotations K := by
  show mget ((writes env c visit).foldl (fun acc kv => mset acc kv.1 kv.2)
    (orEmpty c.Annotations)) K = _
  rw [mget_foldl_mset, mget_orEmpty]

theorem mem_writes {env : Env} {c : Descriptor} {visit : Bucket} {e : String × String} :
    e ∈ writes env c visit ↔ ∃ kv ∈ visit, applies env c kv = true ∧ (kv.1.Key, kv.2) = e := by
  unfold writes
  rw [List.mem_map]
  constructor
  · rintro ⟨kv, hkv, he⟩
    rw [List.mem_filter] at hkv
    exact ⟨kv, hkv.1, hkv.2, he⟩
  · rintro ⟨kv, hkv, ha, he⟩
    exact ⟨kv, List.mem_filter.mpr ⟨hkv, ha⟩, he⟩

/-- The overlay of Phase 5 on children that cannot make it panic.  Let the
container be an OCI image index, let the annotations parse, and let every
merged child have a platform unless no `manifest-descriptor` annotation has
one.  Then `Combine` composes an index with one child for each merged child,
equal to it in everything but the annotations.  In the annotation map of the
child a key holds the value of the last visited annotation that applies to the
child and names the key, and the value it had after the merge when no such
annotation names it.  So an annotation that applies to the child, and whose
key no other applicable annotation gives another value, is in the map of the
child; and every value in the map was there after the merge or comes from an
annotation that applies. -/
theorem overlay_of_applicable_annotations (env : Env) (sched : Sched)
    (rs : List (Bytes × Source)) (ann : GoMap) (newDescs : List Descriptor)
    (annotations : Buckets) (hm : mergeDescs env rs = .ok newDescs)
    (hoci : selectMediaType newDescs = MediaTypeImageIndex)
    (hparse : parseAnnotations env sched.parse ann = .ok annotations)
    (hs : ∀ c ∈ newDescs, c.Platform = none →
      ∀ kv ∈ descBucket env sched.parse ann, kv.1.Platform = none) :
    ∃ idx, composeIndex env sched rs ann = .ok idx ∧
      idx.Manifests.length = newDescs.length ∧
      ∀ i c, newDescs.get? i = some c →
        ∃ c1, idx.Manifests.get? i = some c1 ∧ c1.strip = c.strip ∧
          (∀ K, annGet c1.Annotations K =
            match lastValue (writes env c
                (permute (sched.desc i) (descBucket env sched.parse ann))) K with
            | some V => some V
            | none => annGet c.Annotations K) ∧
          (∀ kv ∈ descBucket env sched.parse ann, applies env c kv = true →
            (∀ kv2 ∈ descBucket env sched.parse ann, applies env c kv2 = true →
              kv2.1.Key = kv.1.Key → kv2.2 = kv.2) →
            annGet c1.Annotations kv.1.Key = some kv.2) ∧
          (∀ K, (∀ kv ∈ descBucket env sched.parse ann, applies env c kv = true →
              kv.1.Key ≠ K) →
            annGet c1.Annotations K = annGet c.Annotations K) ∧
          (∀ K V, annGet c1.Annotations K = some V →
            annGet c.Annotations K = some V ∨
              ∃ kv ∈ descBucket env sched.parse ann,
                applies env c kv = true ∧ kv.1.Key = K ∧ kv.2 = V) := by
  obtain ⟨_, _, hmd⟩ := parseAnnotations_ok hparse
  have hb : annotations.get AnnotationManifestDescriptor = descBucket env sched.parse ann := hmd
  -- the children after Phase 5, position by position
  have hchildren : ∃ ds ia, applyAnnotations env sched MediaTypeImageIndex ann newDescs
        = .ok (ia, ds) ∧ ds.length = newDescs.length ∧
      ∀ i c, newDescs.get? i = some c → ∃ c1, ds.get? i = some c1 ∧ c1.strip = c.strip ∧
        ∀ K, annGet c1.Annotations K =
          match lastValue (writes env c
              (permute (sched.desc i) (descBucket env sched.parse ann))) K with
          | some V => some V
          | none => annGet c.Annotations K := by
    by_cases hempty : descBucket env sched.parse ann = []
    · refine ⟨newDescs, (if (annotations.get AnnotationIndex).length > 0 then
          indexLoop (permute sched.index (annotations.get AnnotationIndex)) else []),
        ?_, rfl, ?_⟩
      · unfold applyAnnotations
        simp only [if_true, hparse, hb, hempty, List.length_nil, gt_iff_lt, lt_self_iff_false,
          if_false]
      · intro i c hc
        refine ⟨c, hc, rfl, ?_⟩
        intro K
        rw [hempty, permute_nil]
        rfl
    · obtain ⟨out, ho, hlen, hget⟩ := overlayDescs_safe env sched.desc
        (descBucket env sched.parse ann) newDescs 0 hs
      have hpos : (descBucket env sched.parse ann).length > 0 :=
        List.length_pos.mpr hempty
      refine ⟨out, (if (annotations.get AnnotationIndex).length > 0 then
          indexLoop (permute sched.index (annotations.get AnnotationIndex)) else []),
        ?_, hlen, ?_⟩
      · unfold applyAnnotations
        simp only [if_true, hparse, hb, hpos, ho]
      · intro i c hc
        refine ⟨_, hget i c hc, rfl, ?_⟩
        intro K
        rw [Nat.zero_add, mget_overlaid]
  obtain ⟨ds, ia, happ, hlen, hget⟩ := hchildren
  refine ⟨⟨2, MediaTypeImageIndex, ds, some ia⟩, ?_, hlen, ?_⟩
  · unfold composeIndex
    simp only [hm, hoci, happ]
  · intro i c hc
    obtain ⟨c1, hc1, hstrip, hK⟩ := hget i c hc
    have hperm := permute_perm (sched.desc i) (descBucket env sched.parse ann)
    refine ⟨c1, hc1, hstrip, hK, ?_, ?_, ?_⟩
    · intro kv hkv happl huniq
      rw [hK]
      have : lastValue (writes env c
          (permute (sched.desc i) (descBucket env sched.parse ann))) kv.1.Key = some kv.2 := by
        apply lastValue_of_unique
        · exact mem_writes.mpr ⟨kv, hperm.mem_iff.mpr hkv, happl, rfl⟩
        · intro e he hk
          obtain ⟨kv2, hkv2, ha2, he2⟩ := mem_writes.mp he
          rw [← he2] at hk ⊢
          exact huniq kv2 (hperm.mem_iff.mp hkv2) ha2 hk
      rw [this]
    · intro K hnone
      rw [hK]
      have : lastValue (writes env c
          (permute (sched.desc i) (descBucket env sched.parse ann))) K = none := by
        rw [lastValue_eq_none]
        intro e he
        obtain ⟨kv2, hkv2, ha2, he2⟩ := mem_writes.mp he
        rw [← he2]
        exact hnone kv2 (hperm.mem_iff.mp hkv2) ha2
      rw [this]
    · intro K V hv
      rw [hK] at hv
      cases hl : lastValue (writes env c
          (permute (sched.desc i) (descBucket env sched.parse ann))) K with
      | none =>
        rw [hl] at hv
        exact Or.inl hv
      | some V1 =>
        rw [hl] at hv
        simp only [Option.some.injEq] at hv
        right
        obtain ⟨kv2, hkv2, ha2, he2⟩ := mem_writes.mp (lastValue_some_mem hl)
        refine ⟨kv2, hperm.mem_iff.mp hkv2, ha2, congrArg Prod.fst he2, ?_⟩
        rw [← hv]
        exact congrArg Prod.snd he2

/-- C5 fails on the code: one source, an OCI index whose second child has no
`platform` field, and the annotation `manifest-descriptor[linux/amd64]:foo=bar`.
The container is an OCI image index and the annotation parses; at the second
child the loop evaluates `*newDescs[i].Platform` with a nil pointer, and
`Combine` panics instead of leaving that child without the annotation.  With
the annotation `manifest-descriptor:foo=bar`, which has no platform, the same
source gives an index. -/
theorem C5_scoped_annotation_on_child_without_platform :
    Combine bareEnv sampleSched [⟨indexI, "reg/x"⟩]
        [("manifest-descriptor[linux/amd64]:foo", "bar")] = .error Err.nilPlatformDeref ∧
      mergeDescs bareEnv [([1], ⟨indexI, "reg/x"⟩)] = .ok [manifestA, manifestP] ∧
      selectMediaType [manifestA, manifestP] = MediaTypeImageIndex ∧
      composeIndex bareEnv sampleSched [([1], ⟨indexI, "reg/x"⟩)]
          [("manifest-descriptor:foo", "bar")]
        = .ok ⟨2, MediaTypeImageIndex,
            [{ manifestA with Annotations := some [("foo", "bar")] },
              { manifestP with Annotations := some [("foo", "bar")] }], some []⟩ :=
  ⟨by decide, by decide, by decide, by decide⟩

/-! ## C11: schema1 sources -/

theorem resolveSource_schema1 (env : Env) (src : Source) (dt : Bytes)
    (hfetch : env.GetDescriptor src.Ref src.Desc = .ok dt)
    (hmt : src.Desc.MediaType = MediaTypeDockerSchema1Manifest ∨
      (src.Desc.MediaType = "" ∧ detectMediaType env dt = .ok MediaTypeDockerSchema1Manifest)) :
    resolveSource env src = .error Err.schema1NotAllowed := by
  have hne : ¬ MediaTypeDockerSchema1Manifest = "" := by decide
  have h1 : ¬ (MediaTypeDockerSchema1Manifest = MediaTypeDockerSchema2Manifest
      ∨ MediaTypeDockerSchema1Manifest = MediaTypeImageManifest) := by decide
  have hfill : fillMediaType env src.Desc dt
      = .ok { src.Desc with MediaType := MediaTypeDockerSchema1Manifest } := by
    unfold fillMediaType
    rcases hmt with hg | ⟨he, hd⟩
    · have hg2 : ¬ src.Desc.MediaType = "" := by rw [hg]; exact hne
      rw [if_neg hg2, ← hg]
    · rw [if_pos he]
      simp only [hd]
  have hplat : fillPlatform env src.Ref dt
      { src.Desc with MediaType := MediaTypeDockerSchema1Manifest }
      = .error Err.schema1NotAllowed := by
    unfold fillPlatform
    simp only [if_neg h1, if_true]
  unfold resolveSource
  simp only [hfetch, hfill, hplat]

theorem firstError_mem {α : Type} {done : List Nat} {rs : List (Except Err α)} {e : Err}
    (h : firstError done rs = some e) : Except.error e ∈ rs := by
  unfold firstError at h
  obtain ⟨i, _, hi⟩ := List.exists_of_findSome?_eq_some h
  cases hg : rs.get? i with
  | none =>
    rw [hg] at hi
    cases hi
  | some r =>
    rw [hg] at hi
    cases r with
    | ok a => simp at hi
    | error e1 =>
      simp only [Option.some.injEq] at hi
      rw [← hi]
      exact List.get?_mem hg

theorem firstError_some_of_mem {α : Type} (done : List Nat) {rs : List (Except Err α)}
    {e : Err} (h : Except.error e ∈ rs) : ∃ e1, firstError done rs = some e1 := by
  cases hf : firstError done rs with
  | some e1 => exact ⟨e1, rfl⟩
  | none =>
    obtain ⟨a, ha⟩ := (firstError_none done rs).mp hf _ h
    cases ha

theorem phase1_error {env : Env} {done : List Nat} {srcs : List Source} {e : Err}
    (h : firstError done (srcs.map (resolveSource env)) = some e) :
    phase1 env done srcs = .error e := by
  unfold phase1
  simp only [h]

theorem Combine_phase1_error {env : Env} {sched : Sched} {srcs : List Source} {ann : GoMap}
    {e : Err} (h : phase1 env sched.done srcs = .error e) :
    Combine env sched srcs ann = .error e := by
  unfold Combine
  simp only [h]

/-- C11, as the code has it: let a source be fetched and let its media type,
given or detected, be the Docker schema1 type.  Then `Combine` fails for the
whole list, whatever the other sources, the annotations and the run are, with
the error of one of its sources.  The error is the schema1 error when no
source fails with another error, and also when the goroutine of the schema1
source is the first to finish; a source whose goroutine fails earlier decides
the error otherwise. -/
theorem C11_schema1_source_fails (env : Env) (sched : Sched) (srcs : List Source)
    (ann : GoMap) (i : Nat) (src : Source) (dt : Bytes) (hi : srcs.get? i = some src)
    (hfetch : env.GetDescriptor src.Ref src.Desc = .ok dt)
    (hmt : src.Desc.MediaType = MediaTypeDockerSchema1Manifest ∨
      (src.Desc.MediaType = "" ∧ detectMediaType env dt = .ok MediaTypeDockerSchema1Manifest)) :
    (∃ e, Combine env sched srcs ann = .error e ∧ ∃ s ∈ srcs, resolveSource env s = .error e) ∧
      ((∀ s ∈ srcs, ∀ e, resolveSource env s = .error e → e = Err.schema1NotAllowed) →
        Combine env sched srcs ann = .error Err.schema1NotAllowed) ∧
      (∀ rest, sched.done = i :: rest →
        Combine env sched srcs ann = .error Err.schema1NotAllowed) := by
  have hres := resolveSource_schema1 env src dt hfetch hmt
  have hmem : Except.error Err.schema1NotAllowed ∈ srcs.map (resolveSource env) :=
    List.mem_map.mpr ⟨src, List.get?_mem hi, hres⟩
  obtain ⟨e1, he1⟩ := firstError_some_of_mem sched.done hmem
  have hsrc : ∃ s ∈ srcs, resolveSource env s = .error e1 := by
    obtain ⟨s, hs, hse⟩ := List.mem_map.mp (firstError_mem he1)
    exact ⟨s, hs, hse⟩
  refine ⟨⟨e1, Combine_phase1_error (phase1_error he1), hsrc⟩, ?_, ?_⟩
  · intro hall
    obtain ⟨s, hs, hse⟩ := hsrc
    rw [hall s hs e1 hse] at he1
    exact Combine_phase1_error (phase1_error he1)
  · intro rest hdone
    apply Combine_phase1_error
    apply phase1_error
    unfold firstError
    rw [hdone, List.cons_append, List.findSome?_cons]
    have hg : (srcs.map (resolveSource env)).get? i = some (.error Err.schema1NotAllowed) := by
      rw [List.get?_eq_getElem?, List.getElem?_map, ← List.get?_eq_getElem?, hi]
      simp [hres]
    simp only [hg]

/-- C11 at the sources `goneSource` and `schema1Source` in the run in which
the goroutines finish in source order. -/
theorem C11_schema1_source_fails_witness :
    (∃ e, Combine lossyEnv sampleSched [goneSource, schema1Source] [] = .error e ∧
        ∃ s ∈ [goneSource, schema1Source], resolveSource lossyEnv s = .error e) ∧
      ((∀ s ∈ [goneSource, schema1Source], ∀ e, resolveSource lossyEnv s = .error e →
          e = Err.schema1NotAllowed) →
        Combine lossyEnv sampleSched [goneSource, schema1Source] []
          = .error Err.schema1NotAllowed) ∧
      (∀ rest, sampleSched.done = 1 :: rest →
        Combine lossyEnv sampleSched [goneSource, schema1Source] []
          = .error Err.schema1NotAllowed) :=
  C11_schema1_source_fails lossyEnv sampleSched [goneSource, schema1Source] [] 1 schema1Source
    [0] (by decide) (by decide) (by decide)

/-- C11 fails as stated: the second source is detected as a schema1 manifest,
the blob of the first source cannot be fetched, and in the run in which the
first goroutine finishes first `Combine` returns the fetch error, not the
schema1 error.  In the run in which the second goroutine finishes first it
returns the schema1 error. -/
theorem C11_counterexample :
    detectMediaType lossyEnv [0] = .ok MediaTypeDockerSchema1Manifest ∧
      resolveSource lossyEnv schema1Source = .error Err.schema1NotAllowed ∧
      Combine lossyEnv ⟨[0, 1], [], [], fun _ => []⟩ [goneSource, schema1Source] []
        = .error (Err.external "not found") ∧
      Combine lossyEnv ⟨[1, 0], [], [], fun _ => []⟩ [goneSource, schema1Source] []
        = .error Err.schema1NotAllowed :=
  ⟨by decide, by decide, by decide, by decide⟩

/-! ## C12: `detectMediaType` -/

/-- C12: for a body that decodes to the loose shape, `detectMediaType` returns
the `mediaType` of the body as it is when that is not empty; else the Docker
schema2 manifest type when `config` is present; else the Docker schema1
manifest type when `fsLayers` is not empty; else the Docker schema2
manifest-list type.  It fails exactly when the body does not decode, with the
decoding error. -/
theorem C12_detectMediaType_precedence (env : Env) (dt : Bytes) :
    (∀ mfst, env.unmarshalLoose dt = .ok mfst →
      (mfst.MediaType ≠ "" → detectMediaType env dt = .ok mfst.MediaType) ∧
      (mfst.MediaType = "" → mfst.Config ≠ none →
        detectMediaType env dt = .ok MediaTypeDockerSchema2Manifest) ∧
      (mfst.MediaType = "" → mfst.Config = none → mfst.FSLayers ≠ [] →
        detectMediaType env dt = .ok MediaTypeDockerSchema1Manifest) ∧
      (mfst.MediaType = "" → mfst.Config = none → mfst.FSLayers = [] →
        detectMediaType env dt = .ok MediaTypeDockerSchema2ManifestList)) ∧
    (∀ e, detectMediaType env dt = .error e ↔
      ∃ msg, env.unmarshalLoose dt = .error msg ∧ e = Err.withStack msg) := by
  constructor
  · intro mfst hm
    unfold detectMediaType
    simp only [hm]
    refine ⟨?_, ?_, ?_, ?_⟩
    · intro h1
      rw [if_pos h1]
    · intro h1 h2
      rw [if_neg (not_not.mpr h1), if_pos h2]
    · intro h1 h2 h3
      have h4 : mfst.FSLayers.length > 0 := List.length_pos.mpr h3
      rw [if_neg (not_not.mpr h1), if_neg (not_not.mpr h2), if_pos h4]
    · intro h1 h2 h3
      have h4 : ¬ mfst.FSLayers.length > 0 := by
        rw [h3]
        simp
      rw [if_neg (not_not.mpr h1), if_neg (not_not.mpr h2), if_neg h4]
  · intro e
    unfold detectMediaType
    cases hm : env.unmarshalLoose dt with
    | error msg =>
      simp only [Except.error.injEq]
      constructor
      · intro h
        exact ⟨msg, rfl, h.symm⟩
      · rintro ⟨msg1, h1, h2⟩
        cases h1
        exact h2.symm
    | ok mfst =>
      simp only
      constructor
      · intro h
        split_ifs at h
      · rintro ⟨msg1, h1, _⟩
        cases h1

/-! ## C15 and C16: `loadPlatform` -/

theorem loadPlatform_ok {env : Env} {p2 q : Platform} {ref : String} {dt : Bytes}
    (h : loadPlatform env p2 ref dt = .ok q) :
    ∃ manifest dt2 p0, env.unmarshalManifest dt = .ok manifest ∧
      env.GetDescriptor ref manifest.Config = .ok dt2 ∧
      env.unmarshalPlatform dt2 = .ok p0 := by
  unfold loadPlatform at h
  cases h1 : env.unmarshalManifest dt with
  | error e =>
    simp only [h1] at h
    cases h
  | ok manifest =>
    simp only [h1] at h
    cases h2 : env.GetDescriptor ref manifest.Config with
    | error e =>
      simp only [h2] at h
      cases h
    | ok dt2 =>
      simp only [h2] at h
      cases h3 : env.unmarshalPlatform dt2 with
      | error e =>
        simp only [h3] at h
        cases h
      | ok p0 => exact ⟨manifest, dt2, p0, rfl, h2, h3⟩

/-- C15: let the manifest decode, let its config blob be fetched and decode to
the platform `p0`.  Then `loadPlatform` succeeds and only fills gaps of the
receiver from the normalized `p0`: the architecture is the previous one when
that was not empty and the one of the config otherwise; so is the operating
system; the variant is the one of the config exactly when the architecture and
the variant of the receiver were both empty, and the previous one in every
other case; the other fields are not touched. -/
theorem C15_loadPlatform_fills_gaps (env : Env) (p2 : Platform) (ref : String) (dt : Bytes)
    (manifest : Manifest) (dt2 : Bytes) (p0 : Platform)
    (h1 : env.unmarshalManifest dt = .ok manifest)
    (h2 : env.GetDescriptor ref manifest.Config = .ok dt2)
    (h3 : env.unmarshalPlatform dt2 = .ok p0) :
    ∃ q, loadPlatform env p2 ref dt = .ok q ∧
      q.Architecture
        = (if p2.Architecture ≠ "" then p2.Architecture else (env.Normalize p0).Architecture) ∧
      q.OS = (if p2.OS ≠ "" then p2.OS else (env.Normalize p0).OS) ∧
      q.Variant
        = (if p2.Architecture = "" ∧ p2.Variant = "" then (env.Normalize p0).Variant
            else p2.Variant) ∧
      q.OSVersion = p2.OSVersion ∧ q.OSFeatures = p2.OSFeatures := by
  unfold loadPlatform
  simp only [h1, h2, h3]
  refine ⟨_, rfl, ?_, ?_, ?_, ?_, ?_⟩
  · by_cases ha : p2.Architecture = "" <;> by_cases ho : p2.OS = "" <;> simp [ha, ho]
  · by_cases ha : p2.Architecture = "" <;> by_cases ho : p2.OS = "" <;> simp [ha, ho]
  · by_cases ha : p2.Architecture = "" <;> by_cases ho : p2.OS = "" <;>
      by_cases hv : p2.Variant = "" <;> simp [ha, ho, hv]
  · by_cases ha : p2.Architecture = "" <;> by_cases ho : p2.OS = "" <;> simp [ha, ho]
  · by_cases ha : p2.Architecture = "" <;> by_cases ho : p2.OS = "" <;> simp [ha, ho]

/-- C15 at a receiver that names the architecture `arm` alone and a config that
reports `linux/arm64`: the operating system is filled in, the architecture and
the variant stay. -/
theorem C15_loadPlatform_fills_gaps_witness :
    ∃ q, loadPlatform loaderEnv armOnly "reg/x" [0] = .ok q ∧
      q.Architecture
        = (if armOnly.Architecture ≠ "" then armOnly.Architecture
            else (loaderEnv.Normalize linuxArm64).Architecture) ∧
      q.OS = (if armOnly.OS ≠ "" then armOnly.OS else (loaderEnv.Normalize linuxArm64).OS) ∧
      q.Variant
        = (if armOnly.Architecture = "" ∧ armOnly.Variant = "" then
            (loaderEnv.Normalize linuxArm64).Variant
            else armOnly.Variant) ∧
      q.OSVersion = armOnly.OSVersion ∧ q.OSFeatures = armOnly.OSFeatures :=
  C15_loadPlatform_fills_gaps loaderEnv armOnly "reg/x" [0]
    ⟨2, MediaTypeImageManifest,
      ⟨"application/vnd.oci.image.config.v1+json", "sha256:cfg", 1, [], none, none⟩, [], none⟩
    [2] linuxArm64 (by decide) (by decide) (by decide)

theorem resolved_mem {env : Env} {done : List Nat} {srcs : List Source}
    {rs : List (Bytes × Source)} (hp : phase1 env done srcs = .ok rs)
    {r : Bytes × Source} (hr : r ∈ rs) :
    ∃ src ∈ srcs, resolveSource env src = .ok r := by
  have hmap := (phase1_ok_iff env done srcs rs).mp hp
  have : (Except.ok r : Except Err (Bytes × Source)) ∈ srcs.map (resolveSource env) := by
    rw [hmap]
    exact List.mem_map.mpr ⟨r, hr, rfl⟩
  obtain ⟨src, hs, he⟩ := List.mem_map.mp this
  exact ⟨src, hs, he⟩

theorem loadPlatform_values {env : Env} {p2 q : Platform} {ref : String} {dt : Bytes}
    {manifest : Manifest} {dt2 : Bytes} {p0 : Platform}
    (h : loadPlatform env p2 ref dt = .ok q)
    (h1 : env.unmarshalManifest dt = .ok manifest)
    (h2 : env.GetDescriptor ref manifest.Config = .ok dt2)
    (h3 : env.unmarshalPlatform dt2 = .ok p0) :
    q.OS = (if p2.OS ≠ "" then p2.OS else (env.Normalize p0).OS) ∧
      q.Architecture
        = (if p2.Architecture ≠ "" then p2.Architecture else (env.Normalize p0).Architecture) := by
  unfold loadPlatform at h
  simp only [h1, h2, h3, Except.ok.injEq] at h
  rw [← h]
  by_cases ha : p2.Architecture = "" <;> by_cases ho : p2.OS = "" <;> simp [ha, ho]

theorem loadPlatform_nonempty {env : Env} {p2 q : Platform} {ref : String} {dt : Bytes}
    (h : loadPlatform env p2 ref dt = .ok q) :
    ∃ manifest dt2 p0, env.unmarshalManifest dt = .ok manifest ∧
      env.GetDescriptor ref manifest.Config = .ok dt2 ∧
      env.unmarshalPlatform dt2 = .ok p0 ∧
      (q.OS ≠ "" ↔ (p2.OS ≠ "" ∨ (env.Normalize p0).OS ≠ "")) ∧
      (q.Architecture ≠ "" ↔
        (p2.Architecture ≠ "" ∨ (env.Normalize p0).Architecture ≠ "")) := by
  obtain ⟨manifest, dt2, p0, h1, h2, h3⟩ := loadPlatform_ok h
  refine ⟨manifest, dt2, p0, h1, h2, h3, ?_⟩
  unfold loadPlatform at h
  simp only [h1, h2, h3, Except.ok.injEq] at h
  rw [← h]
  by_cases ha : p2.Architecture = "" <;> by_cases ho : p2.OS = "" <;> simp [ha, ho]

/-- C16, as the code has it: let Phase 1 succeed and let `src` be the source at
position `i`, with `p2` the platform of its descriptor, the zero platform when
the descriptor has none.  If the media type of the source after Phase 1 is that
of a single-arch manifest, the source has a platform `p` afterwards.  When the
operating system and the architecture of `p2` are both not empty, `p` is `p2`.
Otherwise `p` is what `loadPlatform` makes of `p2` and the platform `p0` of the
config blob: its operating system is that of `p2` when that is not empty and
that of the normalized `p0` otherwise, so it is not empty exactly when one of
the two is not empty, and so for the architecture.  And whenever `loadPlatform`
succeeds on a receiver, the operating system of the receiver is not empty
afterwards exactly when it was not empty before or that of the normalized
config platform is not empty, and so for the architecture. -/
theorem C16_platform_after_phase1 (env : Env) (done : List Nat) (srcs : List Source)
    (rs : List (Bytes × Source)) (i : Nat) (src : Source)
    (hp : phase1 env done srcs = .ok rs) (hi : srcs.get? i = some src) :
    (∃ dt src1, rs.get? i = some (dt, src1) ∧
      env.GetDescriptor src.Ref src.Desc = .ok dt ∧
      ((src1.Desc.MediaType = MediaTypeDockerSchema2Manifest
          ∨ src1.Desc.MediaType = MediaTypeImageManifest) →
        ∃ p, src1.Desc.Platform = some p ∧
          (((platformOrZero src.Desc).OS ≠ "" ∧ (platformOrZero src.Desc).Architecture ≠ "") →
            p = platformOrZero src.Desc) ∧
          (((platformOrZero src.Desc).OS = "" ∨ (platformOrZero src.Desc).Architecture = "") →
            ∃ manifest dt2 p0, env.unmarshalManifest dt = .ok manifest ∧
              env.GetDescriptor src.Ref manifest.Config = .ok dt2 ∧
              env.unmarshalPlatform dt2 = .ok p0 ∧
              loadPlatform env (platformOrZero src.Desc) src.Ref dt = .ok p ∧
              p.OS = (if (platformOrZero src.Desc).OS ≠ "" then (platformOrZero src.Desc).OS
                else (env.Normalize p0).OS) ∧
              p.Architecture = (if (platformOrZero src.Desc).Architecture ≠ "" then
                (platformOrZero src.Desc).Architecture else (env.Normalize p0).Architecture) ∧
              (p.OS ≠ "" ↔
                ((platformOrZero src.Desc).OS ≠ "" ∨ (env.Normalize p0).OS ≠ "")) ∧
              (p.Architecture ≠ "" ↔
                ((platformOrZero src.Desc).Architecture ≠ ""
                  ∨ (env.Normalize p0).Architecture ≠ ""))))) ∧
    (∀ p2 ref dt q, loadPlatform env p2 ref dt = .ok q →
      ∃ manifest dt2 p0, env.unmarshalManifest dt = .ok manifest ∧
        env.GetDescriptor ref manifest.Config = .ok dt2 ∧
        env.unmarshalPlatform dt2 = .ok p0 ∧
        (q.OS ≠ "" ↔ (p2.OS ≠ "" ∨ (env.Normalize p0).OS ≠ "")) ∧
        (q.Architecture ≠ "" ↔
          (p2.Architecture ≠ "" ∨ (env.Normalize p0).Architecture ≠ ""))) := by
  refine ⟨?_, fun p2 ref dt q hq => loadPlatform_nonempty hq⟩
  have hmap := (phase1_ok_iff env done srcs rs).mp hp
  obtain ⟨r, hr, hres⟩ := resolved_get env srcs rs hmap i src hi
  obtain ⟨dt, src1⟩ := r
  obtain ⟨desc, hg, hfm, hpl, href⟩ := resolveSource_ok hres
  have hf := fillPlatform_fields hpl
  have hz : platformOrZero desc = platformOrZero src.Desc := by
    unfold platformOrZero
    rw [(fillMediaType_fields hfm).2.2.2.2]
  refine ⟨dt, src1, hr, hg, ?_⟩
  intro hmt
  rcases fillPlatform_ok hpl with ⟨_, p, hd1, hcase⟩ | ⟨hn, _, hd1⟩
  · refine ⟨p, by rw [hd1], ?_, ?_⟩
    · rintro ⟨hos, harch⟩
      rcases hcase with ⟨_, _, hpe⟩ | ⟨hem, _⟩
      · rw [hpe, hz]
      · rw [hz] at hem
        rcases hem with h1 | h1
        · exact absurd h1 hos
        · exact absurd h1 harch
    · intro hem
      rcases hcase with ⟨hos, harch, _⟩ | ⟨_, hload⟩
      · rw [hz] at hos harch
        rcases hem with h1 | h1
        · exact absurd h1 hos
        · exact absurd h1 harch
      · rw [hz] at hload
        obtain ⟨manifest, dt2, p0, h1, h2, h3, h4, h5⟩ := loadPlatform_nonempty hload
        obtain ⟨h6, h7⟩ := loadPlatform_values hload h1 h2 h3
        exact ⟨manifest, dt2, p0, h1, h2, h3, hload, h6, h7, h4, h5⟩
  · rw [hf.1] at hmt
    exact absurd hmt hn

/-- C16 at a manifest given by its digest whose config blob reports
`linux/arm64`. -/
theorem C16_platform_after_phase1_witness :
    (∃ dt src1, ([([0], ⟨manifestB, "reg/x"⟩)] : List (Bytes × Source)).get? 0
        = some (dt, src1) ∧
      loaderEnv.GetDescriptor sourceB.Ref sourceB.Desc = .ok dt ∧
      ((src1.Desc.MediaType = MediaTypeDockerSchema2Manifest
          ∨ src1.Desc.MediaType = MediaTypeImageManifest) →
        ∃ p, src1.Desc.Platform = some p ∧
          (((platformOrZero sourceB.Desc).OS ≠ ""
              ∧ (platformOrZero sourceB.Desc).Architecture ≠ "") →
            p = platformOrZero sourceB.Desc) ∧
          (((platformOrZero sourceB.Desc).OS = ""
              ∨ (platformOrZero sourceB.Desc).Architecture = "") →
            ∃ manifest dt2 p0, loaderEnv.unmarshalManifest dt = .ok manifest ∧
              loaderEnv.GetDescriptor sourceB.Ref manifest.Config = .ok dt2 ∧
              loaderEnv.unmarshalPlatform dt2 = .ok p0 ∧
              loadPlatform loaderEnv (platformOrZero sourceB.Desc) sourceB.Ref dt = .ok p ∧
              p.OS = (if (platformOrZero sourceB.Desc).OS ≠ "" then
                (platformOrZero sourceB.Desc).OS else (loaderEnv.Normalize p0).OS) ∧
              p.Architecture = (if (platformOrZero sourceB.Desc).Architecture ≠ "" then
                (platformOrZero sourceB.Desc).Architecture
                else (loaderEnv.Normalize p0).Architecture) ∧
              (p.OS ≠ "" ↔
                ((platformOrZero sourceB.Desc).OS ≠ "" ∨ (loaderEnv.Normalize p0).OS ≠ "")) ∧
              (p.Architecture ≠ "" ↔
                ((platformOrZero sourceB.Desc).Architecture ≠ ""
                  ∨ (loaderEnv.Normalize p0).Architecture ≠ ""))))) ∧
    (∀ p2 ref dt q, loadPlatform loaderEnv p2 ref dt = .ok q →
      ∃ manifest dt2 p0, loaderEnv.unmarshalManifest dt = .ok manifest ∧
        loaderEnv.GetDescriptor ref manifest.Config = .ok dt2 ∧
        loaderEnv.unmarshalPlatform dt2 = .ok p0 ∧
        (q.OS ≠ "" ↔ (p2.OS ≠ "" ∨ (loaderEnv.Normalize p0).OS ≠ "")) ∧
        (q.Architecture ≠ "" ↔
          (p2.Architecture ≠ "" ∨ (loaderEnv.Normalize p0).Architecture ≠ ""))) :=
  C16_platform_after_phase1 loaderEnv [] [sourceB] [([0], ⟨manifestB, "reg/x"⟩)] 0 sourceB
    (by decide) (by decide)

/-- C16 fails as stated: the source is an OCI manifest given without a
platform, and its config blob is `{}`.  `loadPlatform` succeeds and Phase 1
succeeds, and the platform of the source has the operating system `linux`,
which `Normalize` put for the missing one, and an empty architecture. -/
theorem C16_counterexample :
    loadPlatform emptyConfigEnv Platform.zero "reg/x" [0] = .ok ⟨"", "linux", "", [], ""⟩ ∧
      phase1 emptyConfigEnv [] [sourceB]
        = .ok [([0], ⟨{ sourceB.Desc with Platform := some ⟨"", "linux", "", [], ""⟩ }, "reg/x"⟩)] ∧
      sourceB.Desc.MediaType = MediaTypeImageManifest ∧
      (⟨"", "linux", "", [], ""⟩ : Platform).Architecture = "" :=
  ⟨by decide, by decide, by decide, by decide⟩

/-! ## C17: the round trip -/

theorem Combine_single_list (env : Env) (sched : Sched) (src : Source) (dt : Bytes)
    (mt : String) (hfetch : env.GetDescriptor src.Ref src.Desc = .ok dt)
    (hmt : src.Desc.MediaType = mt ∨ (src.Desc.MediaType = "" ∧ detectMediaType env dt = .ok mt))
    (hli : mt = MediaTypeDockerSchema2ManifestList ∨ mt = MediaTypeImageIndex) :
    Combine env sched [src] [] = .ok (dt, { src.Desc with MediaType := mt }) := by
  have hr := resolveSource_list env src dt mt hfetch hmt hli
  have hp : phase1 env sched.done [src]
      = .ok [(dt, ⟨{ src.Desc with MediaType := mt }, src.Ref⟩)] := by
    rw [phase1_ok_iff]
    simp only [List.map_cons, List.map_nil, hr]
  unfold Combine
  simp only [hp, passThrough, entries, List.length_cons, List.length_nil, and_self,
    if_true, if_pos hli]

/-- C17: let `Combine` return the bytes `B` and the descriptor `D` of an OCI
image index.  A second call with `D` as its only source, in a registry that
gives `B` for `D`, and with no annotations returns `B` and `D` again, whatever
the registry is otherwise and whatever the run is. -/
theorem C17_round_trip (env : Env) (sched : Sched) (srcs : List Source) (ann : GoMap)
    (B : Bytes) (D : Descriptor) (h : Combine env sched srcs ann = .ok (B, D))
    (hoci : D.MediaType = MediaTypeImageIndex) (env2 : Env) (sched2 : Sched) (ref : String)
    (hfetch : env2.GetDescriptor ref D = .ok B) :
    Combine env2 sched2 [⟨D, ref⟩] [] = .ok (B, D) ∧
      Combine env2 sched2 [⟨D, ref⟩] [] = Combine env sched srcs ann := by
  have h3 := Combine_single_list env2 sched2 ⟨D, ref⟩ B D.MediaType hfetch
    (Or.inl rfl) (Or.inr hoci)
  have hD : ({ D with MediaType := D.MediaType } : Descriptor) = D := rfl
  rw [hD] at h3
  exact ⟨h3, by rw [h3, h]⟩

/-- C17 at the index composed from the manifests A and B, then pushed. -/
theorem C17_round_trip_witness :
    Combine pushedEnv sampleSched [⟨⟨MediaTypeImageIndex, "xx", 2, [], none, none⟩, "reg/y"⟩] []
        = .ok ([10, 11], ⟨MediaTypeImageIndex, "xx", 2, [], none, none⟩) ∧
      Combine pushedEnv sampleSched
          [⟨⟨MediaTypeImageIndex, "xx", 2, [], none, none⟩, "reg/y"⟩] []
        = Combine sampleEnv sampleSched [⟨manifestA, "reg/x"⟩, ⟨manifestB, "reg/x"⟩] [] :=
  C17_round_trip sampleEnv sampleSched [⟨manifestA, "reg/x"⟩, ⟨manifestB, "reg/x"⟩] []
    [10, 11] ⟨MediaTypeImageIndex, "xx", 2, [], none, none⟩ (by decide) (by decide)
    pushedEnv sampleSched "reg/y" (by decide)

/-! ## C18: `Push` -/

/-- C18: `Push` returns the error of the pusher as it is, whatever it is.  When
the writer does not open, it returns no error if the error is an
already-exists error, and then nothing is copied, and the error as it is
otherwise.  When the writer opens, the bytes are copied with the size and the
digest of the descriptor, and `Push` returns no error if the copy succeeds or
fails with an already-exists error, and the error of the copy as it is
otherwise. -/
theorem C18_push_already_exists (penv : PushEnv) (ref : String) (desc : Descriptor)
    (dt : Bytes) :
    (∀ err, penv.Pusher (penv.TagNameOnly ref) = .error err →
      (Push penv ref desc dt).2 = some err) ∧
    (∀ p err, penv.Pusher (penv.TagNameOnly ref) = .ok p → penv.Push p desc = .error err →
      (penv.IsAlreadyExists err = true →
        (Push penv ref desc dt).2 = none ∧
          ∀ cw b size dg, PushCall.copy cw b size dg ∉ (Push penv ref desc dt).1) ∧
      (penv.IsAlreadyExists err = false → (Push penv ref desc dt).2 = some err)) ∧
    (∀ p cw, penv.Pusher (penv.TagNameOnly ref) = .ok p → penv.Push p desc = .ok cw →
      PushCall.copy cw dt desc.Size desc.Digest ∈ (Push penv ref desc dt).1 ∧
      (penv.Copy cw dt desc.Size desc.Digest = none → (Push penv ref desc dt).2 = none) ∧
      (∀ err, penv.Copy cw dt desc.Size desc.Digest = some err →
        penv.IsAlreadyExists err = true → (Push penv ref desc dt).2 = none) ∧
      (∀ err, penv.Copy cw dt desc.Size desc.Digest = some err →
        penv.IsAlreadyExists err = false → (Push penv ref desc dt).2 = some err)) := by
  refine ⟨?_, ?_, ?_⟩
  · intro err h
    unfold Push
    simp only [h]
  · intro p err hp hw
    constructor
    · intro he
      unfold Push
      simp only [hp, hw, he, if_true, true_and]
      intro cw b size dg hmem
      simp at hmem
    · intro he
      unfold Push
      simp only [hp, hw, he, Bool.false_eq_true, if_false]
  · intro p cw hp hw
    refine ⟨?_, ?_, ?_, ?_⟩
    · unfold Push
      simp only [hp, hw]
      cases hc : penv.Copy cw dt desc.Size desc.Digest with
      | none => simp
      | some err =>
        by_cases he : penv.IsAlreadyExists err = true <;> simp [he]
    · intro hc
      unfold Push
      simp only [hp, hw, hc]
    · intro err hc he
      unfold Push
      simp only [hp, hw, hc, he, if_true]
    · intro err hc he
      unfold Push
      simp only [hp, hw, hc, he, Bool.false_eq_true, if_false]

/-! ## C13: which annotation maps parse -/

theorem parseStep_ok_iff (env : Env) (st : Bucket × Bucket) (kv : String × String) :
    (∃ st1, parseStep env st kv = .ok st1) ↔ accepted env kv.1 := by
  unfold parseStep accepted
  cases hf : FindStringSubmatch kv.1 with
  | none => simp
  | some g =>
    obtain ⟨typ, platform, key⟩ := g
    simp only [Option.some.injEq, Prod.mk.injEq]
    constructor
    · rintro ⟨st1, h⟩
      refine ⟨typ, platform, key, ⟨rfl, rfl, rfl⟩, ?_, ?_⟩
      · intro hp
        rw [if_pos hp] at h
        cases hparse : env.Parse platform with
        | error e =>
          simp only [hparse] at h
          cases h
        | ok p => exact ⟨p, rfl⟩
      · by_cases h1 : typ = AnnotationIndex
        · exact Or.inl h1
        · by_cases h2 : typ = AnnotationManifestDescriptor
          · exact Or.inr h2
          · exfalso
            by_cases hp : platform ≠ ""
            · rw [if_pos hp] at h
              cases hparse : env.Parse platform with
              | error e =>
                simp only [hparse] at h
                cases h
              | ok p =>
                simp only [hparse, if_neg h1, if_neg h2] at h
                split_ifs at h
            · rw [if_neg hp] at h
              simp only [if_neg h1, if_neg h2] at h
              split_ifs at h
    · rintro ⟨typ1, platform1, key1, ⟨ht, hpl, hk⟩, hparse, htyp⟩
      subst ht hpl hk
      have hne : ¬ AnnotationManifestDescriptor = AnnotationIndex := by decide
      by_cases hp : platform ≠ ""
      · obtain ⟨p, hpp⟩ := hparse hp
        rw [if_pos hp]
        simp only [hpp]
        rcases htyp with h1 | h2
        · rw [if_pos h1]
          exact ⟨_, rfl⟩
        · have h1 : ¬ typ = AnnotationIndex := by rw [h2]; exact hne
          rw [if_neg h1, if_pos h2]
          exact ⟨_, rfl⟩
      · rw [if_neg hp]
        rcases htyp with h1 | h2
        · simp only [if_pos h1]
          exact ⟨_, rfl⟩
        · have h1 : ¬ typ = AnnotationIndex := by rw [h2]; exact hne
          simp only [if_neg h1, if_pos h2]
          exact ⟨_, rfl⟩

theorem parseLoop_ok_iff (env : Env) (l : List (String × String)) :
    ∀ st, (∃ st1, parseLoop env st l = .ok st1) ↔ ∀ kv ∈ l, accepted env kv.1 := by
  induction l with
  | nil =>
    intro st
    simp [parseLoop]
  | cons kv rest ih =>
    intro st
    simp only [parseLoop, List.mem_cons, forall_eq_or_imp]
    cases hs : parseStep env st kv with
    | error e =>
      constructor
      · rintro ⟨st1, h⟩
        cases h
      · rintro ⟨hacc, _⟩
        have := (parseStep_ok_iff env st kv).mpr hacc
        rw [hs] at this
        obtain ⟨st1, h⟩ := this
        cases h
    | ok st2 =>
      simp only
      rw [ih st2]
      constructor
      · intro h
        exact ⟨(parseStep_ok_iff env st kv).mp ⟨st2, hs⟩, h⟩
      · intro h
        exact h.2

theorem entries_subset (m : GoMap) : ∀ kv ∈ entries m, kv ∈ m := by
  induction m with
  | nil =>
    intro kv h
    cases h
  | cons e rest ih =>
    obtain ⟨k1, v1⟩ := e
    intro kv h
    simp only [entries, List.mem_cons] at h
    rcases h with h | h
    · rw [h]
      exact List.mem_cons_self _ _
    · exact List.mem_cons_of_mem _ (ih kv (List.mem_filter.mp h).1)

theorem entries_keys (m : GoMap) : ∀ kv ∈ m, ∃ kv1 ∈ entries m, kv1.1 = kv.1 := by
  induction m with
  | nil =>
    intro kv h
    cases h
  | cons e rest ih =>
    obtain ⟨k1, v1⟩ := e
    intro kv h
    by_cases hk : kv.1 = k1
    · exact ⟨(k1, v1), by simp [entries], hk.symm⟩
    · rcases List.mem_cons.mp h with h | h
      · rw [h] at hk
        exact absurd rfl hk
      · obtain ⟨kv1, hm, he⟩ := ih kv h
        refine ⟨kv1, ?_, he⟩
        simp only [entries, List.mem_cons]
        right
        rw [List.mem_filter]
        refine ⟨hm, ?_⟩
        rw [he]
        simpa using hk

theorem entries_eq_self (m : GoMap) (hn : (m.map Prod.fst).Nodup) : entries m = m := by
  induction m with
  | nil => rfl
  | cons e rest ih =>
    obtain ⟨k1, v1⟩ := e
    simp only [List.map_cons, List.nodup_cons] at hn
    simp only [entries, ih hn.2, List.cons.injEq, true_and]
    rw [List.filter_eq_self]
    intro a ha
    have : a.1 ≠ k1 := fun h => hn.1 (h ▸ List.mem_map_of_mem Prod.fst ha)
    simpa using this

theorem permute_singleton {α : Type} (code : List Nat) (x : α) : permute code [x] = [x] :=
  List.perm_singleton.mp (permute_perm code [x])

theorem parseAnnotations_ok_iff (env : Env) (order : List Nat) (ann : GoMap) :
    (∃ annotations, parseAnnotations env order ann = .ok annotations) ↔
      ∀ kv ∈ ann, accepted env kv.1 := by
  have hloop := parseLoop_ok_iff env (permute order (entries ann)) ([], [])
  have hmem : (∀ kv ∈ permute order (entries ann), accepted env kv.1) ↔
      ∀ kv ∈ ann, accepted env kv.1 := by
    constructor
    · intro h kv hkv
      obtain ⟨kv1, hm, he⟩ := entries_keys ann kv hkv
      rw [← he]
      exact h kv1 ((permute_perm order _).mem_iff.mpr hm)
    · intro h kv hkv
      exact h kv (entries_subset ann kv ((permute_perm order _).mem_iff.mp hkv))
  rw [← hmem, ← hloop]
  unfold parseAnnotations
  cases hl : parseLoop env ([], []) (permute order (entries ann)) with
  | error e => simp
  | ok st => simp

theorem parseAnnotations_single (env : Env) (order : List Nat) (k v : String) :
    parseAnnotations env order [(k, v)] =
      match parseStep env ([], []) (k, v) with
      | .error e => .error e
      | .ok st => .ok [(AnnotationIndex, st.1), (AnnotationManifestDescriptor, st.2)] := by
  unfold parseAnnotations
  have he : entries [(k, v)] = [(k, v)] := rfl
  rw [he, permute_singleton]
  simp only [parseLoop]
  cases parseStep env ([], []) (k, v) <;> rfl

/-- C13: `parseAnnotations` succeeds exactly when every key of the map matches
the grammar, has a platform that parses when it has one, and has the type
`index` or `manifest-descriptor`.  For a map with a single key `k` it fails
with the bad-syntax error when `k` does not match the grammar; with the
bad-platform error when the platform does not parse; and when the platform is
absent or parses, with the unsupported error for the type `manifest`, with the
invalid-at-create-time error for the type `index-descriptor`, and with the
unknown-type error for every type other than the four. -/
theorem C13_parseAnnotations_accepts (env : Env) (order : List Nat) (ann : GoMap) :
    ((∃ annotations, parseAnnotations env order ann = .ok annotations) ↔
      ∀ kv ∈ ann, accepted env kv.1) ∧
    (∀ k v,
      (FindStringSubmatch k = none →
        parseAnnotations env order [(k, v)] = .error (Err.invalidFormat k)) ∧
      (∀ typ platform key, FindStringSubmatch k = some (typ, platform, key) →
        (∀ e, platform ≠ "" → env.Parse platform = .error e →
          parseAnnotations env order [(k, v)] = .error (Err.invalidPlatform platform e)) ∧
        ((platform ≠ "" → ∃ p, env.Parse platform = .ok p) →
          (typ = AnnotationManifest →
            parseAnnotations env order [(k, v)] = .error (Err.notSupportedYet typ)) ∧
          (typ = AnnotationIndexDescriptor →
            parseAnnotations env order [(k, v)] = .error (Err.invalidWhileCreating typ)) ∧
          (typ ≠ AnnotationIndex → typ ≠ AnnotationManifestDescriptor →
            typ ≠ AnnotationManifest → typ ≠ AnnotationIndexDescriptor →
            parseAnnotations env order [(k, v)] = .error (Err.unknownType typ))))) := by
  refine ⟨parseAnnotations_ok_iff env order ann, ?_⟩
  intro k v
  constructor
  · intro hf
    rw [parseAnnotations_single]
    unfold parseStep
    simp only [hf]
  · intro typ platform key hf
    constructor
    · intro e hp hparse
      rw [parseAnnotations_single]
      unfold parseStep
      simp only [hf, if_pos hp, hparse]
    · intro hparse
      have hstep : ∀ (res : Err), ¬ typ = AnnotationIndex → ¬ typ = AnnotationManifestDescriptor →
          (if typ = AnnotationManifest then
              (Except.error (Err.notSupportedYet typ) : Except Err (Bucket × Bucket))
            else if typ = AnnotationIndexDescriptor then .error (Err.invalidWhileCreating typ)
            else .error (Err.unknownType typ)) = .error res →
          parseAnnotations env order [(k, v)] = .error res := by
        intro res h1 h2 hres
        rw [parseAnnotations_single]
        unfold parseStep
        simp only [hf]
        by_cases hp : platform ≠ ""
        · obtain ⟨p, hpp⟩ := hparse hp
          simp only [if_pos hp, hpp, if_neg h1, if_neg h2, hres]
        · simp only [if_neg hp, if_neg h1, if_neg h2, hres]
      refine ⟨?_, ?_, ?_⟩
      · intro h3
        apply hstep
        · rw [h3]
          decide
        · rw [h3]
          decide
        · rw [if_pos h3]
      · intro h4
        have h3 : ¬ typ = AnnotationManifest := by
          rw [h4]
          decide
        apply hstep
        · rw [h4]
          decide
        · rw [h4]
          decide
        · rw [if_neg h3, if_pos h4]
      · intro h1 h2 h3 h4
        apply hstep _ h1 h2
        rw [if_neg h3, if_neg h4]

/-! ## C14: what `parseAnnotations` returns for each flag -/

theorem FindStringSubmatch_shape {k typ platform key : String}
    (h : FindStringSubmatch k = some (typ, platform, key)) :
    typ.data ≠ [] ∧ (∀ c ∈ typ.data, isTypeChar c = true) ∧
      key.data ≠ [] ∧ (∀ c ∈ key.data, isNonSpace c = true) ∧
      ((platform = "" ∧ k.data = typ.data ++ ':' :: key.data) ∨
        (platform ≠ "" ∧ (∀ c ∈ platform.data, isPlatformChar c = true) ∧
          k.data = typ.data ++ '[' :: (platform.data ++ ']' :: ':' :: key.data))) := by
  unfold FindStringSubmatch at h
  simp only at h
  have hsplit := List.takeWhile_append_dropWhile isTypeChar k.data
  by_cases ht : k.data.takeWhile isTypeChar = []
  · rw [if_pos ht] at h
    cases h
  · rw [if_neg ht] at h
    split at h
    · rename_i r1 hd
      have hsplit2 := List.takeWhile_append_dropWhile isPlatformChar r1
      by_cases hp : r1.takeWhile isPlatformChar = []
      · rw [if_pos hp] at h
        cases h
      · rw [if_neg hp] at h
        split at h
        · rename_i key1 hd2
          by_cases hk : key1 ≠ [] ∧ key1.all isNonSpace = true
          · rw [if_pos hk] at h
            simp only [Option.some.injEq, Prod.mk.injEq] at h
            obtain ⟨h1, h2, h3⟩ := h
            subst h1 h2 h3
            refine ⟨ht, fun c hc => List.mem_takeWhile_imp hc, hk.1, ?_, Or.inr ⟨?_, ?_, ?_⟩⟩
            · intro c hc
              exact List.all_eq_true.mp hk.2 c hc
            · intro he
              apply hp
              have := congrArg String.data he
              exact this
            · intro c hc
              exact List.mem_takeWhile_imp hc
            · show k.data = _
              rw [← hd2, hsplit2, ← hd, hsplit]
          · rw [if_neg hk] at h
            cases h
        · cases h
    · rename_i key1 hd
      by_cases hk : key1 ≠ [] ∧ key1.all isNonSpace = true
      · rw [if_pos hk] at h
        simp only [Option.some.injEq, Prod.mk.injEq] at h
        obtain ⟨h1, h2, h3⟩ := h
        subst h1 h2 h3
        refine ⟨ht, fun c hc => List.mem_takeWhile_imp hc, hk.1, ?_, Or.inl ⟨rfl, ?_⟩⟩
        · intro c hc
          exact List.all_eq_true.mp hk.2 c hc
        · show k.data = _
          rw [← hd, hsplit]
      · rw [if_neg hk] at h
        cases h
    · cases h

theorem bucketEntry_typ {env : Env} {t : String} {kv : String × String}
    {e : AnnotationKey × String} (h : bucketEntry env t kv = some e) : e.1.Typ = t := by
  unfold bucketEntry at h
  cases hf : FindStringSubmatch kv.1 with
  | none =>
    simp only [hf] at h
    cases h
  | some g =>
    obtain ⟨typ, platform, key⟩ := g
    simp only [hf] at h
    by_cases ht : typ = t
    · rw [if_pos ht] at h
      by_cases hp : platform ≠ ""
      · rw [if_pos hp] at h
        cases hparse : env.Parse platform with
        | error err =>
          simp only [hparse] at h
          cases h
        | ok p =>
          simp only [hparse, Option.some.injEq] at h
          rw [← h]
          exact ht
      · rw [if_neg hp] at h
        simp only [Option.some.injEq] at h
        rw [← h]
        exact ht
    · rw [if_neg ht] at h
      cases h

theorem bucketEntry_accepted {env : Env} {kv : String × String} {typ platform key : String}
    (hf : FindStringSubmatch kv.1 = some (typ, platform, key))
    (hparse : platform ≠ "" → ∃ p, env.Parse platform = .ok p) :
    ∃ op, bucketEntry env typ kv = some (⟨typ, op, key⟩, kv.2) ∧
      ((platform = "" ∧ op = none) ∨
        (platform ≠ "" ∧ ∃ p, env.Parse platform = .ok p ∧ op = some p)) ∧
      ∀ t, t ≠ typ → bucketEntry env t kv = none := by
  unfold bucketEntry
  simp only [hf, if_true]
  by_cases hp : platform ≠ ""
  · obtain ⟨p, hpp⟩ := hparse hp
    refine ⟨some p, ?_, Or.inr ⟨hp, p, hpp, rfl⟩, ?_⟩
    · simp only [if_pos hp, hpp]
    · intro t ht
      rw [if_neg (fun h => ht h.symm)]
  · refine ⟨none, ?_, Or.inl ⟨not_not.mp hp, rfl⟩, ?_⟩
    · simp only [if_neg hp]
    · intro t ht
      rw [if_neg (fun h => ht h.symm)]

theorem filterMap_lengths (env : Env) (l : List (String × String))
    (hacc : ∀ kv ∈ l, accepted env kv.1) :
    (l.filterMap (bucketEntry env AnnotationIndex)).length
      + (l.filterMap (bucketEntry env AnnotationManifestDescriptor)).length = l.length := by
  induction l with
  | nil => rfl
  | cons kv rest ih =>
    have hrest := ih (fun kv1 h => hacc kv1 (List.mem_cons_of_mem _ h))
    obtain ⟨typ, platform, key, hf, hparse, htyp⟩ := hacc kv (List.mem_cons_self _ _)
    obtain ⟨op, hb, _, hother⟩ := bucketEntry_accepted hf hparse
    have hne : ¬ AnnotationManifestDescriptor = AnnotationIndex := by decide
    rcases htyp with h1 | h2
    · subst h1
      have h2 := hother AnnotationManifestDescriptor hne
      simp only [List.filterMap_cons, hb, h2, List.length_cons]
      omega
    · subst h2
      have h1 := hother AnnotationIndex (fun h => hne h.symm)
      simp only [List.filterMap_cons, hb, h1, List.length_cons]
      omega

/-- C14: when `parseAnnotations` succeeds, the result has exactly the two
buckets `index` and `manifest-descriptor`, also when they are empty, and
together they hold one entry for each entry of the map.  A flag `T[P]:K` or
`T:K` with the value `V` is in the bucket `T`, and in no other, as the key with
the type `T`, the platform that `P` parses to, or none without brackets, and
the key `K`, with the value `V`; `T` is what stands before the first `[` or `:`
of the flag and `K` all that follows the colon after it. -/
theorem C14_buckets (env : Env) (order : List Nat) (ann : GoMap) (annotations : Buckets)
    (h : parseAnnotations env order ann = .ok annotations) :
    annotations.map Prod.fst = [AnnotationIndex, AnnotationManifestDescriptor] ∧
      (annotations.get AnnotationIndex).length
        + (annotations.get AnnotationManifestDescriptor).length = (entries ann).length ∧
      ((ann.map Prod.fst).Nodup → entries ann = ann) ∧
      ∀ kv ∈ entries ann, ∃ typ platform key op,
        FindStringSubmatch kv.1 = some (typ, platform, key) ∧
        '[' ∉ typ.data ∧ ':' ∉ typ.data ∧
        ((platform = "" ∧ op = none ∧ kv.1.data = typ.data ++ ':' :: key.data) ∨
          (platform ≠ "" ∧ (∃ p, env.Parse platform = .ok p ∧ op = some p) ∧
            kv.1.data = typ.data ++ '[' :: (platform.data ++ ']' :: ':' :: key.data))) ∧
        (typ = AnnotationIndex ∨ typ = AnnotationManifestDescriptor) ∧
        (⟨typ, op, key⟩, kv.2) ∈ annotations.get typ ∧
        ∀ t, t ≠ typ → (⟨typ, op, key⟩, kv.2) ∉ annotations.get t := by
  obtain ⟨hshape, hib, hmb⟩ := parseAnnotations_ok h
  have hacc : ∀ kv ∈ ann, accepted env kv.1 :=
    (parseAnnotations_ok_iff env order ann).mp ⟨annotations, h⟩
  have hperm := permute_perm order (entries ann)
  have hacc2 : ∀ kv ∈ permute order (entries ann), accepted env kv.1 :=
    fun kv hkv => hacc kv (entries_subset ann kv (hperm.mem_iff.mp hkv))
  have hne : ¬ AnnotationIndex = AnnotationManifestDescriptor := by decide
  refine ⟨by rw [hshape]; rfl, ?_, entries_eq_self ann, ?_⟩
  · rw [hib, hmb, filterMap_lengths env _ hacc2, hperm.length_eq]
  · intro kv hkv
    obtain ⟨typ, platform, key, hf, hparse, htyp⟩ := hacc kv (entries_subset ann kv hkv)
    obtain ⟨op, hb, hop, hother⟩ := bucketEntry_accepted hf hparse
    obtain ⟨_, htc, _, _, hk⟩ := FindStringSubmatch_shape hf
    have hin : (⟨typ, op, key⟩, kv.2) ∈ annotations.get typ := by
      have hmem : (⟨typ, op, key⟩, kv.2)
          ∈ (permute order (entries ann)).filterMap (bucketEntry env typ) :=
        List.mem_filterMap.mpr ⟨kv, hperm.mem_iff.mpr hkv, hb⟩
      rcases htyp with h1 | h2
      · rw [h1, hib]
        rw [h1] at hmem
        exact hmem
      · rw [h2, hmb]
        rw [h2] at hmem
        exact hmem
    refine ⟨typ, platform, key, op, hf, ?_, ?_, ?_, htyp, hin, ?_⟩
    · intro hc
      have := htc _ hc
      exact absurd this (by decide)
    · intro hc
      have := htc _ hc
      exact absurd this (by decide)
    · rcases hk with ⟨hp, hd⟩ | ⟨hp, _, hd⟩
      · rcases hop with ⟨_, ho⟩ | ⟨hp2, _⟩
        · exact Or.inl ⟨hp, ho, hd⟩
        · exact absurd hp hp2
      · rcases hop with ⟨hp2, _⟩ | ⟨_, ho⟩
        · exact absurd hp2 hp
        · exact Or.inr ⟨hp, ho, hd⟩
    · intro t ht hmem
      have htyp2 : ∀ e ∈ annotations.get t, e.1.Typ = t := by
        intro e he
        rw [hshape] at he
        simp only [Buckets.get] at he
        by_cases h1 : AnnotationIndex = t
        · rw [if_pos h1] at he
          obtain ⟨kv1, _, hb1⟩ := List.mem_filterMap.mp he
          rw [← h1]
          exact bucketEntry_typ hb1
        · rw [if_neg h1] at he
          by_cases h2 : AnnotationManifestDescriptor = t
          · rw [if_pos h2] at he
            obtain ⟨kv1, _, hb1⟩ := List.mem_filterMap.mp he
            rw [← h2]
            exact bucketEntry_typ hb1
          · rw [if_neg h2] at he
            cases he
      exact ht (htyp2 _ hmem).symm

/-- C14 at the four annotations of the test. -/
theorem C14_buckets_witness :
    testBuckets.map Prod.fst = [AnnotationIndex, AnnotationManifestDescriptor] ∧
      (testBuckets.get AnnotationIndex).length
        + (testBuckets.get AnnotationManifestDescriptor).length
          = (entries testAnnotations).length ∧
      ((testAnnotations.map Prod.fst).Nodup → entries testAnnotations = testAnnotations) ∧
      ∀ kv ∈ entries testAnnotations, ∃ typ platform key op,
        FindStringSubmatch kv.1 = some (typ, platform, key) ∧
        '[' ∉ typ.data ∧ ':' ∉ typ.data ∧
        ((platform = "" ∧ op = none ∧ kv.1.data = typ.data ++ ':' :: key.data) ∨
          (platform ≠ "" ∧ (∃ p, sampleEnv.Parse platform = .ok p ∧ op = some p) ∧
            kv.1.data = typ.data ++ '[' :: (platform.data ++ ']' :: ':' :: key.data))) ∧
        (typ = AnnotationIndex ∨ typ = AnnotationManifestDescriptor) ∧
        (⟨typ, op, key⟩, kv.2) ∈ testBuckets.get typ ∧
        ∀ t, t ≠ typ → (⟨typ, op, key⟩, kv.2) ∉ testBuckets.get t :=
  C14_buckets sampleEnv [] testAnnotations testBuckets (by decide)

/-! ## C19: the overlay and children without a platform -/

theorem descLoop_error {env : Env} {c : Descriptor} (visit : Bucket) :
    ∀ (m : GoMap) (e : Err), descLoop env c m visit = .error e → e = Err.nilPlatformDeref := by
  induction visit with
  | nil =>
    intro m e h
    cases h
  | cons kv rest ih =>
    intro m e h
    simp only [descLoop] at h
    cases hs : descStep env c m kv with
    | ok m1 =>
      simp only [hs] at h
      exact ih m1 e h
    | error e1 =>
      simp only [hs, Except.error.injEq] at h
      unfold descStep at hs
      cases hk : kv.1.Platform with
      | none =>
        simp only [hk] at hs
        cases hs
      | some p =>
        cases hc : c.Platform with
        | none =>
          simp only [hk, hc, Except.error.injEq] at hs
          rw [← h, ← hs]
        | some cp =>
          simp only [hk, hc] at hs
          split_ifs at hs

theorem descLoop_panic {env : Env} {c : Descriptor} (hc : c.Platform = none) (visit : Bucket) :
    ∀ m : GoMap, (∃ kv ∈ visit, kv.1.Platform ≠ none) →
      descLoop env c m visit = .error Err.nilPlatformDeref := by
  induction visit with
  | nil =>
    intro m h
    obtain ⟨kv, hkv, _⟩ := h
    cases hkv
  | cons kv rest ih =>
    intro m h
    simp only [descLoop]
    cases hk : kv.1.Platform with
    | some p =>
      simp only [descStep, hk, hc]
    | none =>
      simp only [descStep, hk]
      apply ih
      obtain ⟨kv1, hkv1, hp⟩ := h
      rcases List.mem_cons.mp hkv1 with h1 | h1
      · rw [h1] at hp
        exact absurd hk hp
      · exact ⟨kv1, h1, hp⟩

theorem overlayChild_error {env : Env} {visit : Bucket} {c : Descriptor} {e : Err}
    (h : overlayChild env visit c = .error e) : e = Err.nilPlatformDeref := by
  unfold overlayChild at h
  cases hl : descLoop env c (orEmpty c.Annotations) visit with
  | ok m =>
    simp only [hl] at h
    cases h
  | error e1 =>
    simp only [hl, Except.error.injEq] at h
    rw [← h]
    exact descLoop_error visit _ _ hl

theorem overlayDescs_panic (env : Env) (order : Nat → List Nat) (bucket : Bucket)
    (hb : ∃ kv ∈ bucket, kv.1.Platform ≠ none) (ds : List Descriptor) :
    ∀ i, (∃ c ∈ ds, c.Platform = none) →
      overlayDescs env order bucket i ds = .error Err.nilPlatformDeref := by
  induction ds with
  | nil =>
    intro i h
    obtain ⟨c, hc, _⟩ := h
    cases hc
  | cons d rest ih =>
    intro i h
    simp only [overlayDescs]
    cases hd : overlayChild env (permute (order i) bucket) d with
    | error e =>
      simp only
      rw [overlayChild_error hd]
    | ok d1 =>
      simp only
      have hrest : ∃ c ∈ rest, c.Platform = none := by
        obtain ⟨c, hc, hp⟩ := h
        rcases List.mem_cons.mp hc with h1 | h1
        · exfalso
          rw [h1] at hp
          have hvisit : ∃ kv ∈ permute (order i) bucket, kv.1.Platform ≠ none := by
            obtain ⟨kv, hkv, hkp⟩ := hb
            exact ⟨kv, (permute_perm _ _).mem_iff.mpr hkv, hkp⟩
          have := @descLoop_panic env d hp _ (orEmpty d.Annotations) hvisit
          unfold overlayChild at hd
          simp only [this] at hd
          cases hd
        · exact ⟨c, h1, hp⟩
      rw [ih (i + 1) hrest]

/-- The defect behind C19, in general: when the container is an OCI image
index, the annotations parse, one of the `manifest-descriptor` annotations has
a platform and one of the merged children has none, the overlay dereferences
the nil platform and `Combine` composes no index. -/
theorem overlay_panics_without_platform (env : Env) (sched : Sched)
    (rs : List (Bytes × Source)) (ann : GoMap) (newDescs : List Descriptor)
    (annotations : Buckets) (hm : mergeDescs env rs = .ok newDescs)
    (hoci : selectMediaType newDescs = MediaTypeImageIndex)
    (hparse : parseAnnotations env sched.parse ann = .ok annotations)
    (hc : ∃ c ∈ newDescs, c.Platform = none)
    (hk : ∃ kv ∈ descBucket env sched.parse ann, kv.1.Platform ≠ none) :
    composeIndex env sched rs ann = .error Err.nilPlatformDeref := by
  obtain ⟨_, _, hmd⟩ := parseAnnotations_ok hparse
  have hb : annotations.get AnnotationManifestDescriptor = descBucket env sched.parse ann := hmd
  have hpos : (descBucket env sched.parse ann).length > 0 := by
    obtain ⟨kv, hkv, _⟩ := hk
    exact List.length_pos_of_mem hkv
  have hov := overlayDescs_panic env sched.desc (descBucket env sched.parse ann) hk newDescs 0 hc
  unfold composeIndex
  simp only [hm, hoci]
  unfold applyAnnotations
  simp only [if_true, hparse, hb, hpos, hov]

/-- C19 fails on the code.  First input: one source with a media type that is
not a single-arch manifest and no platform, and the annotation
`manifest-descriptor[linux/amd64]:foo=bar`; the only merged child has no
platform and `Combine` panics on `*newDescs[0].Platform`.  Second input: an
index whose second child has no `platform` field, with the annotations
`manifest-descriptor:foo=bar` and `manifest-descriptor[linux/arm64]:k=v`;
`Combine` panics at the second child.  In both cases the overlay does not
complete, and no child receives anything. -/
theorem C19_overlay_not_total :
    Combine sampleEnv sampleSched [artifactSource]
        [("manifest-descriptor[linux/amd64]:foo", "bar")] = .error Err.nilPlatformDeref ∧
      phase1 sampleEnv sampleSched.done [artifactSource] = .ok [([0], artifactSource)] ∧
      mergeDescs sampleEnv [([0], artifactSource)] = .ok [artifactSource.Desc] ∧
      artifactSource.Desc.Platform = none ∧
      Combine bareEnv sampleSched [⟨indexI, "reg/x"⟩]
        [("manifest-descriptor:foo", "bar"), ("manifest-descriptor[linux/arm64]:k", "v")]
        = .error Err.nilPlatformDeref :=
  ⟨by decide, by decide, by decide, by decide, by decide⟩

/-! ## C20: the order of the `range` loops -/

/-- C20 fails on the code.  The source is the manifest A of `linux/amd64`.
With the annotations `index:foo=1` and `index[linux/amd64]:foo=2` the index
gets `foo=2` in one run and `foo=1` in the run in which the loop over the
`index` annotations visits them in the other order.  With the annotations
`manifest-descriptor:foo=1` and `manifest-descriptor[linux/amd64]:foo=2` the
child gets `foo=2` in one run and `foo=1` in the other.  The bytes that
`Combine` returns differ with the run. -/
theorem C20_output_depends_on_visiting_order :
    composeIndex sampleEnv sampleSched [([0], ⟨manifestA, "reg/x"⟩)] clashingIndexAnnotations
        = .ok ⟨2, MediaTypeImageIndex, [manifestA], some [("foo", "2")]⟩ ∧
      composeIndex sampleEnv otherIndexSched [([0], ⟨manifestA, "reg/x"⟩)]
          clashingIndexAnnotations
        = .ok ⟨2, MediaTypeImageIndex, [manifestA], some [("foo", "1")]⟩ ∧
      composeIndex sampleEnv sampleSched [([0], ⟨manifestA, "reg/x"⟩)] clashingDescAnnotations
        = .ok ⟨2, MediaTypeImageIndex, [{ manifestA with Annotations := some [("foo", "2")] }],
            some []⟩ ∧
      composeIndex sampleEnv otherDescSched [([0], ⟨manifestA, "reg/x"⟩)]
          clashingDescAnnotations
        = .ok ⟨2, MediaTypeImageIndex, [{ manifestA with Annotations := some [("foo", "1")] }],
            some []⟩ ∧
      Combine verboseEnv sampleSched [⟨manifestA, "reg/x"⟩] clashingIndexAnnotations
        = .ok ([50], ⟨MediaTypeImageIndex, "x", 1, [], none, none⟩) ∧
      Combine verboseEnv otherIndexSched [⟨manifestA, "reg/x"⟩] clashingIndexAnnotations
        = .ok ([49], ⟨MediaTypeImageIndex, "x", 1, [], none, none⟩) ∧
      Combine verboseEnv sampleSched [⟨manifestA, "reg/x"⟩] clashingDescAnnotations
        = .ok ([50], ⟨MediaTypeImageIndex, "x", 1, [], none, none⟩) ∧
      Combine verboseEnv otherDescSched [⟨manifestA, "reg/x"⟩] clashingDescAnnotations
        = .ok ([49], ⟨MediaTypeImageIndex, "x", 1, [], none, none⟩) :=
  ⟨by decide, by decide, by decide, by decide, by decide, by decide, by decide, by decide⟩

theorem lastValue_perm {l1 l2 : List (String × String)} (hp : l1.Perm l2)
    (hn : (l1.map Prod.fst).Nodup) (k : String) : lastValue l1 k = lastValue l2 k := by
  cases h : lastValue l1 k with
  | none =>
    symm
    rw [lastValue_eq_none] at h ⊢
    intro kv hkv
    exact h kv (hp.mem_iff.mpr hkv)
  | some v =>
    symm
    have hmem := lastValue_some_mem h
    refine lastValue_of_unique (hp.mem_iff.mp hmem) ?_
    intro kv hkv hk
    have hkv1 := hp.mem_iff.mpr hkv
    have he : kv = (k, v) := List.inj_on_of_nodup_map hn hkv1 hmem hk
    rw [he]

theorem overlayDescs_ok_safe {env : Env} {order : Nat → List Nat} {bucket : Bucket}
    {ds out : List Descriptor} {i : Nat}
    (h : overlayDescs env order bucket i ds = .ok out) :
    ∀ c ∈ ds, c.Platform = none → ∀ kv ∈ bucket, kv.1.Platform = none := by
  intro c hc hp kv hkv
  by_contra hne
  have := overlayDescs_panic env order bucket ⟨kv, hkv, hne⟩ ds i ⟨c, hc, hp⟩
  rw [this] at h
  cases h

theorem writes_perm (env : Env) (c : Descriptor) {v1 v2 : Bucket} (hp : v1.Perm v2) :
    (writes env c v1).Perm (writes env c v2) :=
  (hp.filter _).map _

theorem indexBucket_perm (env : Env) (order : List Nat) (ann : GoMap) :
    (indexBucket env order ann).Perm (indexBucket env [] ann) := by
  unfold indexBucket
  exact ((permute_perm order (entries ann)).trans
    (permute_perm [] (entries ann)).symm).filterMap _

theorem descBucket_perm (env : Env) (order : List Nat) (ann : GoMap) :
    (descBucket env order ann).Perm (descBucket env [] ann) := by
  unfold descBucket
  exact ((permute_perm order (entries ann)).trans
    (permute_perm [] (entries ann)).symm).filterMap _

/-- Where the order of the loops does not matter.  Let two runs of Phases 3 to
5 on the same resolved sources and the same annotations both give an index.
If no two `index` annotations name the same key, and no two
`manifest-descriptor` annotations that apply to the same child name the same
key, then the two indexes have the same media type, the same annotations, and
children that agree field by field and in every annotation. -/
theorem annotations_independent_of_order (env : Env) (s1 s2 : Sched)
    (rs : List (Bytes × Source)) (ann : GoMap) (idx1 idx2 : Index)
    (h1 : composeIndex env s1 rs ann = .ok idx1)
    (h2 : composeIndex env s2 rs ann = .ok idx2)
    (hi : ((pairs (indexBucket env [] ann)).map Prod.fst).Nodup)
    (hd : ∀ c, ((writes env c (descBucket env [] ann)).map Prod.fst).Nodup) :
    idx1.MediaType = idx2.MediaType ∧
      (∀ K, annGet idx1.Annotations K = annGet idx2.Annotations K) ∧
      idx1.Manifests.map Descriptor.strip = idx2.Manifests.map Descriptor.strip ∧
      ∀ j c1 c2, idx1.Manifests.get? j = some c1 → idx2.Manifests.get? j = some c2 →
        ∀ K, annGet c1.Annotations K = annGet c2.Annotations K := by
  obtain ⟨nd, ia1, ds1, hm1, ha1, rfl⟩ := composeIndex_ok h1
  obtain ⟨nd2, ia2, ds2, hm2, ha2, rfl⟩ := composeIndex_ok h2
  rw [hm1] at hm2
  cases hm2
  rcases applyAnnotations_ok ha1 with ⟨hmt, rfl, rfl⟩ | ⟨hmt, an1, hp1, rfl, hc1⟩
  · rcases applyAnnotations_ok ha2 with ⟨_, rfl, rfl⟩ | ⟨hmt2, _⟩
    · refine ⟨rfl, fun _ => rfl, rfl, ?_⟩
      intro j c1 c2 e1 e2 K
      rw [e1] at e2
      cases e2
      rfl
    · exact absurd hmt2 hmt
  · rcases applyAnnotations_ok ha2 with ⟨hmt2, _⟩ | ⟨_, an2, hp2, rfl, hc2⟩
    · exact absurd hmt hmt2
    · obtain ⟨_, hI1, hD1⟩ := parseAnnotations_ok hp1
      obtain ⟨_, hI2, hD2⟩ := parseAnnotations_ok hp2
      have hI1b : an1.get AnnotationIndex = indexBucket env s1.parse ann := hI1
      have hI2b : an2.get AnnotationIndex = indexBucket env s2.parse ann := hI2
      have hD1b : an1.get AnnotationManifestDescriptor = descBucket env s1.parse ann := hD1
      have hD2b : an2.get AnnotationManifestDescriptor = descBucket env s2.parse ann := hD2
      rw [hI1b, hI2b]
      rw [hD1b] at hc1
      rw [hD2b] at hc2
      have hbI : ∀ s : Sched, (pairs (permute s.index (indexBucket env s.parse ann))).Perm
          (pairs (indexBucket env [] ann)) := fun s =>
        ((permute_perm _ _).trans (indexBucket_perm env s.parse ann)).map _
      have hbD : ∀ (s : Sched) (j : Nat), (permute (s.desc j) (descBucket env s.parse ann)).Perm
          (descBucket env [] ann) := fun s j =>
        (permute_perm _ _).trans (descBucket_perm env s.parse ann)
      have hwr : ∀ (c : Descriptor) (j : Nat) (K : String),
          annGet (overlaid env c (permute (s1.desc j) (descBucket env s1.parse ann))).Annotations K
            = annGet (overlaid env c
                (permute (s2.desc j) (descBucket env s2.parse ann))).Annotations K := by
        intro c j K
        rw [mget_overlaid, mget_overlaid]
        have hp : (writes env c (permute (s1.desc j) (descBucket env s1.parse ann))).Perm
            (writes env c (permute (s2.desc j) (descBucket env s2.parse ann))) :=
          writes_perm env c ((hbD s1 j).trans (hbD s2 j).symm)
        have hn : ((writes env c
            (permute (s1.desc j) (descBucket env s1.parse ann))).map Prod.fst).Nodup :=
          (((writes_perm env c (hbD s1 j)).map Prod.fst).nodup_iff).mpr (hd c)
        rw [lastValue_perm hp hn K]
      have hempty : descBucket env s1.parse ann = [] ↔ descBucket env s2.parse ann = [] := by
        have hp := (descBucket_perm env s1.parse ann).trans (descBucket_perm env s2.parse ann).symm
        constructor
        · intro h
          rw [h] at hp
          exact hp.symm.eq_nil
        · intro h
          rw [h] at hp
          exact hp.eq_nil
      refine ⟨rfl, ?_, ?_, ?_⟩
      · intro K
        show mget (indexLoop _) K = mget (indexLoop _) K
        rw [mget_indexLoop, mget_indexLoop]
        have hn : ((pairs (permute s1.index (indexBucket env s1.parse ann))).map Prod.fst).Nodup :=
          (((hbI s1).map Prod.fst).nodup_iff).mpr hi
        exact lastValue_perm ((hbI s1).trans (hbI s2).symm) hn K
      · have e1 : ds1.map Descriptor.strip = nd.map Descriptor.strip := by
          rcases hc1 with ⟨_, rfl⟩ | ⟨_, ho⟩
          · rfl
          · exact overlayDescs_strip _ _ _ ho
        have e2 : ds2.map Descriptor.strip = nd.map Descriptor.strip := by
          rcases hc2 with ⟨_, rfl⟩ | ⟨_, ho⟩
          · rfl
          · exact overlayDescs_strip _ _ _ ho
        show ds1.map Descriptor.strip = ds2.map Descriptor.strip
        rw [e1, e2]
      · intro j c1 c2 g1 g2 K
        have g1 : ds1.get? j = some c1 := g1
        have g2 : ds2.get? j = some c2 := g2
        rcases hc1 with ⟨hb1, rfl⟩ | ⟨hb1, ho1⟩
        · rcases hc2 with ⟨_, rfl⟩ | ⟨hb2, _⟩
          · rw [g1] at g2
            cases g2
            rfl
          · exact absurd (hempty.mp hb1) hb2
        · rcases hc2 with ⟨hb2, _⟩ | ⟨_, ho2⟩
          · exact absurd (hempty.mpr hb2) hb1
          · obtain ⟨o1, ho1b, hl1, hg1⟩ := overlayDescs_safe env s1.desc _ nd 0
              (overlayDescs_ok_safe ho1)
            obtain ⟨o2, ho2b, hl2, hg2⟩ := overlayDescs_safe env s2.desc _ nd 0
              (overlayDescs_ok_safe ho2)
            rw [ho1] at ho1b
            cases ho1b
            rw [ho2] at ho2b
            cases ho2b
            have hj : j < nd.length := by
              rw [← hl1]
              exact List.get?_eq_some.mp g1 |>.1
            have hc : nd.get? j = some (nd.get ⟨j, hj⟩) := List.get?_eq_get hj
            have q1 := hg1 j _ hc
            have q2 := hg2 j _ hc
            rw [g1] at q1
            rw [g2] at q2
            cases q1
            cases q2
            rw [Nat.zero_add]
            exact hwr _ j K

/-- The theorem `annotations_independent_of_order` at the annotations of the
test `testImagetoolsAnnotation`, with two visiting orders. -/
theorem annotations_independent_of_order_example :
    ∀ K, annGet (some [("foo", "bar"), ("bar", "baz")]) K
      = annGet (some [("bar", "baz"), ("foo", "bar")]) K :=
  (annotations_independent_of_order sampleEnv sampleSched ⟨[], [], [1], fun _ => [1]⟩
    [([0], ⟨manifestA, "reg/x"⟩)] testAnnotations
    ⟨2, MediaTypeImageIndex,
      [{ manifestA with Annotations := some [("foo", "bar"), ("bar", "baz")] }],
      some [("foo", "bar"), ("bar", "baz")]⟩
    ⟨2, MediaTypeImageIndex,
      [{ manifestA with Annotations := some [("bar", "baz"), ("foo", "bar")] }],
      some [("bar", "baz"), ("foo", "bar")]⟩
    (by decide) (by decide) (by decide)
    (fun c => List.Nodup.sublist
      (show ((writes sampleEnv c (descBucket sampleEnv [] testAnnotations)).map Prod.fst).Sublist
          ((pairs (descBucket sampleEnv [] testAnnotations)).map Prod.fst) from
        ((List.filter_sublist _).map _).map _)
      (by decide))).2.1

/-! ## C2 and C8: the children of the index that `Combine` returns -/

theorem Combine_passThrough {env : Env} {sched : Sched} {srcs : List Source} {ann : GoMap}
    {rs : List (Bytes × Source)} {b : Bytes} {D : Descriptor}
    (hp : phase1 env sched.done srcs = .ok rs) (hpt : passThrough rs ann = some (b, D)) :
    ∃ src, srcs = [src] ∧ entries ann = [] ∧ env.GetDescriptor src.Ref src.Desc = .ok b ∧
      (D.MediaType = MediaTypeDockerSchema2ManifestList ∨ D.MediaType = MediaTypeImageIndex) := by
  obtain ⟨src1, hrs, hD, hann, hmt⟩ := passThrough_some hpt
  have hmap := (phase1_ok_iff env sched.done srcs rs).mp hp
  rw [hrs] at hmap
  cases srcs with
  | nil => simp at hmap
  | cons src rest =>
    cases rest with
    | cons s2 r2 => simp at hmap
    | nil =>
      simp only [List.map_cons, List.map_nil, List.cons.injEq, and_true] at hmap
      obtain ⟨desc, hg, _, _, _⟩ := resolveSource_ok hmap
      refine ⟨src, rfl, hann, hg, ?_⟩
      rw [hD]
      exact hmt

/-- C2, as the code has it: whenever `Combine` succeeds, either it has
composed a new index, and then the returned bytes are the encoding of an index
whose children have pairwise distinct digests, whatever the sources are and
however often a digest is repeated in them; or it has taken the pass-through
for its only source, a manifest list or an index, with no annotations, and
then the returned bytes are the bytes fetched for that source as they are. -/
theorem C2_children_distinct_digests (env : Env) (sched : Sched) (srcs : List Source)
    (ann : GoMap) (b : Bytes) (D : Descriptor)
    (h : Combine env sched srcs ann = .ok (b, D)) :
    ∃ rs, phase1 env sched.done srcs = .ok rs ∧
      (passThrough rs ann = none →
        ∃ idx, composeIndex env sched rs ann = .ok idx ∧ env.MarshalIndent idx = .ok b ∧
          (idx.Manifests.map (fun d => d.Digest)).Nodup) ∧
      (passThrough rs ann ≠ none →
        ∃ src, srcs = [src] ∧ entries ann = [] ∧
          env.GetDescriptor src.Ref src.Desc = .ok b ∧
          (D.MediaType = MediaTypeDockerSchema2ManifestList
            ∨ D.MediaType = MediaTypeImageIndex)) := by
  obtain ⟨rs, hp, hcase⟩ := Combine_ok h
  refine ⟨rs, hp, ?_, ?_⟩
  · intro hnone
    rcases hcase with hpt | ⟨_, idx, hc, hs⟩
    · rw [hnone] at hpt
      cases hpt
    · exact ⟨idx, hc, (serialize_ok hs).1, composeIndex_digests_nodup hc⟩
  · intro hsome
    rcases hcase with hpt | ⟨hnone, _⟩
    · exact Combine_passThrough hp hpt
    · exact absurd hnone hsome

/-- C2 at an index with the children A and B, followed by A and B again as
single manifests: the composed index has the two children A and B. -/
theorem C2_children_distinct_digests_witness :
    ∃ rs, phase1 sampleEnv sampleSched.done
        [⟨indexI, "reg/x"⟩, ⟨manifestA, "reg/x"⟩, ⟨manifestB, "reg/x"⟩] = .ok rs ∧
      (passThrough rs [] = none →
        ∃ idx, composeIndex sampleEnv sampleSched rs [] = .ok idx ∧
          sampleEnv.MarshalIndent idx = .ok [10, 11] ∧
          (idx.Manifests.map (fun d => d.Digest)).Nodup) ∧
      (passThrough rs [] ≠ none →
        ∃ src, [(⟨indexI, "reg/x"⟩ : Source), ⟨manifestA, "reg/x"⟩, ⟨manifestB, "reg/x"⟩]
            = [src] ∧ entries [] = [] ∧
          sampleEnv.GetDescriptor src.Ref src.Desc = .ok [10, 11] ∧
          ((⟨MediaTypeImageIndex, "xx", 2, [], none, none⟩ : Descriptor).MediaType
              = MediaTypeDockerSchema2ManifestList
            ∨ (⟨MediaTypeImageIndex, "xx", 2, [], none, none⟩ : Descriptor).MediaType
              = MediaTypeImageIndex)) :=
  C2_children_distinct_digests sampleEnv sampleSched
    [⟨indexI, "reg/x"⟩, ⟨manifestA, "reg/x"⟩, ⟨manifestB, "reg/x"⟩] [] [10, 11]
    ⟨MediaTypeImageIndex, "xx", 2, [], none, none⟩ (by decide)

/-- C2 fails as stated: the only source is an index whose manifest list names
the digest `sha256:a` twice, and there are no annotations.  `Combine` takes the
pass-through and returns the fetched bytes, and the index they encode has two
children with the same digest.  With one annotation the same source is
composed anew, and the index has one child. -/
theorem C2_counterexample :
    ∃ b D idx, Combine repeatEnv sampleSched [⟨indexI, "reg/x"⟩] [] = .ok (b, D) ∧
      repeatEnv.unmarshalIndex b = .ok idx ∧
      ¬ (idx.Manifests.map (fun d => d.Digest)).Nodup ∧
      composeIndex repeatEnv sampleSched [([1], ⟨indexI, "reg/x"⟩)] [("index:foo", "bar")]
        = .ok ⟨2, MediaTypeImageIndex, [{ manifestA with Annotations := some [] }],
            some [("foo", "bar")]⟩ :=
  ⟨[1], indexI, ⟨2, MediaTypeImageIndex, [manifestA, manifestA], none⟩,
    by decide, by decide, by decide, by decide⟩

/-- C8, as the code has it: whenever `Combine` succeeds, either it has
composed a new index, and then, with `F` the flattened input sequence of the
sources, the digests of the children of the index that the returned bytes
encode are the digests of `F` with every occurrence of a digest after its
first removed (the library's `eraseDups`), in the order of the first
occurrences, and there are as many children as there are distinct digests in
`F`; or it has taken the pass-through for its only source, a manifest list or
an index, with no annotations, and then the returned bytes are the bytes
fetched for that source as they are. -/
theorem C8_first_occurrence_order (env : Env) (sched : Sched) (srcs : List Source)
    (ann : GoMap) (b : Bytes) (D : Descriptor)
    (h : Combine env sched srcs ann = .ok (b, D)) :
    ∃ rs, phase1 env sched.done srcs = .ok rs ∧
      (passThrough rs ann = none →
        ∃ idx F, composeIndex env sched rs ann = .ok idx ∧ env.MarshalIndent idx = .ok b ∧
          flatten env rs = .ok F ∧
          idx.Manifests.map (fun d => d.Digest)
            = firstOccurrences [] (F.map (fun d => d.Digest)) ∧
          idx.Manifests.map (fun d => d.Digest) = (F.map (fun d => d.Digest)).eraseDups ∧
          idx.Manifests.length = (F.map (fun d => d.Digest)).toFinset.card) ∧
      (passThrough rs ann ≠ none →
        ∃ src, srcs = [src] ∧ entries ann = [] ∧
          env.GetDescriptor src.Ref src.Desc = .ok b ∧
          (D.MediaType = MediaTypeDockerSchema2ManifestList
            ∨ D.MediaType = MediaTypeImageIndex)) := by
  obtain ⟨rs, hp, hcase⟩ := Combine_ok h
  refine ⟨rs, hp, ?_, ?_⟩
  · intro hnone
    rcases hcase with hpt | ⟨_, idx, hc, hs⟩
    · rw [hnone] at hpt
      cases hpt
    · obtain ⟨F, hf, h1, h2, h3⟩ := composeIndex_first_occurrences hc
      exact ⟨idx, F, hc, (serialize_ok hs).1, hf, h1, h2, h3⟩
  · intro hsome
    rcases hcase with hpt | ⟨hnone, _⟩
    · exact Combine_passThrough hp hpt
    · exact absurd hnone hsome

/-- C8 at the sources B, index (A, B), A: the children are B and A. -/
theorem C8_first_occurrence_order_witness :
    ∃ rs, phase1 sampleEnv sampleSched.done
        [⟨manifestB, "reg/x"⟩, ⟨indexI, "reg/x"⟩, ⟨manifestA, "reg/x"⟩] = .ok rs ∧
      (passThrough rs [] = none →
        ∃ idx F, composeIndex sampleEnv sampleSched rs [] = .ok idx ∧
          sampleEnv.MarshalIndent idx = .ok [11, 10] ∧
          flatten sampleEnv rs = .ok F ∧
          idx.Manifests.map (fun d => d.Digest)
            = firstOccurrences [] (F.map (fun d => d.Digest)) ∧
          idx.Manifests.map (fun d => d.Digest) = (F.map (fun d => d.Digest)).eraseDups ∧
          idx.Manifests.length = (F.map (fun d => d.Digest)).toFinset.card) ∧
      (passThrough rs [] ≠ none →
        ∃ src, [(⟨manifestB, "reg/x"⟩ : Source), ⟨indexI, "reg/x"⟩, ⟨manifestA, "reg/x"⟩]
            = [src] ∧ entries [] = [] ∧
          sampleEnv.GetDescriptor src.Ref src.Desc = .ok [11, 10] ∧
          ((⟨MediaTypeImageIndex, "xx", 2, [], none, none⟩ : Descriptor).MediaType
              = MediaTypeDockerSchema2ManifestList
            ∨ (⟨MediaTypeImageIndex, "xx", 2, [], none, none⟩ : Descriptor).MediaType
              = MediaTypeImageIndex)) :=
  C8_first_occurrence_order sampleEnv sampleSched
    [⟨manifestB, "reg/x"⟩, ⟨indexI, "reg/x"⟩, ⟨manifestA, "reg/x"⟩] [] [11, 10]
    ⟨MediaTypeImageIndex, "xx", 2, [], none, none⟩ (by decide)

/-- C8 fails as stated: the only source is an index whose manifest list names
the digest `sha256:a` twice, and there are no annotations.  The flattened
input sequence `F` is A, A.  `Combine` takes the pass-through and returns the
fetched bytes: the children of the index they encode are `F` itself, two
children for one distinct digest, not `F` with the second occurrence
removed. -/
theorem C8_counterexample :
    ∃ b D idx F, Combine repeatEnv sampleSched [⟨indexI, "reg/x"⟩] [] = .ok (b, D) ∧
      repeatEnv.unmarshalIndex b = .ok idx ∧
      phase1 repeatEnv sampleSched.done [⟨indexI, "reg/x"⟩] = .ok [([1], ⟨indexI, "reg/x"⟩)] ∧
      flatten repeatEnv [([1], ⟨indexI, "reg/x"⟩)] = .ok F ∧
      idx.Manifests = F ∧
      idx.Manifests.map (fun d => d.Digest) ≠ (F.map (fun d => d.Digest)).eraseDups ∧
      idx.Manifests.length = 2 ∧ (F.map (fun d => d.Digest)).eraseDups.length = 1 :=
  ⟨[1], indexI, ⟨2, MediaTypeImageIndex, [manifestA, manifestA], none⟩, [manifestA, manifestA],
    by decide, by decide, by decide, by decide, by decide, by decide, by decide, by decide⟩

/-! ## Map objects: reading and writing -/

theorem Heap.read_write_same (h : Heap) (a : Nat) (m : GoMap) (ha : a < h.length) :
    Heap.read (Heap.write h a m) a = m := by
  unfold Heap.read Heap.write
  rw [List.getD_eq_getElem?_getD, List.getElem?_set_self ha]
  rfl

theorem Heap.read_write_ne (h : Heap) (a b : Nat) (m : GoMap) (hne : a ≠ b) :
    Heap.read (Heap.write h a m) b = Heap.read h b := by
  unfold Heap.read Heap.write
  rw [List.getD_eq_getElem?_getD, List.getD_eq_getElem?_getD, List.getElem?_set_ne hne]

theorem Heap.length_write (h : Heap) (a : Nat) (m : GoMap) :
    (Heap.write h a m).length = h.length := by
  unfold Heap.write
  rw [List.length_set]

theorem Heap.read_append (h ext : Heap) (a : Nat) (ha : a < h.length) :
    Heap.read (h ++ ext) a = Heap.read h a := by
  unfold Heap.read
  rw [List.getD_eq_getElem?_getD, List.getD_eq_getElem?_getD, List.getElem?_append_left ha]

theorem Heap.read_append_length (h ext : Heap) (m : GoMap) :
    Heap.read (h ++ m :: ext) h.length = m := by
  unfold Heap.read
  rw [List.getD_eq_getElem?_getD, List.getElem?_append_right (Nat.le_refl _)]
  simp

theorem copyInto_nil (dst : GoMap) : copyInto dst [] = dst := rfl

theorem value_digest (h : Heap) (d : DescriptorRef) : (d.value h).Digest = d.Digest := rfl

theorem value_congr (h1 h2 : Heap) (d : DescriptorRef)
    (hr : ∀ a, d.Annotations = some a → Heap.read h1 a = Heap.read h2 a) :
    d.value h1 = d.value h2 := by
  unfold DescriptorRef.value
  cases ha : d.Annotations with
  | none => rfl
  | some a =>
    simp only [Option.map_some', hr a ha]
theorem ensureMap_some (h : Heap) (a : Nat) : ensureMap h (some a) = (h, a) := rfl

theorem ensureMap_none (h : Heap) : ensureMap h none = (h ++ [[]], h.length) := rfl

theorem copyIntoRef_none (h : Heap) (dst : Nat) : copyIntoRef h dst none = h := rfl

theorem copyIntoRef_some (h : Heap) (dst b : Nat) :
    copyIntoRef h dst (some b)
      = Heap.write h dst (copyInto (Heap.read h dst) (Heap.read h b)) := rfl

theorem ensureMap_copy (h : Heap) (oa da : Option Nat)
    (ho : ∀ a, oa = some a → a < h.length) (hd : ∀ b, da = some b → b < h.length) :
    Heap.read (copyIntoRef (ensureMap h oa).1 (ensureMap h oa).2 da) (ensureMap h oa).2
        = copyInto (orEmpty (oa.map (Heap.read h))) (orEmpty (da.map (Heap.read h))) ∧
      h.length ≤ (copyIntoRef (ensureMap h oa).1 (ensureMap h oa).2 da).length ∧
      (ensureMap h oa).2 < (copyIntoRef (ensureMap h oa).1 (ensureMap h oa).2 da).length ∧
      (∀ a, a < h.length → a ≠ (ensureMap h oa).2 →
        Heap.read (copyIntoRef (ensureMap h oa).1 (ensureMap h oa).2 da) a = Heap.read h a) ∧
      (oa = none → (ensureMap h oa).2 = h.length) ∧
      (∀ a, oa = some a → (ensureMap h oa).2 = a) := by
  cases oa with
  | some a =>
    have ha := ho a rfl
    rw [ensureMap_some]
    cases da with
    | none =>
      rw [copyIntoRef_none]
      refine ⟨rfl, Nat.le_refl _, ha, fun _ _ _ => rfl, fun hn => ?_, fun a1 h1 => ?_⟩
      · cases hn
      · cases h1
        rfl
    | some b =>
      rw [copyIntoRef_some]
      refine ⟨Heap.read_write_same h a _ ha, ?_, ?_, ?_, fun hn => ?_, fun a1 h1 => ?_⟩
      · rw [Heap.length_write]
      · rw [Heap.length_write]
        exact ha
      · intro a1 _ hne
        exact Heap.read_write_ne h a a1 _ (fun e => hne e.symm)
      · cases hn
      · cases h1
        rfl
  | none =>
    have hfresh : Heap.read (h ++ [[]]) h.length = [] := Heap.read_append_length h [] []
    have hlen : (h ++ [[]]).length = h.length + 1 := by simp
    rw [ensureMap_none]
    cases da with
    | none =>
      rw [copyIntoRef_none]
      refine ⟨hfresh, ?_, ?_, ?_, fun _ => rfl, fun a1 h1 => ?_⟩
      · rw [hlen]
        exact Nat.le_succ _
      · rw [hlen]
        exact Nat.lt_succ_self _
      · intro a1 h1 _
        exact Heap.read_append h _ a1 h1
      · cases h1
    | some b =>
      have hb := hd b rfl
      rw [copyIntoRef_some]
      refine ⟨?_, ?_, ?_, ?_, fun _ => rfl, fun a1 h1 => ?_⟩
      · show Heap.read (Heap.write (h ++ [[]]) h.length _) h.length = copyInto [] (Heap.read h b)
        rw [Heap.read_write_same _ _ _ (by rw [hlen]; exact Nat.lt_succ_self _), hfresh,
          Heap.read_append h _ b hb]
      · rw [Heap.length_write, hlen]
        exact Nat.le_succ _
      · rw [Heap.length_write, hlen]
        exact Nat.lt_succ_self _
      · intro a1 h1 hne
        show Heap.read (Heap.write (h ++ [[]]) h.length _) a1 = _
        rw [Heap.read_write_ne _ _ _ _ (fun e => hne e.symm), Heap.read_append h _ a1 h1]
      · cases h1

theorem overlayFields_annotations (old d : DescriptorRef) :
    (overlayFields old d).Annotations = old.Annotations := by
  unfold overlayFields
  cases d.Platform <;> by_cases hmt : old.MediaType = "" <;> simp [hmt]

theorem value_overlay (h h1 : Heap) (old d : DescriptorRef) (a1 : Nat)
    (hr : Heap.read h1 a1
      = copyInto (orEmpty (old.Annotations.map (Heap.read h)))
          (orEmpty (d.Annotations.map (Heap.read h)))) :
    DescriptorRef.value h1 { overlayFields old d with Annotations := some a1 }
      = overlayDesc (old.value h) (d.value h) := by
  unfold overlayDesc DescriptorRef.value overlayFields
  cases d.Platform <;> by_cases hmt : old.MediaType = "" <;> simp [hmt, hr]
theorem separate_weaken {st : MergeStateRef} {l1 l2 : List Nat}
    (h : Separate st (l1 ++ l2)) : Separate st l2 := by
  obtain ⟨h1, h2, h3, h4⟩ := h
  refine ⟨h1, ?_, (List.nodup_append.mp h3).2.1, ?_⟩
  · intro d hd a ha
    exact ⟨(h2 d hd a ha).1, fun hmem => (h2 d hd a ha).2 (List.mem_append_right _ hmem)⟩
  · intro a ha
    exact h4 a (List.mem_append_right _ ha)

theorem getElem?_concat_cases {α : Type} (l : List α) (x y : α) (i : Nat)
    (h : (l ++ [x])[i]? = some y) : l[i]? = some y ∨ (i = l.length ∧ y = x) := by
  by_cases hil : i < l.length
  · rw [List.getElem?_append_left hil] at h
    exact Or.inl h
  · right
    rw [List.getElem?_append_right (Nat.le_of_not_lt hil)] at h
    cases hk : i - l.length with
    | zero =>
      rw [hk] at h
      simp at h
      exact ⟨by omega, h.symm⟩
    | succ k =>
      rw [hk] at h
      simp at h

theorem addDescRef_fresh (st : MergeStateRef) (vst : MergeState) (d : DescriptorRef)
    (later : List Nat) (hm : vst.m = st.m)
    (hnd : vst.newDescs = st.newDescs.map (DescriptorRef.value st.heap))
    (hsep : Separate st (d.Annotations.toList ++ later))
    (hl : lookupIdx st.m d.Digest = none) :
    addDescRef st d
        = ⟨st.heap, st.m ++ [(d.Digest, st.newDescs.length)], st.newDescs ++ [d]⟩ ∧
      addDesc vst (d.value st.heap)
        = ⟨st.m ++ [(d.Digest, st.newDescs.length)],
            (st.newDescs ++ [d]).map (DescriptorRef.value st.heap)⟩ ∧
      Separate ⟨st.heap, st.m ++ [(d.Digest, st.newDescs.length)], st.newDescs ++ [d]⟩
        later := by
  obtain ⟨h1, h2, h3, h4⟩ := hsep
  refine ⟨?_, ?_, ?_⟩
  · unfold addDescRef
    rw [hl]
  · unfold addDesc
    rw [value_digest, hm, hl, hnd, List.length_map, List.map_append]
    rfl
  · refine ⟨?_, ?_, (List.nodup_append.mp h3).2.1,
      fun a ha => h4 a (List.mem_append_right _ ha)⟩
    · intro i j di dj a hi hj hai haj
      have hi1 : (st.newDescs ++ [d])[i]? = some di := by
        rw [← List.get?_eq_getElem?]
        exact hi
      have hj1 : (st.newDescs ++ [d])[j]? = some dj := by
        rw [← List.get?_eq_getElem?]
        exact hj
      have hd : ∀ (x : Nat) (a : DescriptorRef), st.newDescs[x]? = some a →
          st.newDescs.get? x = some a := by
        intro x a hx
        rw [List.get?_eq_getElem?]
        exact hx
      have hclash : ∀ (x : Nat) (dx : DescriptorRef), st.newDescs[x]? = some dx →
          dx.Annotations = some a →
          d.Annotations = some a → False := by
        intro x dx hx hax had
        have := (h2 dx (List.getElem?_mem hx) a hax).2
        exact this (List.mem_append_left _ (by rw [had]; simp))
      rcases getElem?_concat_cases _ _ _ _ hi1 with hi2 | ⟨hi2, hi3⟩
      · rcases getElem?_concat_cases _ _ _ _ hj1 with hj2 | ⟨hj2, hj3⟩
        · exact h1 i j di dj a (hd _ _ hi2) (hd _ _ hj2) hai haj
        · exact (hclash i di hi2 hai (hj3 ▸ haj)).elim
      · rcases getElem?_concat_cases _ _ _ _ hj1 with hj2 | ⟨hj2, hj3⟩
        · exact (hclash j dj hj2 haj (hi3 ▸ hai)).elim
        · rw [hi2, hj2]
    · intro dd hdd a ha
      have hdd1 : dd ∈ st.newDescs ++ [d] := hdd
      rcases List.mem_append.mp hdd1 with hin | hin
      · exact ⟨(h2 dd hin a ha).1,
          fun hmem => (h2 dd hin a ha).2 (List.mem_append_right _ hmem)⟩
      · have hdd2 : dd = d := by simpa using hin
        rw [hdd2] at ha
        have hmem : a ∈ d.Annotations.toList := by rw [ha]; simp
        refine ⟨h4 a (List.mem_append_left _ hmem), ?_⟩
        intro hl2
        exact (List.nodup_append.mp h3).2.2 hmem hl2

theorem addDescRef_known (st : MergeStateRef) (vst : MergeState) (d : DescriptorRef)
    (later : List Nat) (hm : vst.m = st.m)
    (hnd : vst.newDescs = st.newDescs.map (DescriptorRef.value st.heap))
    (hsep : Separate st (d.Annotations.toList ++ later))
    (idx : Nat) (old : DescriptorRef)
    (hl : lookupIdx st.m d.Digest = some idx) (ho : st.newDescs.get? idx = some old) :
    ∃ h1 a1, addDescRef st d
        = ⟨h1, st.m, st.newDescs.set idx { overlayFields old d with Annotations := some a1 }⟩ ∧
      addDesc vst (d.value st.heap)
        = ⟨st.m, (st.newDescs.set idx { overlayFields old d with Annotations := some a1 }).map
            (DescriptorRef.value h1)⟩ ∧
      Separate ⟨h1, st.m,
        st.newDescs.set idx { overlayFields old d with Annotations := some a1 }⟩ later ∧
      st.heap.length ≤ h1.length ∧
      ∀ a ∈ later, Heap.read h1 a = Heap.read st.heap a := by
  obtain ⟨h1, h2, h3, h4⟩ := hsep
  have hmem : old ∈ st.newDescs := List.get?_mem ho
  have hoa : ∀ a, old.Annotations = some a → a < st.heap.length :=
    fun a ha => (h2 old hmem a ha).1
  have hda : ∀ b, d.Annotations = some b → b < st.heap.length :=
    fun b hb => h4 b (List.mem_append_left _ (by rw [hb]; simp))
  obtain ⟨e1, e2, e3, e4, e5, e6⟩ :=
    ensureMap_copy st.heap old.Annotations d.Annotations hoa hda
  -- the object that is written is held by no other entry and is not awaited
  have hother : ∀ j dj, st.newDescs.get? j = some dj → j ≠ idx →
      dj.Annotations ≠ some (ensureMap st.heap old.Annotations).2 := by
    intro j dj hj hne hc
    cases hoo : old.Annotations with
    | none =>
      rw [e5 hoo] at hc
      exact absurd (h2 dj (List.get?_mem hj) _ hc).1 (Nat.lt_irrefl _)
    | some a0 =>
      rw [e6 a0 hoo] at hc
      exact hne (h1 j idx dj old a0 hj ho hc hoo)
  have hnotlater : (ensureMap st.heap old.Annotations).2 ∉ later := by
    intro hc
    cases hoo : old.Annotations with
    | none =>
      rw [e5 hoo] at hc
      exact absurd (h4 _ (List.mem_append_right _ hc)) (Nat.lt_irrefl _)
    | some a0 =>
      rw [e6 a0 hoo] at hc
      exact (h2 old hmem a0 hoo).2 (List.mem_append_right _ hc)
  have hlt : idx < st.newDescs.length := (List.get?_eq_some.mp ho).1
  refine ⟨copyIntoRef (ensureMap st.heap old.Annotations).1
      (ensureMap st.heap old.Annotations).2 d.Annotations,
    (ensureMap st.heap old.Annotations).2, ?_, ?_, ?_, e2, ?_⟩
  · unfold addDescRef
    rw [hl]
    simp only [ho, overlayFields_annotations]
  · have hg : vst.newDescs.get? idx = some (old.value st.heap) := by
      rw [hnd, List.get?_eq_getElem?, List.getElem?_map, ← List.get?_eq_getElem?, ho]
      rfl
    unfold addDesc
    rw [value_digest, hm, hl]
    simp only [hg]
    congr 1
    rw [hnd, List.map_set]
    apply List.ext_get?
    intro j
    simp only [List.get?_eq_getElem?, List.getElem?_set, List.getElem?_map, List.length_map]
    by_cases hj : idx = j
    · subst hj
      simp only [hlt, if_true]
      rw [value_overlay st.heap _ old d _ e1]
    · simp only [if_neg hj]
      cases hjj : st.newDescs[j]? with
      | none => rfl
      | some dj =>
        simp only [Option.map_some']
        congr 1
        apply value_congr
        intro a ha
        have hj2 : st.newDescs.get? j = some dj := by
          rw [List.get?_eq_getElem?]
          exact hjj
        symm
        apply e4 a (h2 dj (List.get?_mem hj2) a ha).1
        intro hc
        exact hother j dj hj2 (fun e => hj e.symm) (by rw [ha, hc])
  · refine ⟨?_, ?_, (List.nodup_append.mp h3).2.1, ?_⟩
    · intro i j di dj a hi hj hai haj
      have hi1 : (st.newDescs.set idx
          { overlayFields old d with
            Annotations := some (ensureMap st.heap old.Annotations).2 })[i]? = some di := by
        rw [← List.get?_eq_getElem?]
        exact hi
      have hj1 : (st.newDescs.set idx
          { overlayFields old d with
            Annotations := some (ensureMap st.heap old.Annotations).2 })[j]? = some dj := by
        rw [← List.get?_eq_getElem?]
        exact hj
      rw [List.getElem?_set] at hi1 hj1
      by_cases hii : idx = i
      · by_cases hjj : idx = j
        · rw [← hii, ← hjj]
        · exfalso
          rw [if_neg hjj] at hj1
          rw [if_pos hii, if_pos hlt] at hi1
          cases hi1
          simp only at hai
          cases hai
          exact hother j dj (by rw [List.get?_eq_getElem?]; exact hj1)
            (fun e => hjj e.symm) haj
      · rw [if_neg hii] at hi1
        by_cases hjj : idx = j
        · exfalso
          rw [if_pos hjj, if_pos hlt] at hj1
          cases hj1
          simp only at haj
          cases haj
          exact hother i di (by rw [List.get?_eq_getElem?]; exact hi1)
            (fun e => hii e.symm) hai
        · rw [if_neg hjj] at hj1
          exact h1 i j di dj a (by rw [List.get?_eq_getElem?]; exact hi1)
            (by rw [List.get?_eq_getElem?]; exact hj1) hai haj
    · intro dd hdd a ha
      rcases List.mem_or_eq_of_mem_set hdd with hin | heq
      · exact ⟨Nat.lt_of_lt_of_le (h2 dd hin a ha).1 e2,
          fun hmem2 => (h2 dd hin a ha).2 (List.mem_append_right _ hmem2)⟩
      · rw [heq] at ha
        simp only at ha
        cases ha
        exact ⟨e3, hnotlater⟩
    · intro a ha
      exact Nat.lt_of_lt_of_le (h4 a (List.mem_append_right _ ha)) e2
  · intro a ha
    apply e4 a (h4 a (List.mem_append_right _ ha))
    intro hc
    exact hnotlater (hc ▸ ha)
theorem addDescRef_refines (st : MergeStateRef) (vst : MergeState) (d : DescriptorRef)
    (later : List Nat) (hm : vst.m = st.m)
    (hnd : vst.newDescs = st.newDescs.map (DescriptorRef.value st.heap))
    (hsep : Separate st (d.Annotations.toList ++ later)) :
    (addDesc vst (d.value st.heap)).m = (addDescRef st d).m ∧
      (addDesc vst (d.value st.heap)).newDescs
        = (addDescRef st d).newDescs.map (DescriptorRef.value (addDescRef st d).heap) ∧
      Separate (addDescRef st d) later ∧
      st.heap.length ≤ (addDescRef st d).heap.length ∧
      ∀ a ∈ later, Heap.read (addDescRef st d).heap a = Heap.read st.heap a := by
  cases hl : lookupIdx st.m d.Digest with
  | none =>
    obtain ⟨hA, hB, hS⟩ := addDescRef_fresh st vst d later hm hnd hsep hl
    rw [hA, hB]
    exact ⟨rfl, rfl, hS, Nat.le_refl _, fun _ _ => rfl⟩
  | some idx =>
    cases ho : st.newDescs.get? idx with
    | none =>
      have hA : addDescRef st d = st := by
        unfold addDescRef
        rw [hl]
        simp only [ho]
      have hB : addDesc vst (d.value st.heap) = vst := by
        have hg : vst.newDescs.get? idx = none := by
          rw [hnd, List.get?_eq_getElem?, List.getElem?_map, ← List.get?_eq_getElem?, ho]
          rfl
        unfold addDesc
        rw [value_digest, hm, hl]
        simp only [hg]
      rw [hA, hB]
      exact ⟨hm, hnd, separate_weaken hsep, Nat.le_refl _, fun _ _ => rfl⟩
    | some old =>
      obtain ⟨h1, a1, hA, hB, hS, hle, hrd⟩ :=
        addDescRef_known st vst d later hm hnd hsep idx old hl ho
      rw [hA, hB]
      exact ⟨rfl, rfl, hS, hle, hrd⟩

theorem mapRefs_cons (d : DescriptorRef) (ds : List DescriptorRef) :
    mapRefs (d :: ds) = d.Annotations.toList ++ mapRefs ds := by
  unfold mapRefs
  cases ha : d.Annotations with
  | none => simp [List.filterMap_cons, ha]
  | some a => simp [List.filterMap_cons, ha]

theorem mem_mapRefs {ds : List DescriptorRef} {d : DescriptorRef} {a : Nat}
    (hd : d ∈ ds) (ha : d.Annotations = some a) : a ∈ mapRefs ds :=
  List.mem_filterMap.mpr ⟨d, hd, ha⟩

theorem foldl_addDescRef_refines (ds : List DescriptorRef) :
    ∀ (st : MergeStateRef) (vst : MergeState) (later : List Nat), vst.m = st.m →
      vst.newDescs = st.newDescs.map (DescriptorRef.value st.heap) →
      Separate st (mapRefs ds ++ later) →
      ((ds.map (DescriptorRef.value st.heap)).foldl addDesc vst).m
          = (ds.foldl addDescRef st).m ∧
        ((ds.map (DescriptorRef.value st.heap)).foldl addDesc vst).newDescs
          = (ds.foldl addDescRef st).newDescs.map
              (DescriptorRef.value (ds.foldl addDescRef st).heap) ∧
        Separate (ds.foldl addDescRef st) later ∧
        st.heap.length ≤ (ds.foldl addDescRef st).heap.length ∧
        ∀ a ∈ later, Heap.read (ds.foldl addDescRef st).heap a = Heap.read st.heap a := by
  induction ds with
  | nil =>
    intro st vst later hm hnd hsep
    exact ⟨hm, hnd, hsep, Nat.le_refl _, fun _ _ => rfl⟩
  | cons d rest ih =>
    intro st vst later hm hnd hsep
    rw [mapRefs_cons, List.append_assoc] at hsep
    obtain ⟨s1, s2, s3, s4, s5⟩ :=
      addDescRef_refines st vst d (mapRefs rest ++ later) hm hnd hsep
    have hvals : rest.map (DescriptorRef.value st.heap)
        = rest.map (DescriptorRef.value (addDescRef st d).heap) := by
      apply List.map_congr_left
      intro x hx
      apply value_congr
      intro a ha
      exact (s5 a (List.mem_append_left _ (mem_mapRefs hx ha))).symm
    obtain ⟨t1, t2, t3, t4, t5⟩ := ih (addDescRef st d) _ later s1 s2 s3
    rw [List.map_cons, List.foldl_cons, List.foldl_cons, hvals]
    refine ⟨t1, t2, t3, Nat.le_trans s4 t4, ?_⟩
    intro a ha
    rw [t5 a ha, s5 a (List.mem_append_right _ ha)]

theorem allocDescs_spec (vs : List Descriptor) :
    ∀ h : Heap, ∃ ext, (allocDescs h vs).1 = h ++ ext ∧
      (allocDescs h vs).2.map (DescriptorRef.value (allocDescs h vs).1) = vs ∧
      (mapRefs (allocDescs h vs).2).Nodup ∧
      ∀ a ∈ mapRefs (allocDescs h vs).2, h.length ≤ a ∧ a < (allocDescs h vs).1.length := by
  induction vs with
  | nil =>
    intro h
    exact ⟨[], by simp [allocDescs], rfl, List.nodup_nil, fun a ha => by cases ha⟩
  | cons d rest ih =>
    intro h
    cases hd : d.Annotations with
    | none =>
      obtain ⟨ext, e1, e2, e3, e4⟩ := ih h
      have hA : allocDescs h (d :: rest)
          = ((allocDescs h rest).1,
              ⟨d.MediaType, d.Digest, d.Size, d.URLs, none, d.Platform⟩
                :: (allocDescs h rest).2) := by
        simp only [allocDescs, hd]
      rw [hA]
      refine ⟨ext, e1, ?_, ?_, ?_⟩
      · simp only [List.map_cons, e2, List.cons.injEq, and_true]
        obtain ⟨mt, dg, sz, urls, ann, pf⟩ := d
        simp only at hd
        rw [hd]
        rfl
      · rw [mapRefs_cons]
        exact e3
      · rw [mapRefs_cons]
        exact e4
    | some m =>
      obtain ⟨ext, e1, e2, e3, e4⟩ := ih (h ++ [m])
      have hA : allocDescs h (d :: rest)
          = ((allocDescs (h ++ [m]) rest).1,
              ⟨d.MediaType, d.Digest, d.Size, d.URLs, some h.length, d.Platform⟩
                :: (allocDescs (h ++ [m]) rest).2) := by
        simp only [allocDescs, hd]
      have hlen : (h ++ [m]).length = h.length + 1 := by simp
      rw [hA]
      refine ⟨m :: ext, ?_, ?_, ?_, ?_⟩
      · rw [e1]
        simp
      · simp only [List.map_cons, e2, List.cons.injEq, and_true]
        obtain ⟨mt, dg, sz, urls, ann, pf⟩ := d
        simp only at hd
        rw [hd]
        have hr : Heap.read (allocDescs (h ++ [m]) rest).1 h.length = m := by
          rw [e1, List.append_assoc]
          exact Heap.read_append_length h ext m
        simp only [DescriptorRef.value, Option.map_some', hr]
      · rw [mapRefs_cons]
        simp only [Option.toList_some, List.singleton_append, List.nodup_cons]
        refine ⟨?_, e3⟩
        intro hmem
        have := (e4 _ hmem).1
        rw [hlen] at this
        exact absurd this (Nat.not_succ_le_self _)
      · rw [mapRefs_cons]
        intro a ha
        simp only [Option.toList_some, List.singleton_append, List.mem_cons] at ha
        rcases ha with ha | ha
        · rw [ha]
          refine ⟨Nat.le_refl _, ?_⟩
          rw [e1, List.length_append, hlen]
          omega
        · have := e4 a ha
          rw [hlen] at this
          exact ⟨by omega, this.2⟩
theorem separate_alloc {st : MergeStateRef} {later : List Nat} (hsep : Separate st later)
    (vs : List Descriptor) :
    Separate { st with heap := (allocDescs st.heap vs).1 }
        (mapRefs (allocDescs st.heap vs).2 ++ later) ∧
      st.newDescs.map (DescriptorRef.value (allocDescs st.heap vs).1)
        = st.newDescs.map (DescriptorRef.value st.heap) ∧
      ∀ a ∈ later, Heap.read (allocDescs st.heap vs).1 a = Heap.read st.heap a := by
  obtain ⟨h1, h2, h3, h4⟩ := hsep
  obtain ⟨ext, e1, _, e3, e4⟩ := allocDescs_spec vs st.heap
  have hle : st.heap.length ≤ (allocDescs st.heap vs).1.length := by
    rw [e1, List.length_append]
    exact Nat.le_add_right _ _
  refine ⟨⟨h1, ?_, ?_, ?_⟩, ?_, ?_⟩
  · intro d hd a ha
    have hlt := (h2 d hd a ha).1
    refine ⟨Nat.lt_of_lt_of_le hlt hle, ?_⟩
    intro hmem
    rcases List.mem_append.mp hmem with hin | hin
    · exact absurd (e4 a hin).1 (Nat.not_le_of_lt hlt)
    · exact (h2 d hd a ha).2 hin
  · rw [List.nodup_append]
    refine ⟨e3, h3, ?_⟩
    intro a ha hb
    exact absurd (e4 a ha).1 (Nat.not_le_of_lt (h4 a hb))
  · intro a ha
    rcases List.mem_append.mp ha with hin | hin
    · exact (e4 a hin).2
    · exact Nat.lt_of_lt_of_le (h4 a hin) hle
  · apply List.map_congr_left
    intro d hd
    apply value_congr
    intro a ha
    rw [e1]
    exact Heap.read_append st.heap ext a (h2 d hd a ha).1
  · intro a ha
    rw [e1]
    exact Heap.read_append st.heap ext a (h4 a ha)

theorem sourceRefs_cons_list (dt : Bytes) (src : SourceRef) (rest : List (Bytes × SourceRef))
    (hli : src.Desc.MediaType = MediaTypeDockerSchema2ManifestList
      ∨ src.Desc.MediaType = MediaTypeImageIndex) :
    sourceRefs ((dt, src) :: rest) = sourceRefs rest := by
  simp only [sourceRefs, if_pos hli]

theorem sourceRefs_cons_plain (dt : Bytes) (src : SourceRef) (rest : List (Bytes × SourceRef))
    (hli : ¬ (src.Desc.MediaType = MediaTypeDockerSchema2ManifestList
      ∨ src.Desc.MediaType = MediaTypeImageIndex)) :
    sourceRefs ((dt, src) :: rest) = src.Desc.Annotations.toList ++ sourceRefs rest := by
  simp only [sourceRefs, if_neg hli]
  cases src.Desc.Annotations <;> rfl

/-- Phase 3 on map objects and Phase 3 on the contents of the maps agree when
the map objects are kept apart. -/
theorem mergeSourcesRef_refines (env : Env) (h0 : Heap) (rest : List (Bytes × SourceRef)) :
    ∀ (st : MergeStateRef) (vst : MergeState), vst.m = st.m →
      vst.newDescs = st.newDescs.map (DescriptorRef.value st.heap) →
      Separate st (sourceRefs rest) →
      (∀ a ∈ sourceRefs rest, Heap.read st.heap a = Heap.read h0 a) →
      (mergeSourcesRef env st rest).map
          (fun s => s.newDescs.map (DescriptorRef.value s.heap))
        = (mergeSources env vst (valuesAt h0 rest)).map (fun s => s.newDescs) := by
  induction rest with
  | nil =>
    intro st vst _ hnd _ _
    show Except.ok (st.newDescs.map (DescriptorRef.value st.heap)) = Except.ok vst.newDescs
    rw [hnd]
  | cons r rest ih =>
    intro st vst hm hnd hsep hread
    obtain ⟨dt, src⟩ := r
    have hv : valuesAt h0 ((dt, src) :: rest) = (dt, src.value h0) :: valuesAt h0 rest := rfl
    rw [hv]
    by_cases hli : src.Desc.MediaType = MediaTypeDockerSchema2ManifestList
        ∨ src.Desc.MediaType = MediaTypeImageIndex
    · have hli2 : (src.value h0).Desc.MediaType = MediaTypeDockerSchema2ManifestList
          ∨ (src.value h0).Desc.MediaType = MediaTypeImageIndex := hli
      rw [sourceRefs_cons_list dt src rest hli] at hsep hread
      simp only [mergeSourcesRef, mergeSources, if_pos hli, if_pos hli2]
      cases hu : env.unmarshalIndex dt with
      | error e => rfl
      | ok mfst =>
        simp only
        obtain ⟨a1, a2, a3⟩ := separate_alloc hsep mfst.Manifests
        obtain ⟨_, _, a5, _, _⟩ := allocDescs_spec mfst.Manifests st.heap
        have hnd2 : vst.newDescs
            = ({ st with heap := (allocDescs st.heap mfst.Manifests).1 } :
                MergeStateRef).newDescs.map
              (DescriptorRef.value ({ st with heap := (allocDescs st.heap mfst.Manifests).1 } :
                MergeStateRef).heap) := by
          rw [hnd]
          exact a2.symm
        obtain ⟨t1, t2, t3, _, t5⟩ :=
          foldl_addDescRef_refines (allocDescs st.heap mfst.Manifests).2
            { st with heap := (allocDescs st.heap mfst.Manifests).1 } vst (sourceRefs rest)
            hm hnd2 a1
        have hvals : (allocDescs st.heap mfst.Manifests).2.map
            (DescriptorRef.value ({ st with heap := (allocDescs st.heap mfst.Manifests).1 } :
              MergeStateRef).heap) = mfst.Manifests := a5
        rw [hvals] at t1 t2
        apply ih _ _ t1 t2 t3
        intro a ha
        rw [t5 a ha]
        show Heap.read (allocDescs st.heap mfst.Manifests).1 a = _
        rw [a3 a ha, hread a ha]
    · have hli2 : ¬ ((src.value h0).Desc.MediaType = MediaTypeDockerSchema2ManifestList
          ∨ (src.value h0).Desc.MediaType = MediaTypeImageIndex) := hli
      rw [sourceRefs_cons_plain dt src rest hli] at hsep hread
      simp only [mergeSourcesRef, mergeSources, if_neg hli, if_neg hli2]
      have hval : (src.value h0).Desc = src.Desc.value st.heap := by
        show src.Desc.value h0 = src.Desc.value st.heap
        apply value_congr
        intro a ha
        exact (hread a (List.mem_append_left _ (by rw [ha]; simp))).symm
      rw [hval]
      obtain ⟨s1, s2, s3, _, s5⟩ :=
        addDescRef_refines st vst src.Desc (sourceRefs rest) hm hnd hsep
      apply ih _ _ s1 s2 s3
      intro a ha
      rw [s5 a ha, hread a (List.mem_append_right _ ha)]

/-- Phase 3 on map objects gives the children that Phase 3 on the contents
gives, when no two of the sources that are added as they are hold the same map
object. -/
theorem mergeDescsRef_refines (env : Env) (h : Heap) (rs : List (Bytes × SourceRef))
    (hsep : (sourceRefs rs).Nodup) (hwf : ∀ a ∈ sourceRefs rs, a < h.length) :
    (mergeDescsRef env h rs).map (fun r => r.2.map (DescriptorRef.value r.1))
      = mergeDescs env (valuesAt h rs) := by
  have hS : Separate ⟨h, [], []⟩ (sourceRefs rs) := by
    refine ⟨?_, ?_, hsep, hwf⟩
    · intro i j di dj a hi
      simp at hi
    · intro d hd
      cases hd
  have := mergeSourcesRef_refines env h rs ⟨h, [], []⟩ ⟨[], []⟩ rfl rfl hS (fun _ _ => rfl)
  unfold mergeDescsRef mergeDescs
  cases h1 : mergeSourcesRef env ⟨h, [], []⟩ rs with
  | error e =>
    rw [h1] at this
    cases h2 : mergeSources env ⟨[], []⟩ (valuesAt h rs) with
    | error e2 =>
      rw [h2] at this
      simp only [Except.map] at this ⊢
      exact this
    | ok v =>
      rw [h2] at this
      cases this
  | ok s =>
    rw [h1] at this
    cases h2 : mergeSources env ⟨[], []⟩ (valuesAt h rs) with
    | error e2 =>
      rw [h2] at this
      cases this
    | ok v =>
      rw [h2] at this
      simp only [Except.map, Except.ok.injEq] at this ⊢
      exact this

/-! ## C9: the merged child -/

/-- C9, as the code has it: let the sources that are not a manifest list or an
index hold pairwise different map objects, all of the heap `h` (the children
decoded from the bytes of an index have new map objects).  Let `F` be the
flattened input sequence with the contents of the maps as they are before the
merge, and `c` a child after the merge on map objects, before the annotation
overlay, read in the heap after the merge.  The digest of `c` occurs in `F`;
with `o` its first occurrence and `os` the later ones, `c` has the size of
`o`; the media type of `o` if that is not empty, else the first non-empty media
type among `os` (the empty one when there is none); the platform of the last
of the occurrences `os` that has one, else the platform of `o`; and for every
key the value that the last occurrence with that key gives it, so its
annotations are the union of the maps of all occurrences with the latest value
winning.  When the digest occurs several times the annotation map of `c` is not
nil; when it occurs once, `c` is that occurrence. -/
theorem C9_merged_child (env : Env) (h : Heap) (rs : List (Bytes × SourceRef)) (h1 : Heap)
    (newDescs : List DescriptorRef) (c : DescriptorRef)
    (hsep : (sourceRefs rs).Nodup) (hwf : ∀ a ∈ sourceRefs rs, a < h.length)
    (hm : mergeDescsRef env h rs = .ok (h1, newDescs)) (hc : c ∈ newDescs) :
    ∃ F o os, flatten env (valuesAt h rs) = .ok F ∧ occurrences c.Digest F = o :: os ∧
      (c.value h1).Size = o.Size ∧
      (o.MediaType ≠ "" → (c.value h1).MediaType = o.MediaType) ∧
      (o.MediaType = "" →
        (c.value h1).MediaType
          = ((os.map (fun d => d.MediaType)).find? (fun s => s ≠ "")).getD "") ∧
      ((c.value h1).Platform =
        match (os.filterMap (fun d => d.Platform)).getLast? with
        | some p => some p
        | none => o.Platform) ∧
      (∀ k, annGet (c.value h1).Annotations k =
        ((o :: os).filterMap (fun d => annGet d.Annotations k)).getLast?) ∧
      (os ≠ [] → (c.value h1).Annotations ≠ none) ∧
      (os = [] → c.value h1 = o) := by
  have href := mergeDescsRef_refines env h rs hsep hwf
  rw [hm] at href
  have hv : mergeDescs env (valuesAt h rs) = .ok (newDescs.map (DescriptorRef.value h1)) :=
    href.symm
  exact mergeDescs_merged_child env (valuesAt h rs) _ (c.value h1) hv
    (List.mem_map_of_mem _ hc)

/-- C9 at the index with the children A and B followed by two more descriptors
of the blob of A, which hold two different map objects of the caller. -/
theorem C9_merged_child_witness :
    ∃ F o os,
      flatten sampleEnv (valuesAt twoMaps
        [([1], ⟨indexIRef, "reg/x"⟩), ([0], ⟨annotatedA1, "reg/x"⟩),
          ([0], ⟨manifestA2Ref, "reg/x"⟩)]) = .ok F ∧
      occurrences mergedARef.Digest F = o :: os ∧
      (mergedARef.value threeMaps).Size = o.Size ∧
      (o.MediaType ≠ "" → (mergedARef.value threeMaps).MediaType = o.MediaType) ∧
      (o.MediaType = "" →
        (mergedARef.value threeMaps).MediaType
          = ((os.map (fun d => d.MediaType)).find? (fun s => s ≠ "")).getD "") ∧
      ((mergedARef.value threeMaps).Platform =
        match (os.filterMap (fun d => d.Platform)).getLast? with
        | some p => some p
        | none => o.Platform) ∧
      (∀ k, annGet (mergedARef.value threeMaps).Annotations k =
        ((o :: os).filterMap (fun d => annGet d.Annotations k)).getLast?) ∧
      (os ≠ [] → (mergedARef.value threeMaps).Annotations ≠ none) ∧
      (os = [] → mergedARef.value threeMaps = o) :=
  C9_merged_child sampleEnv twoMaps
    [([1], ⟨indexIRef, "reg/x"⟩), ([0], ⟨annotatedA1, "reg/x"⟩),
      ([0], ⟨manifestA2Ref, "reg/x"⟩)]
    threeMaps
    [mergedARef, ⟨MediaTypeImageManifest, "sha256:b", 11, [], none, some linuxArm64⟩]
    mergedARef (by decide) (by decide) (by decide) (by decide)

/-- C9 fails as stated: the sources are the manifests `sha256:a` and `sha256:b`,
whose descriptors hold the same, empty map object, then a second descriptor of
`sha256:a` without annotations and a second descriptor of `sha256:b` with the
annotation `k = v`.  The digest `sha256:a` occurs twice in the flattened input
sequence, and none of its occurrences has the key `k`; the merge writes `k = v`
for `sha256:b` into the shared map object, so the child for `sha256:a` has the
annotation `k = v` after the merge.  When `sha256:b` holds a map object of
its own, the child for `sha256:a` has no annotation. -/
theorem C9_counterexample :
    mergeDescsRef sampleEnv sharedHeap
        [([0], ⟨sharedA, "reg/x"⟩), ([0], ⟨sharedB, "reg/x"⟩), ([0], ⟨secondA, "reg/x"⟩),
          ([0], ⟨secondB, "reg/x"⟩)]
        = .ok ([[("k", "v")], [], [("k", "v")]], [sharedA, sharedB]) ∧
      flatten sampleEnv (valuesAt sharedHeap
          [([0], ⟨sharedA, "reg/x"⟩), ([0], ⟨sharedB, "reg/x"⟩), ([0], ⟨secondA, "reg/x"⟩),
            ([0], ⟨secondB, "reg/x"⟩)])
        = .ok [sharedA.value sharedHeap, sharedB.value sharedHeap, secondA.value sharedHeap,
            secondB.value sharedHeap] ∧
      occurrences "sha256:a"
          [sharedA.value sharedHeap, sharedB.value sharedHeap, secondA.value sharedHeap,
            secondB.value sharedHeap]
        = [sharedA.value sharedHeap, secondA.value sharedHeap] ∧
      annGet (sharedA.value sharedHeap).Annotations "k" = none ∧
      annGet (secondA.value sharedHeap).Annotations "k" = none ∧
      annGet (sharedA.value [[("k", "v")], [], [("k", "v")]]).Annotations "k" = some "v" ∧
      mergeDescsRef sampleEnv (sharedHeap ++ [[]])
        [([0], ⟨sharedA, "reg/x"⟩), ([0], ⟨ownB, "reg/x"⟩), ([0], ⟨secondA, "reg/x"⟩),
          ([0], ⟨secondB, "reg/x"⟩)]
        = .ok ([[], [], [("k", "v")], [("k", "v")]], [sharedA, ownB]) ∧
      annGet (sharedA.value [[], [], [("k", "v")], [("k", "v")]]).Annotations "k" = none :=
  ⟨by decide, by decide, by decide, by decide, by decide, by decide, by decide, by decide⟩

/-! ## Phase 5 on map objects -/

theorem ensureMap_read (h : Heap) (oa : Option Nat) :
    Heap.read (ensureMap h oa).1 (ensureMap h oa).2 = orEmpty (oa.map (Heap.read h)) := by
  cases oa with
  | some a => rfl
  | none => exact Heap.read_append_length h [] []

theorem overlayChildRef_error {env : Env} {visit : Bucket} {h : Heap} {d : DescriptorRef}
    {e : Err} (hr : overlayChildRef env visit h d = .error e) :
    overlayChild env visit (d.value h) = .error e := by
  unfold overlayChildRef at hr
  unfold overlayChild
  rw [ensureMap_read] at hr
  have hv : (d.value h).Annotations = d.Annotations.map (Heap.read h) := rfl
  rw [hv]
  cases hl : descLoop env (d.value h) (orEmpty (d.Annotations.map (Heap.read h))) visit with
  | error e1 =>
    simp only [hl] at hr
    cases hr
    rfl
  | ok m =>
    simp only [hl] at hr
    cases hr

theorem overlayChildRef_ok {env : Env} {visit : Bucket} {h h1 : Heap} {d d1 : DescriptorRef}
    (ha : ∀ a, d.Annotations = some a → a < h.length)
    (hr : overlayChildRef env visit h d = .ok (h1, d1)) :
    overlayChild env visit (d.value h) = .ok (d1.value h1) ∧ h.length ≤ h1.length ∧
      ∃ a1, d1.Annotations = some a1 ∧ a1 < h1.length ∧
        (d.Annotations = none → a1 = h.length) ∧ (∀ a, d.Annotations = some a → a1 = a) ∧
        ∀ a, a < h.length → a ≠ a1 → Heap.read h1 a = Heap.read h a := by
  unfold overlayChildRef at hr
  unfold overlayChild
  rw [ensureMap_read] at hr
  have hv : (d.value h).Annotations = d.Annotations.map (Heap.read h) := rfl
  rw [hv]
  cases hl : descLoop env (d.value h) (orEmpty (d.Annotations.map (Heap.read h))) visit with
  | error e1 =>
    simp only [hl] at hr
    cases hr
  | ok m =>
    simp only [hl, Except.ok.injEq, Prod.mk.injEq] at hr
    obtain ⟨hh, hd⟩ := hr
    have hlen : h.length ≤ (ensureMap h d.Annotations).1.length ∧
        (ensureMap h d.Annotations).2 < (ensureMap h d.Annotations).1.length ∧
        ∀ a, a < h.length → Heap.read (ensureMap h d.Annotations).1 a = Heap.read h a := by
      cases hda : d.Annotations with
      | some a =>
        rw [ensureMap_some]
        exact ⟨Nat.le_refl _, ha a hda, fun _ _ => rfl⟩
      | none =>
        rw [ensureMap_none]
        refine ⟨by simp, by simp, ?_⟩
        intro a hlt
        exact Heap.read_append h _ a hlt
    have hfix : (ensureMap h d.Annotations).2 < h1.length := by
      rw [← hh, Heap.length_write]
      exact hlen.2.1
    refine ⟨?_, ?_, (ensureMap h d.Annotations).2, ?_, hfix, ?_, ?_, ?_⟩
    · rw [← hd, ← hh]
      simp only [DescriptorRef.value, Option.map_some',
        Heap.read_write_same _ _ _ hlen.2.1]
    · rw [← hh, Heap.length_write]
      exact hlen.1
    · rw [← hd]
    · intro hn
      rw [hn]
      rfl
    · intro a hs
      rw [hs]
      rfl
    · intro a hlt hne
      rw [← hh, Heap.read_write_ne _ _ _ _ (fun e => hne e.symm)]
      exact hlen.2.2 a hlt

theorem overlayDescsRef_refines (env : Env) (order : Nat → List Nat) (bucket : Bucket)
    (ds : List DescriptorRef) :
    ∀ (i : Nat) (h : Heap), (mapRefs ds).Nodup → (∀ a ∈ mapRefs ds, a < h.length) →
      (∀ e, overlayDescsRef env order bucket i h ds = .error e →
        overlayDescs env order bucket i (ds.map (DescriptorRef.value h)) = .error e) ∧
      (∀ h2 out, overlayDescsRef env order bucket i h ds = .ok (h2, out) →
        overlayDescs env order bucket i (ds.map (DescriptorRef.value h))
            = .ok (out.map (DescriptorRef.value h2)) ∧
          h.length ≤ h2.length ∧
          ∀ a, a < h.length → a ∉ mapRefs ds → Heap.read h2 a = Heap.read h a) := by
  induction ds with
  | nil =>
    intro i h _ _
    constructor
    · intro e he
      simp only [overlayDescsRef] at he
      cases he
    · intro h2 out ho
      simp only [overlayDescsRef, Except.ok.injEq, Prod.mk.injEq] at ho
      obtain ⟨rfl, rfl⟩ := ho
      exact ⟨rfl, Nat.le_refl _, fun _ _ _ => rfl⟩
  | cons d rest ih =>
    intro i h hn hlt
    rw [mapRefs_cons] at hn hlt
    have hda : ∀ a, d.Annotations = some a → a < h.length :=
      fun a ha => hlt a (List.mem_append_left _ (by rw [ha]; simp))
    have hrn : (mapRefs rest).Nodup := (List.nodup_append.mp hn).2.1
    cases hc : overlayChildRef env (permute (order i) bucket) h d with
    | error e =>
      constructor
      · intro e1 he
        simp only [overlayDescsRef, hc] at he
        cases he
        simp only [List.map_cons, overlayDescs, overlayChildRef_error hc]
      · intro h2 out ho
        simp only [overlayDescsRef, hc] at ho
        cases ho
    | ok r1 =>
      obtain ⟨h1, d1⟩ := r1
      obtain ⟨c1, c2, a1, c3, c4, c5, c6, c7⟩ := overlayChildRef_ok hda hc
      -- the map object of the child is none of the map objects of the rest
      have hnot : a1 ∉ mapRefs rest := by
        intro hmem
        cases hdd : d.Annotations with
        | none =>
          rw [c5 hdd] at hmem
          exact absurd (hlt _ (List.mem_append_right _ hmem)) (Nat.lt_irrefl _)
        | some a =>
          rw [c6 a hdd] at hmem
          exact (List.nodup_append.mp hn).2.2 (by rw [hdd]; simp) hmem
      have hrl : ∀ a ∈ mapRefs rest, a < h1.length :=
        fun a ha => Nat.lt_of_lt_of_le (hlt a (List.mem_append_right _ ha)) c2
      have hvals : rest.map (DescriptorRef.value h) = rest.map (DescriptorRef.value h1) := by
        apply List.map_congr_left
        intro x hx
        apply value_congr
        intro a ha
        have hm := mem_mapRefs hx ha
        symm
        apply c7 a (hlt a (List.mem_append_right _ hm))
        intro heq
        exact hnot (heq ▸ hm)
      obtain ⟨ih1, ih2⟩ := ih (i + 1) h1 hrn hrl
      cases hr : overlayDescsRef env order bucket (i + 1) h1 rest with
      | error e =>
        constructor
        · intro e1 he
          simp only [overlayDescsRef, hc, hr] at he
          cases he
          simp only [List.map_cons, overlayDescs, c1, hvals, ih1 e hr]
        · intro h2 out ho
          simp only [overlayDescsRef, hc, hr] at ho
          cases ho
      | ok r2 =>
        obtain ⟨h2, out2⟩ := r2
        obtain ⟨j1, j2, j3⟩ := ih2 h2 out2 hr
        constructor
        · intro e1 he
          simp only [overlayDescsRef, hc, hr] at he
          cases he
        · intro h3 out ho
          simp only [overlayDescsRef, hc, hr, Except.ok.injEq, Prod.mk.injEq] at ho
          obtain ⟨rfl, rfl⟩ := ho
          refine ⟨?_, Nat.le_trans c2 j2, ?_⟩
          · have hd1 : d1.value h1 = d1.value h2 := by
              apply value_congr
              intro a ha
              rw [c3] at ha
              cases ha
              exact (j3 a1 c4 hnot).symm
            simp only [List.map_cons, overlayDescs, c1, hvals, j1, hd1]
          · intro a ha hna
            rw [mapRefs_cons] at hna
            have hna1 : a ≠ a1 := by
              intro heq
              cases hdd : d.Annotations with
              | none =>
                rw [heq, c5 hdd] at ha
                exact absurd ha (Nat.lt_irrefl _)
              | some a0 =>
                apply hna
                rw [heq, c6 a0 hdd, hdd]
                simp
            rw [j3 a (Nat.lt_of_lt_of_le ha c2)
              (fun hm => hna (List.mem_append_right _ hm)), c7 a ha hna1]
theorem nodup_mapRefs_of_distinct (ds : List DescriptorRef)
    (h : ∀ i j di dj a, ds.get? i = some di → ds.get? j = some dj →
      di.Annotations = some a → dj.Annotations = some a → i = j) :
    (mapRefs ds).Nodup := by
  induction ds with
  | nil => exact List.nodup_nil
  | cons d rest ih =>
    rw [mapRefs_cons]
    have hrest : (mapRefs rest).Nodup := by
      apply ih
      intro i j di dj a hi hj hai haj
      have := h (i + 1) (j + 1) di dj a (by simpa using hi) (by simpa using hj) hai haj
      omega
    cases hd : d.Annotations with
    | none => simpa using hrest
    | some a =>
      simp only [Option.toList_some, List.singleton_append, List.nodup_cons]
      refine ⟨?_, hrest⟩
      intro hmem
      obtain ⟨d2, hd2, hd2a⟩ := List.mem_filterMap.mp hmem
      obtain ⟨j, hj⟩ := List.get?_of_mem hd2
      have := h 0 (j + 1) d d2 a rfl (by simpa using hj) hd hd2a
      omega

theorem separate_final {st : MergeStateRef} {later : List Nat} (h : Separate st later) :
    (mapRefs st.newDescs).Nodup ∧ ∀ a ∈ mapRefs st.newDescs, a < st.heap.length := by
  refine ⟨nodup_mapRefs_of_distinct _ h.1, ?_⟩
  intro a ha
  obtain ⟨d, hd, hda⟩ := List.mem_filterMap.mp ha
  exact (h.2.1 d hd a hda).1

theorem mergeSourcesRef_separate (env : Env) (rest : List (Bytes × SourceRef)) :
    ∀ (st s : MergeStateRef), Separate st (sourceRefs rest) →
      mergeSourcesRef env st rest = .ok s → Separate s [] := by
  induction rest with
  | nil =>
    intro st s hsep hr
    simp only [mergeSourcesRef, Except.ok.injEq] at hr
    rw [← hr]
    exact hsep
  | cons r rest ih =>
    intro st s hsep hr
    obtain ⟨dt, src⟩ := r
    by_cases hli : src.Desc.MediaType = MediaTypeDockerSchema2ManifestList
        ∨ src.Desc.MediaType = MediaTypeImageIndex
    · rw [sourceRefs_cons_list dt src rest hli] at hsep
      simp only [mergeSourcesRef, if_pos hli] at hr
      cases hu : env.unmarshalIndex dt with
      | error e =>
        simp only [hu] at hr
        cases hr
      | ok mfst =>
        simp only [hu] at hr
        obtain ⟨a1, _, _⟩ := separate_alloc hsep mfst.Manifests
        obtain ⟨_, _, t3, _, _⟩ :=
          foldl_addDescRef_refines (allocDescs st.heap mfst.Manifests).2
            { st with heap := (allocDescs st.heap mfst.Manifests).1 }
            ⟨st.m, st.newDescs.map
              (DescriptorRef.value (allocDescs st.heap mfst.Manifests).1)⟩
            (sourceRefs rest) rfl rfl a1
        exact ih _ s t3 hr
    · rw [sourceRefs_cons_plain dt src rest hli] at hsep
      simp only [mergeSourcesRef, if_neg hli] at hr
      obtain ⟨_, _, s3, _, _⟩ :=
        addDescRef_refines st ⟨st.m, st.newDescs.map (DescriptorRef.value st.heap)⟩ src.Desc
          (sourceRefs rest) rfl rfl hsep
      exact ih _ s s3 hr

theorem mergeDescsRef_separate {env : Env} {h h1 : Heap} {rs : List (Bytes × SourceRef)}
    {newDescs : List DescriptorRef}
    (hsep : (sourceRefs rs).Nodup) (hwf : ∀ a ∈ sourceRefs rs, a < h.length)
    (hm : mergeDescsRef env h rs = .ok (h1, newDescs)) :
    (mapRefs newDescs).Nodup ∧ ∀ a ∈ mapRefs newDescs, a < h1.length := by
  have hS : Separate ⟨h, [], []⟩ (sourceRefs rs) := by
    refine ⟨?_, ?_, hsep, hwf⟩
    · intro i j di dj a hi
      simp at hi
    · intro d hd
      cases hd
  unfold mergeDescsRef at hm
  cases hr : mergeSourcesRef env ⟨h, [], []⟩ rs with
  | error e =>
    simp only [hr] at hm
    cases hm
  | ok s =>
    simp only [hr, Except.ok.injEq, Prod.mk.injEq] at hm
    obtain ⟨rfl, rfl⟩ := hm
    exact separate_final (mergeSourcesRef_separate env rs _ s hS hr)

theorem applyAnnotationsRef_refines (env : Env) (sched : Sched) (mt : String) (ann : GoMap)
    (h : Heap) (newDescs : List DescriptorRef) (hn : (mapRefs newDescs).Nodup)
    (hlt : ∀ a ∈ mapRefs newDescs, a < h.length) :
    (applyAnnotationsRef env sched mt ann h newDescs).map
        (fun r => (r.1, r.2.2.map (DescriptorRef.value r.2.1)))
      = applyAnnotations env sched mt ann (newDescs.map (DescriptorRef.value h)) := by
  unfold applyAnnotationsRef applyAnnotations
  by_cases hmt : mt = MediaTypeImageIndex
  · rw [if_pos hmt, if_pos hmt]
    cases hp : parseAnnotations env sched.parse ann with
    | error e => rfl
    | ok annotations =>
      simp only
      by_cases hb : (annotations.get AnnotationManifestDescriptor).length > 0
      · rw [if_pos hb, if_pos hb]
        obtain ⟨r1, r2⟩ := overlayDescsRef_refines env sched.desc
          (annotations.get AnnotationManifestDescriptor) newDescs 0 h hn hlt
        cases ho : overlayDescsRef env sched.desc
            (annotations.get AnnotationManifestDescriptor) 0 h newDescs with
        | error e =>
          rw [r1 e ho]
          rfl
        | ok r =>
          obtain ⟨h2, out⟩ := r
          rw [(r2 h2 out ho).1]
          rfl
      · rw [if_neg hb, if_neg hb]
        rfl
  · rw [if_neg hmt, if_neg hmt]
    rfl

/-- Phases 3 to 5 on map objects compose the index that Phases 3 to 5 on the
contents of the maps compose, when no two of the sources that are added as
they are hold the same map object: what is proved of `composeIndex` is then
true of the index that the code serialises. -/
theorem composeIndexRef_refines (env : Env) (sched : Sched) (h : Heap)
    (rs : List (Bytes × SourceRef)) (ann : GoMap)
    (hsep : (sourceRefs rs).Nodup) (hwf : ∀ a ∈ sourceRefs rs, a < h.length) :
    composeIndexRef env sched h rs ann = composeIndex env sched (valuesAt h rs) ann := by
  have href := mergeDescsRef_refines env h rs hsep hwf
  unfold composeIndexRef composeIndex
  cases hm : mergeDescsRef env h rs with
  | error e =>
    rw [hm] at href
    rw [← href]
    rfl
  | ok r =>
    obtain ⟨h1, nd⟩ := r
    rw [hm] at href
    rw [← href]
    obtain ⟨s1, s2⟩ := mergeDescsRef_separate hsep hwf hm
    have ha := applyAnnotationsRef_refines env sched
      (selectMediaType (nd.map (DescriptorRef.value h1))) ann h1 nd s1 s2
    simp only [Except.map]
    rw [← ha]
    cases applyAnnotationsRef env sched (selectMediaType (nd.map (DescriptorRef.value h1)))
        ann h1 nd with
    | error e => rfl
    | ok p =>
      obtain ⟨ia, h2, ds⟩ := p
      rfl
/-- Phase 5 on a shared map object: the manifests `sha256:a` of `linux/amd64`
and `sha256:b` of `linux/arm64` hold the same map object, and the annotation
is for the children of `linux/amd64`.  The loop writes `foo = bar` into the
map object of the first child, so the second child has the annotation as
well; on the contents of the maps the second child has none. -/
theorem overlay_on_shared_map_object :
    composeIndexRef sampleEnv sampleSched sharedHeap
        [([0], ⟨sharedA, "reg/x"⟩), ([0], ⟨sharedB, "reg/x"⟩)]
        [("manifest-descriptor[linux/amd64]:foo", "bar")]
      = .ok ⟨2, MediaTypeImageIndex,
          [{ manifestA with Annotations := some [("foo", "bar")] },
            { manifestB with Annotations := some [("foo", "bar")] }], some []⟩ ∧
      composeIndex sampleEnv sampleSched
        (valuesAt sharedHeap [([0], ⟨sharedA, "reg/x"⟩), ([0], ⟨sharedB, "reg/x"⟩)])
        [("manifest-descriptor[linux/amd64]:foo", "bar")]
      = .ok ⟨2, MediaTypeImageIndex,
          [{ manifestA with Annotations := some [("foo", "bar")] },
            { manifestB with Annotations := some [] }], some []⟩ :=
  ⟨by decide, by decide⟩

end Imagetools
